import Mathlib

/-!
Verification development for the sparse second-quantization engine
(Key.hpp / KeyAux.hpp / State.hpp / StateAux.hpp).

Shallow embedding conventions:
* The C++ integer template parameter Int is modelled by the unbounded
  integers ZZ; the photon-number regime of the program (at most 12 photons)
  never overflows the machine type, so overflow is not modelled.
* boost flat_map containers are modelled as association lists that are kept
  sorted by strictly increasing key, built exclusively through ordered
  insertion helpers (insert with a position hint in boost is semantically a
  plain ordered insertion; the hint is only a performance device).
* The amplitude type Val is an arbitrary field K with decidable equality.
  The floating-point helpers of the source that have no exact field
  counterpart are abstracted into an Ops record: sq models the composite
  (Val) std::sqrt(.), conj models conj<Val>, absv models (Val) std::abs(.),
  big models the tolerance test (std::abs(v) > tol), and absOne models the
  test (std::abs(v) == 1.0) used by addPhoton. Theorems state exactly the
  algebraic facts about these operations that the claims need, and witnesses
  instantiate them concretely.
* Wave-function descriptors (std::vector<Real>) are an opaque type W; the
  caller-supplied overlap function pointer is passed explicitly as a
  function argument of type W -> W -> K.
-/

/-- One flat_map entry of a Key: ((spatial mode, distinguishability mode),
occupation number). -/
abbrev Entry : Type := (ℤ × ℤ) × ℤ

/-- A Key (one Fock basis ket): the entry list of the underlying
boost::container::flat_map, sorted by strictly increasing mode pair. -/
abbrev KeyT : Type := List Entry

/-- Strict order on mode pairs: the std::pair lexicographic order. -/
def pLt (x y : ℤ × ℤ) : Bool :=
  decide (x.1 < y.1) || (decide (x.1 = y.1) && decide (x.2 < y.2))

/-- Strict order on entries: std::pair of (pair, int) lexicographic order. -/
def eLt (x y : Entry) : Bool :=
  pLt x.1 y.1 || (decide (x.1 = y.1) && decide (x.2 < y.2))

/-- Strict order on Keys: std::lexicographical_compare on the entry
sequences, which is how boost compares two flat_maps. -/
def keyLt : KeyT → KeyT → Bool
  | [], [] => false
  | [], _ :: _ => true
  | _ :: _, [] => false
  | x :: xs, y :: ys => eLt x y || (decide (x = y) && keyLt xs ys)

/-- Ordered insert_or_assign into a Key: on an existing mode pair the
occupation is replaced. -/
def insA (p : ℤ × ℤ) (c : ℤ) : KeyT → KeyT
  | [] => [(p, c)]
  | e :: es =>
    if pLt p e.1 then (p, c) :: e :: es
    else if p = e.1 then (p, c) :: es
    else e :: insA p c es

/-- Ordered emplace-and-add into a Key: on an existing mode pair the
occupations are added (the collision branch of Key::add). -/
def insAdd (p : ℤ × ℤ) (c : ℤ) : KeyT → KeyT
  | [] => [(p, c)]
  | e :: es =>
    if pLt p e.1 then (p, c) :: e :: es
    else if p = e.1 then (e.1, e.2 + c) :: es
    else e :: insAdd p c es

/-- Ordered plain insert into a Key: an existing mode pair is kept
unchanged (std map insert semantics). -/
def insNew (p : ℤ × ℤ) (c : ℤ) : KeyT → KeyT
  | [] => [(p, c)]
  | e :: es =>
    if pLt p e.1 then (p, c) :: e :: es
    else if p = e.1 then e :: es
    else e :: insNew p c es

/-- Key::add: adds another map entrywise; occupation numbers of matching
mode pairs are added. -/
def Key.add (base inc : KeyT) : KeyT :=
  inc.foldl (fun k e => insAdd e.1 e.2 k) base

/-- Key::clean: removes entries whose occupation number is not positive. -/
def Key.clean (k : KeyT) : KeyT :=
  k.filter (fun e => decide (0 < e.2))

/-- Key::addEnd: insert_or_assign of the entry (a, b) -> c. -/
def Key.addEnd (a b c : ℤ) (k : KeyT) : KeyT := insA (a, b) c k

/-- Modelled from the spec: Key::incr is called by State::addPhoton but its
definition is not part of the sources under src/; per the spec it extends
the Key in place by adding count occupation at (spatial_mode, matched
distinguishability index). -/
def Key.incr (m idx num : ℤ) (k : KeyT) : KeyT := insAdd (m, idx) num k

/-- facut from KeyAux.hpp: the exact integer factorial (the precomputed
table FACUT12 holds exactly the factorials 0! .. 12!, and the recursion
i * facut (i-1) continues them). Negative arguments are out of the
function's C++ domain and are mapped through Int.toNat. -/
def facut (n : ℤ) : ℤ := (Nat.factorial n.toNat : ℤ)

/-- binomialCoeff from KeyAux.hpp: facut n / (facut k * facut (n-k)) with
C++ integer (truncating) division, exact for 0 <= k <= n. -/
def binomialCoeff (n k : ℤ) : ℤ := facut n / (facut k * facut (n - k))

/-- The record of amplitude-type operations the source obtains from the
C++ numeric library, abstracted: sq is (Val) std::sqrt(.), conj is
conj<Val>, absv is (Val) std::abs(.), big v is the test
std::abs(v) > tol, absOne v is the test std::abs(v) == 1.0. -/
structure Ops (K : Type) where
  sq : K → K
  conj : K → K
  absv : K → K
  big : K → Bool
  absOne : K → Bool

/-- Key::factor(a, b): sqrt of the product of facut(occupation) over the
entries whose spatial mode is a or b (the second-quantization normalization
factor restricted to two modes). -/
def Key.factor2 {K : Type} [Field K] (ops : Ops K) (a b : ℤ) (k : KeyT) : K :=
  ops.sq (k.foldl
    (fun r e => if e.1.1 = a ∨ e.1.1 = b then r * ((facut e.2 : ℤ) : K) else r) 1)

/-- Key::factor(): sqrt of the product of facut(occupation) over all
entries. -/
def Key.factorAll {K : Type} [Field K] (ops : Ops K) (k : KeyT) : K :=
  ops.sq (k.foldl (fun r e => r * ((facut e.2 : ℤ) : K)) 1)

/-- A State-like sparse map from Keys to amplitudes
(boost::container::flat_map<Key, Val>), sorted by strictly increasing
Key. -/
abbrev SD (K : Type) : Type := List (KeyT × K)

/-- Ordered insert_or_assign into a sparse amplitude map. -/
def insKV {K : Type} (k : KeyT) (v : K) : SD K → SD K
  | [] => [(k, v)]
  | q :: qs =>
    if keyLt k q.1 then (k, v) :: q :: qs
    else if k = q.1 then (k, v) :: qs
    else q :: insKV k v qs

/-- Ordered emplace into a sparse amplitude map where a collision adds the
amplitudes (the emplace / += pattern used throughout State and
Key::apply). -/
def insKVadd {K : Type} [Field K] (k : KeyT) (v : K) : SD K → SD K
  | [] => [(k, v)]
  | q :: qs =>
    if keyLt k q.1 then (k, v) :: q :: qs
    else if k = q.1 then (q.1, q.2 + v) :: qs
    else q :: insKVadd k v qs

/-- Ordered plain insert into a sparse amplitude map: an existing Key keeps
its amplitude. -/
def insKVnew {K : Type} (k : KeyT) (v : K) : SD K → SD K
  | [] => [(k, v)]
  | q :: qs =>
    if keyLt k q.1 then (k, v) :: q :: qs
    else if k = q.1 then q :: qs
    else q :: insKVnew k v qs

/-- The unnormalized branch amplitude of Key::apply for one affected entry
of occupation n and branch index j:
U[i]^j * binomialCoeff(n, j) * U[i+2]^(n-j) / sqrt(facut n). -/
def branchAmp {K : Type} [Field K] (ops : Ops K) (u0 u2 : K) (n : ℤ) (j : ℕ) : K :=
  u0 ^ j * ((binomialCoeff n (j : ℤ) : ℤ) : K) * u2 ^ (n - (j : ℤ)).toNat /
    ops.sq ((facut n : ℤ) : K)

/-- The branch Key of Key::apply for one affected entry: j photons at
(modes[0], d) and n-j photons at (modes[1], d), followed by Key::clean. -/
def branchKey (a b d n : ℤ) (j : ℕ) : KeyT :=
  Key.clean (insA (b, d) (n - (j : ℤ)) [((a, d), (j : ℤ))])

/-- The inner RetIter map of Key::apply: the branches j = 0 .. n of one
affected entry, collected by ordered insertion (for n < 0 the C++ loop
body never runs and the map stays empty). -/
def branches {K : Type} [Field K] (ops : Ops K) (u0 u2 : K) (a b d n : ℤ) : SD K :=
  if n < 0 then []
  else ((List.range (n.toNat + 1)).map
      (fun j => (branchKey a b d n j, branchAmp ops u0 u2 n j))).foldl
    (fun m p => insKV p.1 p.2 m) []

/-- The RetIter2 convolution step of Key::apply: the Cartesian product of
the branch map with the accumulated map, merging Keys by entrywise
addition and amplitudes by multiplication, with amplitude addition on Key
collision. -/
def convolve {K : Type} [Field K] (bm ret : SD K) : SD K :=
  bm.foldl
    (fun acc bp =>
      ret.foldl (fun acc2 rp => insKVadd (Key.add bp.1 rp.1) (bp.2 * rp.2) acc2) acc)
    []

/-- Key::apply (two-mode unitary in second quantization, U in line
format): entries away from modes[0], modes[1] are broadcast unchanged over
all accumulated branches; affected entries are expanded into their binomial
branch map and convolved in; finally amplitudes above tolerance are kept
and multiplied by Key::factor(modes[0], modes[1]). -/
def Key.apply {K : Type} [Field K] [DecidableEq K] (ops : Ops K) (U : List K)
    (modes : List ℤ) (k : KeyT) : SD K :=
  let a := modes.getD 0 0
  let b := modes.getD 1 0
  let ret := k.foldl
    (fun ret e =>
      let m := e.1.1
      let d := e.1.2
      let n := e.2
      if m ≠ a ∧ m ≠ b then
        ret.foldl (fun acc p => insKV (insA (m, d) n p.1) p.2 acc) []
      else
        let i : ℕ := if m = a then 0 else 1
        convolve (branches ops (U.getD i 0) (U.getD (i + 2) 0) a b d n) ret)
    [([], 1)]
  (ret.filter (fun p => ops.big p.2)).map
    (fun p => (p.1, p.2 * Key.factor2 ops a b p.1))

/-- Key::apply for a single mode (diagonal phase): U raised to the total
occupation at the given spatial mode (zpow, as the total is an Int). -/
def Key.apply1 {K : Type} [Field K] (U : K) (mode : ℤ) (k : KeyT) : K :=
  U ^ (k.foldl (fun acc e => if e.1.1 = mode then acc + e.2 else acc) (0 : ℤ))

/-- Key::swap: relabels spatial modes a and b in every entry. -/
def Key.swap (a b : ℤ) (k : KeyT) : KeyT :=
  k.foldl
    (fun par e =>
      let p : Entry :=
        if e.1.1 = a then ((b, e.1.2), e.2)
        else if e.1.1 = b then ((a, e.1.2), e.2)
        else e
      insNew p.1 p.2 par)
    []

/-- Ordered emplace-and-add into an Int -> Int flat_map (the col
accumulator of Key::overlapping). -/
def insZAdd (m c : ℤ) : List (ℤ × ℤ) → List (ℤ × ℤ)
  | [] => [(m, c)]
  | e :: es =>
    if m < e.1 then (m, c) :: e :: es
    else if m = e.1 then (e.1, e.2 + c) :: es
    else e :: insZAdd m c es

/-- Key::overlapping: collects, per spatial mode named in ref, the total
occupation (summed over distinguishability labels), then demands that every
mode in ref has exactly the required total (a mode absent from the
collection passes only if the requirement is 0). -/
def Key.overlapping (k : KeyT) (ref : List (ℤ × ℤ)) : Bool :=
  let col := k.foldl
    (fun col e =>
      if (ref.find? (fun r => decide (r.1 = e.1.1))).isSome then insZAdd e.1.1 e.2 col
      else col)
    []
  ref.all (fun r =>
    match col.find? (fun c => decide (c.1 = r.1)) with
    | none => decide (r.2 = 0)
    | some c => decide (c.2 = r.2))

/-- The per-group scan of Key::notEmpty: walks the entries, erasing from
the remaining-modes list each first occurrence of an occupied mode, and
reports true as soon as the list is exhausted. -/
def Key.notEmptyGo (msub : List ℤ) : List Entry → Bool
  | [] => false
  | e :: es =>
    let msub2 := if msub.contains e.1.1 && decide (0 < e.2) then msub.erase e.1.1 else msub
    if msub2.isEmpty then true else Key.notEmptyGo msub2 es

/-- Key::notEmpty: true if for some group every mode of the group carries a
photon, and vacuously true for an empty group list. -/
def Key.notEmpty (k : KeyT) (allModes : List (List ℤ)) : Bool :=
  allModes.any (fun M => Key.notEmptyGo M k) || allModes.isEmpty

/-- The scanning loop of Key::sameDModeDel: returns none on the early
return-false path (a second distinguishability label among the occupied
modes of m), otherwise the final sentinel label, the number of occupied
entries found in m, and the rebuilt entry list. -/
def Key.sameDModeDelGo (m : List ℤ) (dmode founds : ℤ) (p : KeyT) :
    List Entry → Option (ℤ × ℤ × KeyT)
  | [] => some (dmode, founds, p)
  | e :: es =>
    if m.contains e.1.1 && decide (e.2 ≠ 0) then
      if dmode = -1 then Key.sameDModeDelGo m e.1.2 (founds + 1) p es
      else if e.1.2 ≠ dmode then none
      else Key.sameDModeDelGo m dmode (founds + 1) p es
    else if e.2 ≠ 0 then Key.sameDModeDelGo m dmode founds (insNew e.1 e.2 p) es
    else Key.sameDModeDelGo m dmode founds p es

/-- Key::sameDModeDel: on the early false path the Key is untouched; in
every other case the Key is replaced by the rebuilt list (dropping the
modes of m and all zero-occupation entries) and the result compares the
number of occupied entries found with m.size(). -/
def Key.sameDModeDel (m : List ℤ) (k : KeyT) : Bool × KeyT :=
  match Key.sameDModeDelGo m (-1) 0 [] k with
  | none => (false, k)
  | some r => (decide (r.2.1 = (m.length : ℤ)), r.2.2)

/-- Key::loss: the branch map of single-photon loss on the given modes.
For each entry with spatial mode in modes and positive occupation, one
photon is moved to the environment mode lossMode + (index of the mode in
modes) with unnormalized amplitude sqrt(occupation); the highest used
environment mode is tracked. With no qualifying occupation the identity
branch (k, 1) is returned; otherwise the map is divided by
sqrt(total qualifying occupation). -/
def Key.loss {K : Type} [Field K] [DecidableEq K] (ops : Ops K) (modes : List ℤ)
    (lossMode : ℤ) (k : KeyT) (maxLM : ℤ) : SD K × ℤ :=
  let r := k.foldl
    (fun (acc : SD K × ℤ × ℤ) (e : Entry) =>
      match modes.findIdx? (fun x => decide (x = e.1.1)) with
      | none => acc
      | some j =>
        if 0 < e.2 then
          let k2 := insA (lossMode + (j : ℤ), e.1.2) 1
            (k.map (fun e2 => if e2.1 = e.1 then (e2.1, e2.2 - 1) else e2))
          (insKV k2 (ops.sq ((e.2 : ℤ) : K)) acc.1, acc.2.1 + e.2,
            if lossMode + (j : ℤ) ≥ acc.2.2 then lossMode + (j : ℤ) + 1 else acc.2.2)
        else acc)
    ([], 0, maxLM)
  if r.2.1 = 0 then ([(k, 1)], r.2.2)
  else (r.1.map (fun p => (p.1, p.2 / ops.sq ((r.2.1 : ℤ) : K))), r.2.2)

/-- Key::collapse: rewrites every distinguishability label through the
mapping f (given positionally, as State::collapse builds it with keys
0, 1, 2, ...; an out-of-range label would raise in C++ and is mapped to 0
here), merging colliding mode pairs by adding occupations, and rescales the
amplitude by factor-after / factor-before. -/
def Key.collapse {K : Type} [Field K] (ops : Ops K) (f : List ℤ) (k : KeyT) (amp : K) :
    KeyT × K :=
  let pre := Key.factorAll ops k
  let p := k.foldl (fun p e => insAdd (e.1.1, f.getD e.1.2.toNat 0) e.2 p) []
  (p, amp * (Key.factorAll ops p / pre))

/-- The central data structure State: the sparse amplitude map plus the
non-orthogonal wave functions, the Gram-Schmidt orthogonal basis (as
coefficient vectors over the wave functions) and the loss-mode floor. The
C++ members get_ovlp and tol are modelled as explicit function arguments
(the Ops record and the ov argument) of each operation. -/
structure State (K W : Type) where
  amp : SD K
  waves : List W := []
  basis : List (List K) := []
  lossMode : ℤ := 0

/-- ovlpH from StateAux.hpp: the inner product of an orthogonal-basis
coefficient vector with a wave function, through the caller-supplied
overlap: sum of conj(b[i]) * ov(waves[i], wf). -/
def ovlpH {K W : Type} [Field K] (ops : Ops K) (ov : W → W → K) (b : List K)
    (wf : W) (waves : List W) : K :=
  (List.zip b waves).foldl (fun acc p => acc + ops.conj p.1 * ov p.2 wf) 0

/-- ovlp from StateAux.hpp: the inner product of two coefficient vectors:
sum of c[i] * ovlpH(b, waves[i]). -/
def ovlp {K W : Type} [Field K] (ops : Ops K) (ov : W → W → K) (b c : List K)
    (waves : List W) : K :=
  (List.zip c waves).foldl (fun acc p => acc + p.1 * ovlpH ops ov b p.2 waves) 0

/-- The in-place update bNew[j] += basis_i[j] * ov of addBasisElem (the
loop runs over the length of basis_i, which never exceeds bNew). -/
def addSc {K : Type} [Field K] : List K → List K → K → List K
  | xs, [], _ => xs
  | [], _ :: _, _ => []
  | x :: xs, y :: ys, c => (x + y * c) :: addSc xs ys c

/-- State::addBasisElem: one Gram-Schmidt step. Subtracts from a fresh
candidate vector the projections onto every stored basis vector, appends
the coordinate 1 for the new wave function, pushes the wave function,
normalizes by sqrt(abs(self overlap)), stores the basis vector, and returns
the decomposition coefficients (normalized when their norm is nonzero)
together with the updated state. -/
def State.addBasisElem {K W : Type} [Field K] [DecidableEq K] (ops : Ops K)
    (ov : W → W → K) (S : State K W) (wf : W) : List K × State K W :=
  let r := S.basis.foldl
    (fun (acc : List K × List K) bi =>
      let o := ovlpH ops ov bi wf S.waves
      (addSc acc.1 bi (-o), acc.2 ++ [o]))
    (List.replicate S.basis.length 0, [])
  let bNew := r.1 ++ [1]
  let waves2 := S.waves ++ [wf]
  let normC := ovlp ops ov bNew bNew waves2
  let bNew2 := bNew.map (fun x => x / ops.sq (ops.absv normC))
  let decomp2 := r.2 ++ [ovlpH ops ov bNew2 wf waves2]
  let norm2 := decomp2.foldl (fun acc a => acc + ops.absv a ^ 2) 0
  let decomp3 := if norm2 = 0 then decomp2 else decomp2.map (fun x => x / ops.sq norm2)
  (decomp3, { S with waves := waves2, basis := S.basis ++ [bNew2] })

/-- State::addPhoton: on an empty amplitude map seeds the state; else, if
some stored wave function has overlap of magnitude one with the new one
(first match), every Key is extended in place through Key::incr at the
matched index; otherwise a Gram-Schmidt step is performed and every Key is
fanned out over the decomposition coefficients. Also raises the loss-mode
floor above the used spatial mode. -/
def State.addPhoton {K W : Type} [Field K] [DecidableEq K] (ops : Ops K)
    (ov : W → W → K) (wf : W) (mode num : ℤ) (S : State K W) : State K W :=
  let lm := if mode ≥ S.lossMode then mode + 1 else S.lossMode
  match S.amp with
  | [] =>
    { S with
      amp := [([((mode, 0), num)], 1)]
      waves := S.waves ++ [wf]
      basis := S.basis ++ [[1]]
      lossMode := lm }
  | _ :: _ =>
    match S.waves.findIdx? (fun w => ops.absOne (ov wf w)) with
    | some index =>
      { S with
        amp := S.amp.foldl
          (fun acc p => insKVnew (Key.incr mode (index : ℤ) num p.1) p.2 acc) []
        lossMode := lm }
    | none =>
      let r := State.addBasisElem ops ov S wf
      { r.2 with
        amp := S.amp.foldl
          (fun acc p =>
            (List.range r.1.length).foldl
              (fun acc2 (i : ℕ) =>
                insKVnew (Key.addEnd mode (i : ℤ) num p.1) (p.2 * r.1.getD i 0) acc2)
              acc)
          []
        lossMode := lm }

/-- State::add(p, v): accumulates a scaled state-like map into an
amplitude map, adding amplitudes on Key collision. -/
def State.addInto {K : Type} [Field K] (acc p : SD K) (v : K) : SD K :=
  p.foldl (fun acc q => insKVadd q.1 (v * q.2) acc) acc

/-- State::norm: sqrt of the sum of abs(amplitude)^2. -/
def State.norm {K W : Type} [Field K] (ops : Ops K) (S : State K W) : K :=
  ops.sq (S.amp.foldl (fun r p => r + ops.absv p.2 ^ 2) 0)

/-- State::clean: drops every term whose amplitude fails the tolerance
test. -/
def State.clean {K W : Type} (ops : Ops K) (S : State K W) : State K W :=
  { S with amp := S.amp.filter (fun p => ops.big p.2) }

/-- State::normalise: divides by the norm, where a zero norm is replaced
by one, and prunes by tolerance. -/
def State.normalise {K W : Type} [Field K] [DecidableEq K] (ops : Ops K)
    (S : State K W) : State K W :=
  let n := State.norm ops S
  let n2 := if n = 0 then 1 else n
  { S with amp := (S.amp.map (fun p => (p.1, p.2 / n2))).filter (fun p => ops.big p.2) }

/-- State::mul: multiplies every amplitude by the scalar and prunes by
tolerance. -/
def State.mul {K W : Type} [Field K] (ops : Ops K) (n : K) (S : State K W) :
    State K W :=
  { S with amp := (S.amp.map (fun p => (p.1, p.2 * n))).filter (fun p => ops.big p.2) }

/-- State::apply (two-mode): fans every term out through Key::apply,
accumulates the scaled branch maps (amplitudes adding on collision) and
cleans by tolerance. -/
def State.apply {K W : Type} [Field K] [DecidableEq K] (ops : Ops K) (U : List K)
    (modes : List ℤ) (S : State K W) : State K W :=
  { S with
    amp := (S.amp.foldl
        (fun acc p => State.addInto acc (Key.apply ops U modes p.1) p.2) []).filter
      (fun p => ops.big p.2) }

/-- State::apply (single mode): scales every amplitude by the diagonal
phase factor of its Key; the Keys are untouched and there is no pruning. -/
def State.apply1 {K W : Type} [Field K] (U : K) (mode : ℤ) (S : State K W) :
    State K W :=
  { S with amp := S.amp.map (fun p => (p.1, p.2 * Key.apply1 U mode p.1)) }

/-- State::swap: relabels the two spatial modes in every Key. -/
def State.swap {K W : Type} (a b : ℤ) (S : State K W) : State K W :=
  { S with amp := S.amp.foldl (fun par p => insKVnew (Key.swap a b p.1) p.2 par) [] }

/-- State::overlapWithFilter: keeps in the state the terms that match the
measurement pattern, pass post-selection and overlap some fidelity
reference; returns (as a fresh state) the terms that match the pattern and
post-selection but no fidelity reference; every other term is dropped. -/
def State.overlapWithFilter {K W : Type} (ref : List (ℤ × ℤ))
    (allModes : List (List ℤ)) (fref : List (List (ℤ × ℤ))) (S : State K W) :
    State K W × State K W :=
  let r := S.amp.foldl
    (fun (acc : SD K × SD K) p =>
      if Key.overlapping p.1 ref && Key.notEmpty p.1 allModes then
        if fref.any (fun m => Key.overlapping p.1 m) then
          (insKVnew p.1 p.2 acc.1, acc.2)
        else (acc.1, insKVnew p.1 p.2 acc.2)
      else acc)
    ([], [])
  ({ S with amp := r.1 }, { amp := r.2 })

/-- State::overlapCompl: keeps the terms that overlap no measurement
pattern or fail post-selection. -/
def State.overlapCompl {K W : Type} (MVec : List (List (ℤ × ℤ)))
    (allModes : List (List ℤ)) (S : State K W) : State K W :=
  { S with
    amp := S.amp.foldl
      (fun p q =>
        if !(MVec.any (fun ref => Key.overlapping q.1 ref)) ||
            !(Key.notEmpty q.1 allModes) then
          insKVnew q.1 q.2 p
        else p)
      [] }

/-- State::loss: fans every term out through Key::loss (threading the
highest environment mode used), accumulates, raises the loss-mode floor
and cleans by tolerance. -/
def State.loss {K W : Type} [Field K] [DecidableEq K] (ops : Ops K)
    (modes : List ℤ) (S : State K W) : State K W :=
  let r := S.amp.foldl
    (fun (acc : SD K × ℤ) p =>
      let lr := Key.loss ops modes S.lossMode p.1 acc.2
      (State.addInto acc.1 lr.1 p.2, lr.2))
    ([], 0)
  { S with
    amp := r.1.filter (fun p => ops.big p.2)
    lossMode := if r.2 > S.lossMode then r.2 else S.lossMode }

/-- State::collapse: builds the positional label mapping from the template
Key and rewrites every term through Key::collapse, adding amplitudes on
Key collision. -/
def State.collapse {K W : Type} [Field K] (ops : Ops K) (Kt : KeyT)
    (S : State K W) : State K W :=
  let f := Kt.map (fun e => e.1.2)
  { S with
    amp := S.amp.foldl
      (fun p q =>
        let kc := Key.collapse ops f q.1 q.2
        insKVadd kc.1 kc.2 p)
      [] }

/-- State::notEmpty: drops the terms failing the occupancy test, then
renormalises. -/
def State.notEmpty {K W : Type} [Field K] [DecidableEq K] (ops : Ops K)
    (allModes : List (List ℤ)) (S : State K W) : State K W :=
  State.normalise ops
    { S with amp := S.amp.filter (fun p => Key.notEmpty p.1 allModes) }

/-- The per-term group search of State::sameDModeDel: tries the groups in
order on a fresh copy of the Key and returns the index and the mutated Key
of the first success. -/
def firstDel (k : KeyT) : List (List ℤ) → ℕ → Option (ℕ × KeyT)
  | [], _ => none
  | m :: ms, i =>
    let r := Key.sameDModeDel m k
    if r.1 then some (i, r.2) else firstDel k ms (i + 1)

/-- State::sameDModeDel: each term is replaced by its first successful
projection, scaled by the factor of the matching group (a missing factor
would be out of range in C++ and is taken as 0 here); terms with no
successful group are dropped. -/
def State.sameDModeDel {K W : Type} [Field K] (modes : List (List ℤ))
    (facs : List K) (S : State K W) : State K W :=
  { S with
    amp := S.amp.foldl
      (fun p q =>
        match firstDel q.1 modes 0 with
        | none => p
        | some r => insKVadd r.2 (q.2 * facs.getD r.1 0) p)
      [] }

/-! Order and sortedness toolkit for the flat_map embedding. -/

/-- Sortedness of a Key: strictly increasing mode pairs, the flat_map
representation invariant. -/
def KSorted (k : KeyT) : Prop := k.Pairwise (fun e f => pLt e.1 f.1 = true)

/-- Sortedness of a sparse amplitude map: strictly increasing Keys. -/
def SSorted {K : Type} (l : SD K) : Prop := l.Pairwise (fun p q => keyLt p.1 q.1 = true)

instance : DecidablePred KSorted := fun k =>
  List.instDecidablePairwise k

instance {K : Type} : DecidablePred (SSorted (K := K)) := fun l =>
  List.instDecidablePairwise l

/-- The total amplitude a sparse map holds at a Key (used to reason about
emplace-with-add accumulation). -/
def sumAt {K : Type} [Field K] (k : KeyT) : SD K → K
  | [] => 0
  | q :: qs => (if q.1 = k then q.2 else 0) + sumAt k qs

/-- Occupation lookup at a mode pair (the flat_map find). -/
def lookupP (p : ℤ × ℤ) (k : KeyT) : Option ℤ :=
  (k.find? (fun e => decide (e.1 = p))).map (fun e => e.2)

/-- The occupied-in-m test of Key::sameDModeDel for one entry. -/
def keyOcc (m : List ℤ) (e : Entry) : Bool := m.contains e.1.1 && decide (e.2 ≠ 0)

/-- The kept-entry test of Key::sameDModeDel: entries away from m with
nonzero occupation are copied into the rebuilt Key. -/
def keptEntry (m : List ℤ) (e : Entry) : Bool :=
  !(m.contains e.1.1) && decide (e.2 ≠ 0)

/-- A concrete rational instantiation of the abstracted numeric
operations, used by witnesses: sq and conj and absv act as the identity or
rational absolute value, big is the exact nonzero test (an idealized
tolerance), absOne tests for magnitude one among rationals. -/
def qOps : Ops ℚ where
  sq := id
  conj := id
  absv := fun v => |v|
  big := fun v => decide (v ≠ 0)
  absOne := fun v => decide (v = 1 ∨ v = -1)

/-- Total occupation of a Key on a set of target spatial modes (the claim
notion "total occupation on the target modes"). -/
def occOn (modes : List ℤ) : KeyT → ℤ
  | [] => 0
  | e :: es => (if modes.contains e.1.1 then e.2 else 0) + occOn modes es

/-- The total amplitude a sparse amplitude map assigns to the spatial
configuration with n0 photons at spatial mode 0 and n1 photons at spatial
mode 1 (summed over all distinguishability labels). -/
def configAmp {K : Type} [Field K] (n0 n1 : ℤ) (l : SD K) : K :=
  (l.filter (fun p => decide (occOn [0] p.1 = n0 ∧ occOn [1] p.1 = n1))).foldl
    (fun acc p => acc + p.2) 0

/-- The product, as a natural number, of the factorials of the occupation
numbers of the entries at spatial modes a or b (the quantity whose square
root Key::factor(a, b) computes). -/
def facProdN (a b : ℤ) : KeyT → ℕ
  | [] => 1
  | e :: es => (if e.1.1 = a ∨ e.1.1 = b then (facut e.2).toNat else 1) * facProdN a b es

/-- The amplitude the identity unitary accumulates along a Key: the product
of 1 / sqrt(occupation!) over the entries at spatial modes a or b. -/
def ampId {K : Type} [Field K] (ops : Ops K) (a b : ℤ) : KeyT → K
  | [] => 1
  | e :: es =>
    (if e.1.1 = a ∨ e.1.1 = b then 1 / ops.sq ((facut e.2 : ℤ) : K) else 1) *
      ampId ops a b es

/-- All occupation numbers of a Key are strictly positive (the exposure
invariant the spec claims for the AmplitudeMap). -/
abbrev posKey (k : KeyT) : Prop := ∀ e ∈ k, 0 < e.2

/-- All occupation numbers of a Key are non-negative. -/
abbrev nnKey (k : KeyT) : Prop := ∀ e ∈ k, 0 ≤ e.2

/-- Every Key of a sparse amplitude map has strictly positive occupation
numbers. -/
abbrev posAmp {K : Type} (l : SD K) : Prop := ∀ p ∈ l, posKey p.1

theorem pLt_iff (x y : ℤ × ℤ) :
    pLt x y = true ↔ (x.1 < y.1 ∨ (x.1 = y.1 ∧ x.2 < y.2)) := by
  simp [pLt]

theorem pLt_irrefl (x : ℤ × ℤ) : pLt x x = false := by
  simp [pLt]

theorem pLt_trans : ∀ {x y z : ℤ × ℤ}, pLt x y = true → pLt y z = true →
    pLt x z = true := by
  rintro ⟨a, c⟩ ⟨b, d⟩ ⟨u, v⟩ h1 h2
  simp [pLt] at h1 h2 ⊢
  omega

theorem pLt_asymm : ∀ {x y : ℤ × ℤ}, pLt x y = true → pLt y x = false := by
  rintro ⟨a, c⟩ ⟨b, d⟩ h
  simp [pLt] at h ⊢
  omega

theorem pLt_ne : ∀ {x y : ℤ × ℤ}, pLt x y = true → x ≠ y := by
  rintro ⟨a, c⟩ ⟨b, d⟩ h
  simp [pLt] at h
  simp only [ne_eq, Prod.mk.injEq]
  omega

theorem pLt_total : ∀ {x y : ℤ × ℤ}, pLt x y = false → pLt y x = false → x = y := by
  rintro ⟨a, c⟩ ⟨b, d⟩ h1 h2
  simp [pLt] at h1 h2
  simp only [Prod.mk.injEq]
  omega

theorem eLt_irrefl (x : Entry) : eLt x x = false := by
  simp [eLt, pLt_irrefl]

theorem eLt_trans : ∀ {x y z : Entry}, eLt x y = true → eLt y z = true →
    eLt x z = true := by
  rintro ⟨⟨a1, a2⟩, a3⟩ ⟨⟨b1, b2⟩, b3⟩ ⟨⟨c1, c2⟩, c3⟩ h1 h2
  simp [eLt, pLt] at h1 h2 ⊢
  omega

theorem eLt_asymm : ∀ {x y : Entry}, eLt x y = true → eLt y x = false := by
  rintro ⟨⟨a1, a2⟩, a3⟩ ⟨⟨b1, b2⟩, b3⟩ h
  simp [eLt, pLt] at h ⊢
  omega

theorem eLt_ne : ∀ {x y : Entry}, eLt x y = true → x ≠ y := by
  rintro ⟨⟨a1, a2⟩, a3⟩ ⟨⟨b1, b2⟩, b3⟩ h
  simp [eLt, pLt] at h
  simp only [ne_eq, Prod.mk.injEq]
  omega

theorem eLt_total : ∀ {x y : Entry}, eLt x y = false → eLt y x = false → x = y := by
  rintro ⟨⟨a1, a2⟩, a3⟩ ⟨⟨b1, b2⟩, b3⟩ h1 h2
  simp [eLt, pLt] at h1 h2
  simp only [Prod.mk.injEq]
  omega

theorem keyLt_irrefl (x : KeyT) : keyLt x x = false := by
  induction x with
  | nil => rfl
  | cons e es ih => simp [keyLt, eLt_irrefl, ih]

theorem keyLt_trans {x y z : KeyT} (h1 : keyLt x y = true) (h2 : keyLt y z = true) :
    keyLt x z = true := by
  induction x generalizing y z with
  | nil =>
    cases y with
    | nil => exact absurd h1 (by simp [keyLt])
    | cons f fs =>
      cases z with
      | nil => exact absurd h2 (by simp [keyLt])
      | cons g gs => simp [keyLt]
  | cons e es ih =>
    cases y with
    | nil => exact absurd h1 (by simp [keyLt])
    | cons f fs =>
      cases z with
      | nil => exact absurd h2 (by simp [keyLt])
      | cons g gs =>
        simp only [keyLt, Bool.or_eq_true, Bool.and_eq_true, decide_eq_true_eq] at h1 h2 ⊢
        rcases h1 with h1 | ⟨rfl, h1⟩ <;> rcases h2 with h2 | ⟨rfl, h2⟩
        · exact Or.inl (eLt_trans h1 h2)
        · exact Or.inl h1
        · exact Or.inl h2
        · exact Or.inr ⟨rfl, ih h1 h2⟩

theorem keyLt_ne {x y : KeyT} (h : keyLt x y = true) : x ≠ y := by
  rintro rfl
  rw [keyLt_irrefl] at h
  exact Bool.false_ne_true h

theorem keyLt_asymm {x y : KeyT} (h : keyLt x y = true) : keyLt y x = false := by
  induction x generalizing y with
  | nil =>
    cases y with
    | nil => exact absurd h (by simp [keyLt])
    | cons f fs => simp [keyLt]
  | cons e es ih =>
    cases y with
    | nil => exact absurd h (by simp [keyLt])
    | cons f fs =>
      simp only [keyLt, Bool.or_eq_true, Bool.and_eq_true, decide_eq_true_eq] at h
      simp only [keyLt, Bool.or_eq_false_iff, Bool.and_eq_false_iff]
      rcases h with h | ⟨rfl, h⟩
      · refine ⟨eLt_asymm h, ?_⟩
        left
        simpa using (eLt_ne h).symm
      · exact ⟨eLt_irrefl e, Or.inr (ih h)⟩

theorem keyLt_total {x y : KeyT} (h1 : keyLt x y = false) (h2 : keyLt y x = false) :
    x = y := by
  induction x generalizing y with
  | nil =>
    cases y with
    | nil => rfl
    | cons f fs => exact absurd h1 (by simp [keyLt])
  | cons e es ih =>
    cases y with
    | nil => exact absurd h2 (by simp [keyLt])
    | cons f fs =>
      simp only [keyLt, Bool.or_eq_false_iff, Bool.and_eq_false_iff] at h1 h2
      have hef : e = f := by
        apply eLt_total h1.1 h2.1
      subst hef
      rcases h1.2 with h | h
      · simp at h
      · rcases h2.2 with h2t | h2t
        · simp at h2t
        · rw [ih h h2t]

theorem boolCases (b : Bool) : b = false ∨ b = true := by
  cases b
  · exact Or.inl rfl
  · exact Or.inr rfl

theorem pLt_flip {x y : ℤ × ℤ} (h : pLt x y = false) (hne : x ≠ y) :
    pLt y x = true := by
  rcases boolCases (pLt y x) with h2 | h2
  · exact absurd (pLt_total h h2) hne
  · exact h2

theorem keyLt_flip {x y : KeyT} (h : keyLt x y = false) (hne : x ≠ y) :
    keyLt y x = true := by
  rcases boolCases (keyLt y x) with h2 | h2
  · exact absurd (keyLt_total h h2) hne
  · exact h2

theorem insKVadd_mem_sub {K : Type} [Field K] {k : KeyT} {v : K} {l : SD K}
    {p : KeyT × K} (h : p ∈ insKVadd k v l) : p.1 = k ∨ p ∈ l := by
  induction l with
  | nil =>
    simp only [insKVadd, List.mem_singleton] at h
    exact Or.inl (by rw [h])
  | cons q qs ih =>
    rw [insKVadd] at h
    rcases boolCases (keyLt k q.1) with hlt | hlt
    · rw [hlt] at h
      simp only [Bool.false_eq_true, if_false] at h
      by_cases heq : k = q.1
      · rw [if_pos heq] at h
        simp only [List.mem_cons] at h
        rcases h with rfl | h
        · exact Or.inl (heq.symm)
        · exact Or.inr (by simp [h])
      · rw [if_neg heq] at h
        simp only [List.mem_cons] at h
        rcases h with rfl | h
        · exact Or.inr (by simp)
        · rcases ih h with h2 | h2
          · exact Or.inl h2
          · exact Or.inr (by simp [h2])
    · rw [hlt] at h
      simp only [if_true, List.mem_cons] at h
      rcases h with rfl | h
      · exact Or.inl rfl
      · exact Or.inr (List.mem_cons.mpr h)

theorem SSorted_insKVadd {K : Type} [Field K] {l : SD K} (k : KeyT) (v : K)
    (h : SSorted l) : SSorted (insKVadd k v l) := by
  induction l with
  | nil =>
    simp [insKVadd, SSorted]
  | cons q qs ih =>
    rw [insKVadd]
    rcases boolCases (keyLt k q.1) with hlt | hlt
    · rw [hlt]
      simp only [Bool.false_eq_true, if_false]
      by_cases heq : k = q.1
      · rw [if_pos heq]
        rcases h with _ | ⟨hq, hqs⟩
        exact List.Pairwise.cons (by simpa [heq] using hq) hqs
      · rw [if_neg heq]
        rcases h with _ | ⟨hq, hqs⟩
        refine List.Pairwise.cons ?_ (ih hqs)
        intro p hp
        rcases insKVadd_mem_sub hp with hp2 | hp2
        · rw [hp2]
          exact keyLt_flip hlt heq
        · exact hq p hp2
    · rw [hlt]
      simp only [if_true]
      rcases h with _ | ⟨hq, hqs⟩
      refine List.Pairwise.cons ?_ (List.Pairwise.cons hq hqs)
      intro p hp
      simp only [List.mem_cons] at hp
      rcases hp with rfl | hp
      · exact hlt
      · exact keyLt_trans hlt (hq p hp)

theorem sumAt_nil {K : Type} [Field K] (k : KeyT) : sumAt (K := K) k [] = 0 := rfl

theorem sumAt_cons {K : Type} [Field K] (k : KeyT) (q : KeyT × K) (qs : SD K) :
    sumAt k (q :: qs) = (if q.1 = k then q.2 else 0) + sumAt k qs := rfl

theorem sumAt_insKVadd {K : Type} [Field K] (q k : KeyT) (v : K) (l : SD K) :
    sumAt q (insKVadd k v l) = sumAt q l + (if k = q then v else 0) := by
  induction l with
  | nil =>
    simp only [insKVadd, sumAt_cons, sumAt_nil, add_zero, zero_add]
  | cons r rs ih =>
    rw [insKVadd]
    rcases boolCases (keyLt k r.1) with hlt | hlt
    · rw [hlt]
      simp only [Bool.false_eq_true, if_false]
      by_cases heq : k = r.1
      · rw [if_pos heq, sumAt_cons, sumAt_cons, heq]
        by_cases hq : r.1 = q
        · simp only [if_pos hq]
          ring
        · simp only [if_neg hq]
          ring
      · rw [if_neg heq, sumAt_cons, sumAt_cons, ih]
        ring
    · rw [hlt]
      simp only [if_true, sumAt_cons]
      by_cases hq : k = q
      · simp only [if_pos hq]
        ring
      · simp only [if_neg hq]
        ring

theorem sumAt_append {K : Type} [Field K] (q : KeyT) (l1 l2 : SD K) :
    sumAt q (l1 ++ l2) = sumAt q l1 + sumAt q l2 := by
  induction l1 with
  | nil => simp [sumAt_nil, sumAt]
  | cons p ps ih =>
    rw [List.cons_append, sumAt_cons, sumAt_cons, ih, add_assoc]

theorem sumAt_fold_insKVadd {K : Type} [Field K] (q : KeyT) :
    ∀ (ins acc : SD K),
      sumAt q (ins.foldl (fun acc p => insKVadd p.1 p.2 acc) acc) =
        sumAt q acc + sumAt q ins := by
  intro ins
  induction ins with
  | nil => simp [sumAt_nil]
  | cons p ps ih =>
    intro acc
    rw [List.foldl_cons, ih, sumAt_insKVadd, sumAt_cons]
    ring

theorem sumAt_zero_of_not_mem {K : Type} [Field K] (q : KeyT) (l : SD K)
    (h : ∀ p ∈ l, p.1 ≠ q) : sumAt q l = 0 := by
  induction l with
  | nil => rfl
  | cons p ps ih =>
    rw [sumAt_cons, if_neg (h p (by simp)), zero_add]
    exact ih (fun r hr => h r (by simp [hr]))

theorem sumAt_mem {K : Type} [Field K] {l : SD K} {p : KeyT × K}
    (hs : SSorted l) (hp : p ∈ l) : sumAt p.1 l = p.2 := by
  induction l with
  | nil => exact absurd hp (by simp)
  | cons q qs ih =>
    rcases hs with _ | ⟨hq, hqs⟩
    simp only [List.mem_cons] at hp
    rcases hp with rfl | hp
    · rw [sumAt_cons, if_pos rfl,
        sumAt_zero_of_not_mem _ _ (fun r hr => (keyLt_ne (hq r hr)).symm), add_zero]
    · rw [sumAt_cons, if_neg (keyLt_ne (hq p hp)), zero_add]
      exact ih hqs hp

theorem sumAt_exists {K : Type} [Field K] {q : KeyT} {l : SD K}
    (h : sumAt q l ≠ 0) : ∃ w, (q, w) ∈ l := by
  induction l with
  | nil => exact absurd rfl h
  | cons p ps ih =>
    rw [sumAt_cons] at h
    by_cases hk : p.1 = q
    · exact ⟨p.2, by simp [← hk]⟩
    · rw [if_neg hk, zero_add] at h
      obtain ⟨w, hw⟩ := ih h
      exact ⟨w, by simp [hw]⟩

theorem sumAt_mem_self {K : Type} [Field K] {q : KeyT} {l : SD K}
    (hs : SSorted l) (h : sumAt q l ≠ 0) : (q, sumAt q l) ∈ l := by
  obtain ⟨w, hw⟩ := sumAt_exists h
  have := sumAt_mem hs hw
  simp only at this
  rw [this]
  exact hw

theorem SSorted_fold_insKVadd {K : Type} [Field K] :
    ∀ (ins acc : SD K), SSorted acc →
      SSorted (ins.foldl (fun acc p => insKVadd p.1 p.2 acc) acc) := by
  intro ins
  induction ins with
  | nil => exact fun acc h => h
  | cons p ps ih =>
    intro acc h
    rw [List.foldl_cons]
    exact ih _ (SSorted_insKVadd _ _ h)

theorem convolve_eq_fold {K : Type} [Field K] (bm ret : SD K) :
    convolve bm ret =
      (bm.flatMap (fun bp => ret.map (fun rp => (Key.add bp.1 rp.1, bp.2 * rp.2)))).foldl
        (fun acc p => insKVadd p.1 p.2 acc) [] := by
  rw [convolve]
  generalize ([] : SD K) = acc
  induction bm generalizing acc with
  | nil => simp
  | cons bp bps ih =>
    rw [List.foldl_cons, ih, List.flatMap_cons, List.foldl_append, List.foldl_map]

theorem sumAt_convolve {K : Type} [Field K] (q : KeyT) (bm ret : SD K) :
    sumAt q (convolve bm ret) =
      sumAt q (bm.flatMap (fun bp => ret.map (fun rp => (Key.add bp.1 rp.1, bp.2 * rp.2)))) := by
  rw [convolve_eq_fold, sumAt_fold_insKVadd, sumAt_nil, zero_add]

theorem SSorted_convolve {K : Type} [Field K] (bm ret : SD K) :
    SSorted (convolve bm ret) := by
  rw [convolve_eq_fold]
  exact SSorted_fold_insKVadd _ _ (by simp [SSorted])

theorem insKV_mem_sub {K : Type} {k : KeyT} {v : K} {l : SD K} {p : KeyT × K}
    (h : p ∈ insKV k v l) : p = (k, v) ∨ p ∈ l := by
  induction l with
  | nil => simpa [insKV] using h
  | cons q qs ih =>
    rw [insKV] at h
    rcases boolCases (keyLt k q.1) with hlt | hlt
    · rw [hlt] at h
      simp only [Bool.false_eq_true, if_false] at h
      by_cases heq : k = q.1
      · rw [if_pos heq] at h
        simp only [List.mem_cons] at h
        rcases h with rfl | h
        · exact Or.inl rfl
        · exact Or.inr (by simp [h])
      · rw [if_neg heq] at h
        simp only [List.mem_cons] at h
        rcases h with rfl | h
        · exact Or.inr (by simp)
        · rcases ih h with h2 | h2
          · exact Or.inl h2
          · exact Or.inr (by simp [h2])
    · rw [hlt] at h
      simp only [if_true, List.mem_cons] at h
      rcases h with rfl | h
      · exact Or.inl rfl
      · exact Or.inr (List.mem_cons.mpr h)

theorem insKV_mem_keep {K : Type} {k : KeyT} {v : K} {l : SD K} {p : KeyT × K}
    (hp : p ∈ l) (hne : p.1 ≠ k) : p ∈ insKV k v l := by
  induction l with
  | nil => exact absurd hp (by simp)
  | cons q qs ih =>
    rw [insKV]
    simp only [List.mem_cons] at hp
    rcases boolCases (keyLt k q.1) with hlt | hlt
    · rw [hlt]
      simp only [Bool.false_eq_true, if_false]
      by_cases heq : k = q.1
      · rw [if_pos heq]
        rcases hp with rfl | hp
        · exact absurd heq.symm hne
        · exact List.mem_cons_of_mem _ hp
      · rw [if_neg heq]
        rcases hp with rfl | hp
        · exact List.mem_cons_self _ _
        · exact List.mem_cons_of_mem _ (ih hp)
    · rw [hlt]
      simp only [if_true]
      rcases hp with rfl | hp
      · exact List.mem_cons_of_mem _ (List.mem_cons_self _ _)
      · exact List.mem_cons_of_mem _ (List.mem_cons_of_mem _ hp)

theorem insKV_mem_ins {K : Type} (k : KeyT) (v : K) (l : SD K) :
    (k, v) ∈ insKV k v l := by
  induction l with
  | nil => simp [insKV]
  | cons q qs ih =>
    rw [insKV]
    rcases boolCases (keyLt k q.1) with hlt | hlt
    · rw [hlt]
      simp only [Bool.false_eq_true, if_false]
      by_cases heq : k = q.1
      · rw [if_pos heq]
        exact List.mem_cons_self _ _
      · rw [if_neg heq]
        exact List.mem_cons_of_mem _ ih
    · rw [hlt]
      simp only [if_true]
      exact List.mem_cons_self _ _

theorem SSorted_insKV {K : Type} {l : SD K} (k : KeyT) (v : K) (h : SSorted l) :
    SSorted (insKV k v l) := by
  induction l with
  | nil => simp [insKV, SSorted]
  | cons q qs ih =>
    rw [insKV]
    rcases boolCases (keyLt k q.1) with hlt | hlt
    · rw [hlt]
      simp only [Bool.false_eq_true, if_false]
      rcases h with _ | ⟨hq, hqs⟩
      by_cases heq : k = q.1
      · rw [if_pos heq]
        exact List.Pairwise.cons (by simpa [heq] using hq) hqs
      · rw [if_neg heq]
        refine List.Pairwise.cons ?_ (ih hqs)
        intro p hp
        rcases insKV_mem_sub hp with rfl | hp2
        · exact keyLt_flip hlt heq
        · exact hq p hp2
    · rw [hlt]
      simp only [if_true]
      rcases h with _ | ⟨hq, hqs⟩
      refine List.Pairwise.cons ?_ (List.Pairwise.cons hq hqs)
      intro p hp
      simp only [List.mem_cons] at hp
      rcases hp with rfl | hp
      · exact hlt
      · exact keyLt_trans hlt (hq p hp)

theorem insKVnew_mem_sub {K : Type} {k : KeyT} {v : K} {l : SD K} {p : KeyT × K}
    (h : p ∈ insKVnew k v l) : p = (k, v) ∨ p ∈ l := by
  induction l with
  | nil => simpa [insKVnew] using h
  | cons q qs ih =>
    rw [insKVnew] at h
    rcases boolCases (keyLt k q.1) with hlt | hlt
    · rw [hlt] at h
      simp only [Bool.false_eq_true, if_false] at h
      by_cases heq : k = q.1
      · rw [if_pos heq] at h
        exact Or.inr h
      · rw [if_neg heq] at h
        simp only [List.mem_cons] at h
        rcases h with rfl | h
        · exact Or.inr (by simp)
        · rcases ih h with h2 | h2
          · exact Or.inl h2
          · exact Or.inr (by simp [h2])
    · rw [hlt] at h
      simp only [if_true, List.mem_cons] at h
      rcases h with rfl | h
      · exact Or.inl rfl
      · exact Or.inr (List.mem_cons.mpr h)

theorem insKVnew_mem_keep {K : Type} {l : SD K} {p : KeyT × K} (k : KeyT) (v : K)
    (hp : p ∈ l) : p ∈ insKVnew k v l := by
  induction l with
  | nil => exact absurd hp (by simp)
  | cons q qs ih =>
    rw [insKVnew]
    simp only [List.mem_cons] at hp
    rcases boolCases (keyLt k q.1) with hlt | hlt
    · rw [hlt]
      simp only [Bool.false_eq_true, if_false]
      by_cases heq : k = q.1
      · rw [if_pos heq]
        rcases hp with rfl | hp
        · exact List.mem_cons_self _ _
        · exact List.mem_cons_of_mem _ hp
      · rw [if_neg heq]
        rcases hp with rfl | hp
        · exact List.mem_cons_self _ _
        · exact List.mem_cons_of_mem _ (ih hp)
    · rw [hlt]
      simp only [if_true]
      rcases hp with rfl | hp
      · exact List.mem_cons_of_mem _ (List.mem_cons_self _ _)
      · exact List.mem_cons_of_mem _ (List.mem_cons_of_mem _ hp)

theorem insKVnew_mem_new {K : Type} {k : KeyT} {l : SD K} (v : K)
    (h : ∀ p ∈ l, p.1 ≠ k) : (k, v) ∈ insKVnew k v l := by
  induction l with
  | nil => simp [insKVnew]
  | cons q qs ih =>
    rw [insKVnew]
    rcases boolCases (keyLt k q.1) with hlt | hlt
    · rw [hlt]
      simp only [Bool.false_eq_true, if_false]
      rw [if_neg (fun heq => h q (by simp) heq.symm)]
      exact List.mem_cons_of_mem _ (ih (fun p hp => h p (by simp [hp])))
    · rw [hlt]
      simp only [if_true]
      exact List.mem_cons_self _ _

theorem SSorted_insKVnew {K : Type} {l : SD K} (k : KeyT) (v : K) (h : SSorted l) :
    SSorted (insKVnew k v l) := by
  induction l with
  | nil => simp [insKVnew, SSorted]
  | cons q qs ih =>
    rw [insKVnew]
    rcases boolCases (keyLt k q.1) with hlt | hlt
    · rw [hlt]
      simp only [Bool.false_eq_true, if_false]
      rcases h with _ | ⟨hq, hqs⟩
      by_cases heq : k = q.1
      · rw [if_pos heq]
        exact List.Pairwise.cons hq hqs
      · rw [if_neg heq]
        refine List.Pairwise.cons ?_ (ih hqs)
        intro p hp
        rcases insKVnew_mem_sub hp with rfl | hp2
        · exact keyLt_flip hlt heq
        · exact hq p hp2
    · rw [hlt]
      simp only [if_true]
      rcases h with _ | ⟨hq, hqs⟩
      refine List.Pairwise.cons ?_ (List.Pairwise.cons hq hqs)
      intro p hp
      simp only [List.mem_cons] at hp
      rcases hp with rfl | hp
      · exact hlt
      · exact keyLt_trans hlt (hq p hp)

theorem insA_mem_sub {k : KeyT} {p : ℤ × ℤ} {c : ℤ} {e : Entry}
    (h : e ∈ insA p c k) : e = (p, c) ∨ e ∈ k := by
  induction k with
  | nil => simpa [insA] using h
  | cons f fs ih =>
    rw [insA] at h
    rcases boolCases (pLt p f.1) with hlt | hlt
    · rw [hlt] at h
      simp only [Bool.false_eq_true, if_false] at h
      by_cases heq : p = f.1
      · rw [if_pos heq] at h
        simp only [List.mem_cons] at h
        rcases h with rfl | h
        · exact Or.inl rfl
        · exact Or.inr (by simp [h])
      · rw [if_neg heq] at h
        simp only [List.mem_cons] at h
        rcases h with rfl | h
        · exact Or.inr (by simp)
        · rcases ih h with h2 | h2
          · exact Or.inl h2
          · exact Or.inr (by simp [h2])
    · rw [hlt] at h
      simp only [if_true, List.mem_cons] at h
      rcases h with rfl | h
      · exact Or.inl rfl
      · exact Or.inr (List.mem_cons.mpr h)

theorem insAdd_mem_sub {k : KeyT} {p : ℤ × ℤ} {c : ℤ} {e : Entry}
    (h : e ∈ insAdd p c k) :
    e = (p, c) ∨ e ∈ k ∨ (∃ w, ((p, w) : Entry) ∈ k ∧ e = (p, w + c)) := by
  induction k with
  | nil =>
    simp only [insAdd, List.mem_singleton] at h
    exact Or.inl h
  | cons f fs ih =>
    rw [insAdd] at h
    rcases boolCases (pLt p f.1) with hlt | hlt
    · rw [hlt] at h
      simp only [Bool.false_eq_true, if_false] at h
      by_cases heq : p = f.1
      · rw [if_pos heq] at h
        simp only [List.mem_cons] at h
        rcases h with rfl | h
        · refine Or.inr (Or.inr ⟨f.2, ?_, by rw [heq]⟩)
          simp only [List.mem_cons]
          exact Or.inl (by rw [heq])
        · exact Or.inr (Or.inl (by simp [h]))
      · rw [if_neg heq] at h
        simp only [List.mem_cons] at h
        rcases h with rfl | h
        · exact Or.inr (Or.inl (by simp))
        · rcases ih h with h2 | h2 | ⟨w, hw, he⟩
          · exact Or.inl h2
          · exact Or.inr (Or.inl (by simp [h2]))
          · exact Or.inr (Or.inr ⟨w, by simp [hw], he⟩)
    · rw [hlt] at h
      simp only [if_true, List.mem_cons] at h
      rcases h with rfl | h
      · exact Or.inl rfl
      · exact Or.inr (Or.inl (List.mem_cons.mpr h))

theorem insNew_mem_sub {k : KeyT} {p : ℤ × ℤ} {c : ℤ} {e : Entry}
    (h : e ∈ insNew p c k) : e = (p, c) ∨ e ∈ k := by
  induction k with
  | nil => simpa [insNew] using h
  | cons f fs ih =>
    rw [insNew] at h
    rcases boolCases (pLt p f.1) with hlt | hlt
    · rw [hlt] at h
      simp only [Bool.false_eq_true, if_false] at h
      by_cases heq : p = f.1
      · rw [if_pos heq] at h
        exact Or.inr h
      · rw [if_neg heq] at h
        simp only [List.mem_cons] at h
        rcases h with rfl | h
        · exact Or.inr (by simp)
        · rcases ih h with h2 | h2
          · exact Or.inl h2
          · exact Or.inr (by simp [h2])
    · rw [hlt] at h
      simp only [if_true, List.mem_cons] at h
      rcases h with rfl | h
      · exact Or.inl rfl
      · exact Or.inr (List.mem_cons.mpr h)

theorem KSorted_insA {k : KeyT} (p : ℤ × ℤ) (c : ℤ) (h : KSorted k) :
    KSorted (insA p c k) := by
  induction k with
  | nil => simp [insA, KSorted]
  | cons f fs ih =>
    rw [insA]
    rcases boolCases (pLt p f.1) with hlt | hlt
    · rw [hlt]
      simp only [Bool.false_eq_true, if_false]
      rcases h with _ | ⟨hf, hfs⟩
      by_cases heq : p = f.1
      · rw [if_pos heq]
        exact List.Pairwise.cons (by simpa [heq] using hf) hfs
      · rw [if_neg heq]
        refine List.Pairwise.cons ?_ (ih hfs)
        intro e he
        rcases insA_mem_sub he with rfl | he2
        · exact pLt_flip hlt heq
        · exact hf e he2
    · rw [hlt]
      simp only [if_true]
      rcases h with _ | ⟨hf, hfs⟩
      refine List.Pairwise.cons ?_ (List.Pairwise.cons hf hfs)
      intro e he
      simp only [List.mem_cons] at he
      rcases he with rfl | he
      · exact hlt
      · exact pLt_trans hlt (hf e he)

theorem KSorted_insAdd {k : KeyT} (p : ℤ × ℤ) (c : ℤ) (h : KSorted k) :
    KSorted (insAdd p c k) := by
  induction k with
  | nil => simp [insAdd, KSorted]
  | cons f fs ih =>
    rw [insAdd]
    rcases boolCases (pLt p f.1) with hlt | hlt
    · rw [hlt]
      simp only [Bool.false_eq_true, if_false]
      rcases h with _ | ⟨hf, hfs⟩
      by_cases heq : p = f.1
      · rw [if_pos heq]
        exact List.Pairwise.cons hf hfs
      · rw [if_neg heq]
        refine List.Pairwise.cons ?_ (ih hfs)
        intro e he
        rcases insAdd_mem_sub he with rfl | he2 | ⟨w, hw, he2⟩
        · exact pLt_flip hlt heq
        · exact hf e he2
        · rw [he2]
          exact hf (p, w) hw
    · rw [hlt]
      simp only [if_true]
      rcases h with _ | ⟨hf, hfs⟩
      refine List.Pairwise.cons ?_ (List.Pairwise.cons hf hfs)
      intro e he
      simp only [List.mem_cons] at he
      rcases he with rfl | he
      · exact hlt
      · exact pLt_trans hlt (hf e he)

theorem KSorted_insNew {k : KeyT} (p : ℤ × ℤ) (c : ℤ) (h : KSorted k) :
    KSorted (insNew p c k) := by
  induction k with
  | nil => simp [insNew, KSorted]
  | cons f fs ih =>
    rw [insNew]
    rcases boolCases (pLt p f.1) with hlt | hlt
    · rw [hlt]
      simp only [Bool.false_eq_true, if_false]
      rcases h with _ | ⟨hf, hfs⟩
      by_cases heq : p = f.1
      · rw [if_pos heq]
        exact List.Pairwise.cons hf hfs
      · rw [if_neg heq]
        refine List.Pairwise.cons ?_ (ih hfs)
        intro e he
        rcases insNew_mem_sub he with rfl | he2
        · exact pLt_flip hlt heq
        · exact hf e he2
    · rw [hlt]
      simp only [if_true]
      rcases h with _ | ⟨hf, hfs⟩
      refine List.Pairwise.cons ?_ (List.Pairwise.cons hf hfs)
      intro e he
      simp only [List.mem_cons] at he
      rcases he with rfl | he
      · exact hlt
      · exact pLt_trans hlt (hf e he)

theorem insA_append {p : ℤ × ℤ} {c : ℤ} :
    ∀ {k : KeyT}, (∀ e ∈ k, pLt e.1 p = true) → insA p c k = k ++ [(p, c)] := by
  intro k
  induction k with
  | nil => intro _; rfl
  | cons f fs ih =>
    intro h
    have hf := h f (by simp)
    rw [insA, pLt_asymm hf]
    simp only [Bool.false_eq_true, if_false]
    rw [if_neg (fun hpe => pLt_ne hf (by rw [hpe])), ih (fun e he => h e (by simp [he]))]
    simp

theorem insAdd_append {p : ℤ × ℤ} {c : ℤ} :
    ∀ {k : KeyT}, (∀ e ∈ k, pLt e.1 p = true) → insAdd p c k = k ++ [(p, c)] := by
  intro k
  induction k with
  | nil => intro _; rfl
  | cons f fs ih =>
    intro h
    have hf := h f (by simp)
    rw [insAdd, pLt_asymm hf]
    simp only [Bool.false_eq_true, if_false]
    rw [if_neg (fun hpe => pLt_ne hf (by rw [hpe])), ih (fun e he => h e (by simp [he]))]
    simp

theorem insNew_append {p : ℤ × ℤ} {c : ℤ} :
    ∀ {k : KeyT}, (∀ e ∈ k, pLt e.1 p = true) → insNew p c k = k ++ [(p, c)] := by
  intro k
  induction k with
  | nil => intro _; rfl
  | cons f fs ih =>
    intro h
    have hf := h f (by simp)
    rw [insNew, pLt_asymm hf]
    simp only [Bool.false_eq_true, if_false]
    rw [if_neg (fun hpe => pLt_ne hf (by rw [hpe])), ih (fun e he => h e (by simp [he]))]
    simp

theorem insKVadd_append {K : Type} [Field K] {k : KeyT} {v : K} :
    ∀ {l : SD K}, (∀ q ∈ l, keyLt q.1 k = true) → insKVadd k v l = l ++ [(k, v)] := by
  intro l
  induction l with
  | nil => intro _; rfl
  | cons q qs ih =>
    intro h
    have hq := h q (by simp)
    rw [insKVadd, keyLt_asymm hq]
    simp only [Bool.false_eq_true, if_false]
    rw [if_neg (fun hpe => keyLt_ne hq (by rw [hpe])), ih (fun e he => h e (by simp [he]))]
    simp

theorem insKVnew_append {K : Type} {k : KeyT} {v : K} :
    ∀ {l : SD K}, (∀ q ∈ l, keyLt q.1 k = true) → insKVnew k v l = l ++ [(k, v)] := by
  intro l
  induction l with
  | nil => intro _; rfl
  | cons q qs ih =>
    intro h
    have hq := h q (by simp)
    rw [insKVnew, keyLt_asymm hq]
    simp only [Bool.false_eq_true, if_false]
    rw [if_neg (fun hpe => keyLt_ne hq (by rw [hpe])), ih (fun e he => h e (by simp [he]))]
    simp

/-- Folding ordered emplace-with-add over strictly increasing Keys, with
per-pair amplitude transformation, appends in order (reproduces the map). -/
theorem fold_insKVadd_rebuild {K : Type} [Field K] (g : KeyT × K → K) :
    ∀ (l acc : SD K),
      (acc ++ l.map (fun p => (p.1, g p))).Pairwise (fun p q => keyLt p.1 q.1 = true) →
      l.foldl (fun acc p => insKVadd p.1 (g p) acc) acc =
        acc ++ l.map (fun p => (p.1, g p)) := by
  intro l
  induction l with
  | nil => intro acc _; simp
  | cons p ps ih =>
    intro acc h
    rw [List.foldl_cons]
    have h1 : insKVadd p.1 (g p) acc = acc ++ [(p.1, g p)] := by
      apply insKVadd_append
      intro q hq
      exact (List.pairwise_append.mp h).2.2 q hq (p.1, g p) (by simp)
    rw [h1]
    have h2 := ih (acc ++ [(p.1, g p)]) (by simpa using h)
    rw [h2]
    simp

/-- Folding ordered plain insert over strictly increasing Keys appends in
order (reproduces the map). -/
theorem fold_insKVnew_rebuild {K : Type} (g : KeyT × K → K) :
    ∀ (l acc : SD K),
      (acc ++ l.map (fun p => (p.1, g p))).Pairwise (fun p q => keyLt p.1 q.1 = true) →
      l.foldl (fun acc p => insKVnew p.1 (g p) acc) acc =
        acc ++ l.map (fun p => (p.1, g p)) := by
  intro l
  induction l with
  | nil => intro acc _; simp
  | cons p ps ih =>
    intro acc h
    rw [List.foldl_cons]
    have h1 : insKVnew p.1 (g p) acc = acc ++ [(p.1, g p)] := by
      apply insKVnew_append
      intro q hq
      exact (List.pairwise_append.mp h).2.2 q hq (p.1, g p) (by simp)
    rw [h1]
    have h2 := ih (acc ++ [(p.1, g p)]) (by simpa using h)
    rw [h2]
    simp

/-- Folding ordered plain insert over strictly increasing entries appends
in order (reproduces the Key). -/
theorem fold_insNew_rebuild :
    ∀ (l acc : KeyT),
      (acc ++ l).Pairwise (fun e f => pLt e.1 f.1 = true) →
      l.foldl (fun acc e => insNew e.1 e.2 acc) acc = acc ++ l := by
  intro l
  induction l with
  | nil => intro acc _; simp
  | cons e es ih =>
    intro acc h
    rw [List.foldl_cons]
    have h1 : insNew e.1 e.2 acc = acc ++ [e] :=
      insNew_append (fun q hq => (List.pairwise_append.mp h).2.2 q hq e (by simp))
    rw [h1]
    have h2 := ih (acc ++ [e]) (by simpa using h)
    rw [h2]
    simp

theorem lookupP_nil (p : ℤ × ℤ) : lookupP p [] = none := rfl

theorem lookupP_cons (p : ℤ × ℤ) (e : Entry) (es : KeyT) :
    lookupP p (e :: es) = if e.1 = p then some e.2 else lookupP p es := by
  by_cases h : e.1 = p
  · rw [if_pos h, lookupP, List.find?_cons_of_pos _ (by simp [h])]
    rfl
  · rw [if_neg h, lookupP, List.find?_cons_of_neg _ (by simp [h])]
    rfl

theorem lookupP_not_mem {p : ℤ × ℤ} {k : KeyT} (h : ∀ e ∈ k, e.1 ≠ p) :
    lookupP p k = none := by
  induction k with
  | nil => rfl
  | cons e es ih =>
    rw [lookupP_cons, if_neg (h e (by simp))]
    exact ih (fun f hf => h f (by simp [hf]))

theorem lookupP_mem_of_some {p : ℤ × ℤ} {k : KeyT} {w : ℤ}
    (h : lookupP p k = some w) : ((p, w) : Entry) ∈ k := by
  induction k with
  | nil => exact absurd h (by simp [lookupP_nil])
  | cons e es ih =>
    rw [lookupP_cons] at h
    by_cases he : e.1 = p
    · rw [if_pos he] at h
      simp only [Option.some.injEq] at h
      have : e = (p, w) := Prod.ext he (by rw [h])
      simp [← this]
    · rw [if_neg he] at h
      simp [ih h]

/-- Two sorted Keys with the same occupation lookup everywhere are equal:
the canonical-form property of the flat_map representation. -/
theorem KSorted_ext : ∀ {k1 k2 : KeyT}, KSorted k1 → KSorted k2 →
    (∀ p, lookupP p k1 = lookupP p k2) → k1 = k2 := by
  intro k1
  induction k1 with
  | nil =>
    intro k2 _ _ h
    cases k2 with
    | nil => rfl
    | cons e es =>
      have := h e.1
      rw [lookupP_nil, lookupP_cons, if_pos rfl] at this
      exact absurd this (by simp)
  | cons e es ih =>
    intro k2 hs1 hs2 h
    cases k2 with
    | nil =>
      have := h e.1
      rw [lookupP_nil, lookupP_cons, if_pos rfl] at this
      exact absurd this (by simp)
    | cons f fs =>
      rcases hs1 with _ | ⟨he, hes⟩
      rcases hs2 with _ | ⟨hf, hfs⟩
      have hef : e.1 = f.1 := by
        by_contra hne
        have h1 := h e.1
        rw [lookupP_cons, if_pos rfl, lookupP_cons, if_neg (fun hh => hne hh.symm)] at h1
        have hw1 : ((e.1, e.2) : Entry) ∈ fs := lookupP_mem_of_some h1.symm
        have h2 := h f.1
        rw [lookupP_cons, if_neg hne, lookupP_cons, if_pos rfl] at h2
        have hw2 : ((f.1, f.2) : Entry) ∈ es := lookupP_mem_of_some h2
        have hlt1 : pLt f.1 e.1 = true := by simpa using hf (e.1, e.2) hw1
        have hlt2 : pLt e.1 f.1 = true := by simpa using he (f.1, f.2) hw2
        rw [pLt_asymm hlt2] at hlt1
        exact Bool.false_ne_true hlt1
      have hev : e.2 = f.2 := by
        have h1 := h e.1
        rw [lookupP_cons, if_pos rfl, lookupP_cons, if_pos hef.symm] at h1
        simpa using h1
      have htail : es = fs := by
        apply ih hes hfs
        intro p
        by_cases hp : p = e.1
        · rw [hp, lookupP_not_mem (fun g hg => (pLt_ne (he g hg)).symm),
            lookupP_not_mem (fun g hg => ?_)]
          rw [hef]
          exact (pLt_ne (hf g hg)).symm
        · have h1 := h p
          rw [lookupP_cons, if_neg (fun hh => hp hh.symm), lookupP_cons,
            if_neg (fun hh => hp (hef ▸ hh).symm)] at h1
          exact h1
      rw [htail]
      rw [Prod.ext hef hev]

theorem goSet_some (m : List ℤ) :
    ∀ (k : List Entry) (dm founds : ℤ) (p : KeyT), 0 ≤ dm →
      (∀ e ∈ k.filter (keyOcc m), e.1.2 = dm) →
      Key.sameDModeDelGo m dm founds p k =
        some (dm, founds + ((k.filter (keyOcc m)).length : ℤ),
          (k.filter (keptEntry m)).foldl (fun acc e => insNew e.1 e.2 acc) p) := by
  intro k
  induction k with
  | nil =>
    intro dm founds p _ _
    simp [Key.sameDModeDelGo]
  | cons e es ih =>
    intro dm founds p hdm hall
    rw [Key.sameDModeDelGo]
    rcases boolCases (keyOcc m e) with hocc | hocc
    · rw [show (m.contains e.1.1 && decide (e.2 ≠ 0)) = false from hocc]
      simp only [Bool.false_eq_true, if_false]
      have hfe : es.filter (keyOcc m) = (e :: es).filter (keyOcc m) := by
        rw [List.filter_cons_of_neg (by simp [hocc])]
      rcases boolCases (decide (e.2 ≠ 0)) with hz | hz
      · have hz2 : ¬ (e.2 ≠ 0) := by simpa using hz
        rw [if_neg hz2]
        have hke : (e :: es).filter (keptEntry m) = es.filter (keptEntry m) := by
          rw [List.filter_cons_of_neg (by simp [keptEntry, hz])]
        rw [hke, ← hfe]
        exact ih dm founds p hdm (fun f hf => hall f (hfe ▸ hf))
      · have hz2 : e.2 ≠ 0 := by simpa using hz
        rw [if_pos hz2]
        have hcont : m.contains e.1.1 = false := by
          rcases boolCases (m.contains e.1.1) with hc | hc
          · exact hc
          · rw [keyOcc, hc, hz] at hocc
            exact absurd hocc (by simp)
        have hke : (e :: es).filter (keptEntry m) = e :: es.filter (keptEntry m) := by
          rw [List.filter_cons_of_pos (by rw [keptEntry, hcont, hz]; rfl)]
        rw [hke, List.foldl_cons, ← hfe]
        exact ih dm founds _ hdm (fun f hf => hall f (hfe ▸ hf))
    · rw [show (m.contains e.1.1 && decide (e.2 ≠ 0)) = true from hocc]
      simp only [if_true]
      have hne : dm ≠ -1 := by omega
      rw [if_neg hne]
      have hfe : (e :: es).filter (keyOcc m) = e :: es.filter (keyOcc m) :=
        List.filter_cons_of_pos hocc
      have hlab : e.1.2 = dm := hall e (by rw [hfe]; simp)
      rw [if_neg (by simpa using hlab)]
      have hcont : m.contains e.1.1 = true := by
        rw [keyOcc, Bool.and_eq_true] at hocc
        exact hocc.1
      have hke : (e :: es).filter (keptEntry m) = es.filter (keptEntry m) := by
        rw [List.filter_cons_of_neg (by rw [keptEntry, hcont]; simp)]
      rw [hke, ih dm (founds + 1) p hdm
        (fun f hf => hall f (by rw [hfe]; simp [hf])), hfe]
      simp only [List.length_cons]
      have harith : founds + 1 + ((es.filter (keyOcc m)).length : ℤ) =
          founds + (((es.filter (keyOcc m)).length + 1 : ℕ) : ℤ) := by
        push_cast
        ring
      rw [harith]

theorem goSet_none (m : List ℤ) :
    ∀ (k : List Entry) (dm founds : ℤ) (p : KeyT), 0 ≤ dm →
      (∃ e ∈ k.filter (keyOcc m), e.1.2 ≠ dm) →
      Key.sameDModeDelGo m dm founds p k = none := by
  intro k
  induction k with
  | nil =>
    intro dm founds p _ hex
    simp at hex
  | cons e es ih =>
    intro dm founds p hdm hex
    rw [Key.sameDModeDelGo]
    rcases boolCases (keyOcc m e) with hocc | hocc
    · rw [show (m.contains e.1.1 && decide (e.2 ≠ 0)) = false from hocc]
      simp only [Bool.false_eq_true, if_false]
      have hfe : (e :: es).filter (keyOcc m) = es.filter (keyOcc m) := by
        rw [List.filter_cons_of_neg (by simp [hocc])]
      rw [hfe] at hex
      rcases boolCases (decide (e.2 ≠ 0)) with hz | hz
      · rw [if_neg (by simpa using hz)]
        exact ih dm founds p hdm hex
      · rw [if_pos (by simpa using hz)]
        exact ih dm founds _ hdm hex
    · rw [show (m.contains e.1.1 && decide (e.2 ≠ 0)) = true from hocc]
      simp only [if_true]
      rw [if_neg (by omega)]
      have hfe : (e :: es).filter (keyOcc m) = e :: es.filter (keyOcc m) :=
        List.filter_cons_of_pos hocc
      rw [hfe] at hex
      by_cases hlab : e.1.2 = dm
      · rw [if_neg (by simpa using hlab)]
        apply ih dm (founds + 1) p hdm
        obtain ⟨f, hf, hfne⟩ := hex
        simp only [List.mem_cons] at hf
        rcases hf with rfl | hf
        · exact absurd hlab hfne
        · exact ⟨f, hf, hfne⟩
      · rw [if_pos (by simpa using hlab)]

theorem goInit_some (m : List ℤ) :
    ∀ (k : List Entry) (founds : ℤ) (p : KeyT),
      (∀ e ∈ k, 0 ≤ e.1.2) →
      (∀ e1 ∈ k.filter (keyOcc m), ∀ e2 ∈ k.filter (keyOcc m), e1.1.2 = e2.1.2) →
      ∃ dm, Key.sameDModeDelGo m (-1) founds p k =
        some (dm, founds + ((k.filter (keyOcc m)).length : ℤ),
          (k.filter (keptEntry m)).foldl (fun acc e => insNew e.1 e.2 acc) p) := by
  intro k
  induction k with
  | nil =>
    intro founds p _ _
    exact ⟨-1, by simp [Key.sameDModeDelGo]⟩
  | cons e es ih =>
    intro founds p hlab hsame
    rw [Key.sameDModeDelGo]
    rcases boolCases (keyOcc m e) with hocc | hocc
    · rw [show (m.contains e.1.1 && decide (e.2 ≠ 0)) = false from hocc]
      simp only [Bool.false_eq_true, if_false]
      have hfe : (e :: es).filter (keyOcc m) = es.filter (keyOcc m) := by
        rw [List.filter_cons_of_neg (by simp [hocc])]
      rw [hfe] at hsame
      rcases boolCases (decide (e.2 ≠ 0)) with hz | hz
      · rw [if_neg (by simpa using hz)]
        have hke : (e :: es).filter (keptEntry m) = es.filter (keptEntry m) := by
          rw [List.filter_cons_of_neg (by simp [keptEntry, hz])]
        rw [hfe, hke]
        exact ih founds p (fun f hf => hlab f (by simp [hf])) hsame
      · rw [if_pos (by simpa using hz)]
        have hcont : m.contains e.1.1 = false := by
          rcases boolCases (m.contains e.1.1) with hc | hc
          · exact hc
          · rw [keyOcc, hc, hz] at hocc
            exact absurd hocc (by simp)
        have hke : (e :: es).filter (keptEntry m) = e :: es.filter (keptEntry m) := by
          rw [List.filter_cons_of_pos (by rw [keptEntry, hcont, hz]; rfl)]
        rw [hfe, hke, List.foldl_cons]
        exact ih founds _ (fun f hf => hlab f (by simp [hf])) hsame
    · rw [show (m.contains e.1.1 && decide (e.2 ≠ 0)) = true from hocc]
      simp only [if_true, if_pos rfl]
      have hfe : (e :: es).filter (keyOcc m) = e :: es.filter (keyOcc m) :=
        List.filter_cons_of_pos hocc
      have hcont : m.contains e.1.1 = true := by
        rw [keyOcc, Bool.and_eq_true] at hocc
        exact hocc.1
      have hke : (e :: es).filter (keptEntry m) = es.filter (keptEntry m) := by
        rw [List.filter_cons_of_neg (by rw [keptEntry, hcont]; simp)]
      have hdm : 0 ≤ e.1.2 := hlab e (by simp)
      refine ⟨e.1.2, ?_⟩
      rw [goSet_some m es e.1.2 (founds + 1) p hdm ?_, hfe, hke]
      · simp only [List.length_cons]
        have harith : founds + 1 + ((es.filter (keyOcc m)).length : ℤ) =
            founds + (((es.filter (keyOcc m)).length + 1 : ℕ) : ℤ) := by
          push_cast
          ring
        rw [harith]
      · intro f hf
        exact hsame f (by rw [hfe]; simp [hf]) e (by rw [hfe]; simp)

theorem goInit_none (m : List ℤ) :
    ∀ (k : List Entry) (founds : ℤ) (p : KeyT),
      (∀ e ∈ k, 0 ≤ e.1.2) →
      ¬(∀ e1 ∈ k.filter (keyOcc m), ∀ e2 ∈ k.filter (keyOcc m), e1.1.2 = e2.1.2) →
      Key.sameDModeDelGo m (-1) founds p k = none := by
  intro k
  induction k with
  | nil =>
    intro founds p _ hsame
    exact absurd (by simp) hsame
  | cons e es ih =>
    intro founds p hlab hsame
    rw [Key.sameDModeDelGo]
    rcases boolCases (keyOcc m e) with hocc | hocc
    · rw [show (m.contains e.1.1 && decide (e.2 ≠ 0)) = false from hocc]
      simp only [Bool.false_eq_true, if_false]
      have hfe : (e :: es).filter (keyOcc m) = es.filter (keyOcc m) := by
        rw [List.filter_cons_of_neg (by simp [hocc])]
      rw [hfe] at hsame
      rcases boolCases (decide (e.2 ≠ 0)) with hz | hz
      · rw [if_neg (by simpa using hz)]
        exact ih founds p (fun f hf => hlab f (by simp [hf])) hsame
      · rw [if_pos (by simpa using hz)]
        exact ih founds _ (fun f hf => hlab f (by simp [hf])) hsame
    · rw [show (m.contains e.1.1 && decide (e.2 ≠ 0)) = true from hocc]
      simp only [if_true, if_pos rfl]
      have hfe : (e :: es).filter (keyOcc m) = e :: es.filter (keyOcc m) :=
        List.filter_cons_of_pos hocc
      have hdm : 0 ≤ e.1.2 := hlab e (by simp)
      apply goSet_none m es e.1.2 (founds + 1) p hdm
      by_contra hno
      push_neg at hno
      apply hsame
      intro f1 hf1 f2 hf2
      rw [hfe] at hf1 hf2
      simp only [List.mem_cons] at hf1 hf2
      have hx : ∀ g ∈ es.filter (keyOcc m), g.1.2 = e.1.2 := hno
      rcases hf1 with rfl | hf1 <;> rcases hf2 with rfl | hf2
      · rfl
      · rw [hx f2 hf2]
      · rw [hx f1 hf1]
      · rw [hx f1 hf1, hx f2 hf2]

/-- C10 counterexample: on the Key with one photon at spatial mode 0 and
nothing at spatial mode 1, sameDModeDel([0,1]) returns false because mode 1
is unoccupied, yet the Key has been mutated (emptied) rather than left
unchanged. -/
theorem C10_counterexample :
    (Key.sameDModeDel [0, 1] [((0, 0), 1)]).1 = false ∧
      (Key.sameDModeDel [0, 1] [((0, 0), 1)]).2 ≠ [((0, 0), 1)] := by
  decide

/-- C10 (amended): for a sorted ModeKey with non-negative
distinguishability labels, sameDModeDel(m) leaves the ModeKey unchanged
when it fails early because two occupied modes in m carry different
distinguishability labels; but when all occupied entries at modes of m
share one label, the ModeKey is mutated in every case - the entries at
modes of m and the zero-occupation entries are deleted - and only the
returned flag reports whether the number of occupied entries found matches
the size of m. -/
theorem C10_amended_sameDModeDel (m : List ℤ) (k : KeyT)
    (hs : KSorted k) (hlab : ∀ e ∈ k, 0 ≤ e.1.2) :
    (¬(∀ e1 ∈ k.filter (keyOcc m), ∀ e2 ∈ k.filter (keyOcc m), e1.1.2 = e2.1.2) →
      Key.sameDModeDel m k = (false, k)) ∧
    ((∀ e1 ∈ k.filter (keyOcc m), ∀ e2 ∈ k.filter (keyOcc m), e1.1.2 = e2.1.2) →
      Key.sameDModeDel m k =
        (decide (((k.filter (keyOcc m)).length : ℤ) = (m.length : ℤ)),
          k.filter (keptEntry m))) := by
  constructor
  · intro hdiff
    rw [Key.sameDModeDel, goInit_none m k 0 [] hlab hdiff]
  · intro hsame
    obtain ⟨dm, hgo⟩ := goInit_some m k 0 [] hlab hsame
    rw [Key.sameDModeDel, hgo]
    have hkept : (k.filter (keptEntry m)).foldl (fun acc e => insNew e.1 e.2 acc) [] =
        k.filter (keptEntry m) := by
      have := fold_insNew_rebuild (k.filter (keptEntry m)) []
      simpa using this (by simpa using (hs.filter _))
    rw [hkept]
    simp only [zero_add]

/-- C10 witness: the amended characterization evaluated on a concrete
sorted Key where the projection succeeds. -/
theorem C10_witness :
    Key.sameDModeDel [0, 1] [((0, 0), 1), ((1, 0), 1)] = (true, []) := by
  have h := (C10_amended_sameDModeDel [0, 1] [((0, 0), 1), ((1, 0), 1)]
    (by decide) (by decide)).2 (by decide)
  rw [h]
  decide

theorem foldl_ite_filter {α β : Type} (f : β → α → β) (Q : α → Bool) :
    ∀ (l : List α) (acc : β),
      l.foldl (fun acc x => if Q x then f acc x else acc) acc =
        (l.filter Q).foldl f acc := by
  intro l
  induction l with
  | nil => intro acc; rfl
  | cons x xs ih =>
    intro acc
    rcases boolCases (Q x) with hq | hq
    · rw [List.foldl_cons, if_neg (by simp [hq]), List.filter_cons_of_neg (by simp [hq]), ih]
    · rw [List.foldl_cons, if_pos hq, List.filter_cons_of_pos hq, List.foldl_cons, ih]

/-- Folding ordered plain insert of the pairs of a sorted filtered sublist
rebuilds that sublist. -/
theorem fold_insKVnew_filter {K : Type} (Q : KeyT × K → Bool) (l : SD K)
    (hs : SSorted l) :
    (l.filter Q).foldl (fun acc p => insKVnew p.1 p.2 acc) [] = l.filter Q := by
  have h := fold_insKVnew_rebuild (fun p => p.2) (l.filter Q) []
  simp only [List.nil_append] at h
  have hmap : (l.filter Q).map (fun p => (p.1, p.2)) = l.filter Q := by
    have : (fun (p : KeyT × K) => (p.1, p.2)) = fun p => p := by
      funext p
      rfl
    rw [this, List.map_id']
  rw [hmap] at h
  exact h (by simpa using (hs.filter Q))

/-- C8: overlapWithFilter partitions the terms three ways. A term is
retained in the state exactly when it matches the measurement pattern,
passes the post-selection occupancy test, and overlaps some fidelity
reference; a term matching pattern and post-selection but no fidelity
reference is moved, with its ModeKey and amplitude preserved exactly, into
the returned state; every other term is dropped, and no term lands in both
outputs. -/
theorem C8_overlapWithFilter_partition {K W : Type} (ref : List (ℤ × ℤ))
    (allModes : List (List ℤ)) (fref : List (List (ℤ × ℤ))) (S : State K W)
    (hs : SSorted S.amp) :
    (State.overlapWithFilter ref allModes fref S).1.amp =
      S.amp.filter (fun p => Key.overlapping p.1 ref && Key.notEmpty p.1 allModes &&
        fref.any (fun m => Key.overlapping p.1 m)) ∧
    (State.overlapWithFilter ref allModes fref S).2.amp =
      S.amp.filter (fun p => Key.overlapping p.1 ref && Key.notEmpty p.1 allModes &&
        !(fref.any (fun m => Key.overlapping p.1 m))) ∧
    (∀ p ∈ S.amp, ¬(p ∈ (State.overlapWithFilter ref allModes fref S).1.amp ∧
      p ∈ (State.overlapWithFilter ref allModes fref S).2.amp)) := by
  have hsplit : ∀ (l : SD K) (acc : SD K × SD K),
      l.foldl
        (fun (acc : SD K × SD K) p =>
          if Key.overlapping p.1 ref && Key.notEmpty p.1 allModes then
            if fref.any (fun m => Key.overlapping p.1 m) then
              (insKVnew p.1 p.2 acc.1, acc.2)
            else (acc.1, insKVnew p.1 p.2 acc.2)
          else acc) acc =
        (l.foldl (fun a1 p =>
            if Key.overlapping p.1 ref && Key.notEmpty p.1 allModes &&
                fref.any (fun m => Key.overlapping p.1 m) then
              insKVnew p.1 p.2 a1
            else a1) acc.1,
          l.foldl (fun a2 p =>
            if Key.overlapping p.1 ref && Key.notEmpty p.1 allModes &&
                !(fref.any (fun m => Key.overlapping p.1 m)) then
              insKVnew p.1 p.2 a2
            else a2) acc.2) := by
    intro l
    induction l with
    | nil => intro acc; rfl
    | cons p ps ih =>
      intro acc
      simp only [List.foldl_cons]
      rcases boolCases (Key.overlapping p.1 ref && Key.notEmpty p.1 allModes) with h1 | h1
      · rw [if_neg (by simp [h1]), if_neg (by simp [h1]), if_neg (by simp [h1]), ih]
      · rcases boolCases (fref.any (fun m => Key.overlapping p.1 m)) with h2 | h2
        · rw [if_pos (by simp [h1]), if_neg (by simp [h2]),
            if_neg (by simp [h1, h2]), if_pos (by simp [h1, h2]), ih]
        · rw [if_pos (by simp [h1]), if_pos h2, if_pos (by simp [h1, h2]),
            if_neg (by simp [h1, h2]), ih]
  have hfst : (State.overlapWithFilter ref allModes fref S).1.amp =
      (S.amp.foldl
        (fun (acc : SD K × SD K) p =>
          if Key.overlapping p.1 ref && Key.notEmpty p.1 allModes then
            if fref.any (fun m => Key.overlapping p.1 m) then
              (insKVnew p.1 p.2 acc.1, acc.2)
            else (acc.1, insKVnew p.1 p.2 acc.2)
          else acc) ([], [])).1 := rfl
  have hsnd : (State.overlapWithFilter ref allModes fref S).2.amp =
      (S.amp.foldl
        (fun (acc : SD K × SD K) p =>
          if Key.overlapping p.1 ref && Key.notEmpty p.1 allModes then
            if fref.any (fun m => Key.overlapping p.1 m) then
              (insKVnew p.1 p.2 acc.1, acc.2)
            else (acc.1, insKVnew p.1 p.2 acc.2)
          else acc) ([], [])).2 := rfl
  have h1 : (State.overlapWithFilter ref allModes fref S).1.amp =
      S.amp.filter (fun p => Key.overlapping p.1 ref && Key.notEmpty p.1 allModes &&
        fref.any (fun m => Key.overlapping p.1 m)) := by
    rw [hfst, hsplit]
    rw [foldl_ite_filter (fun a1 (p : KeyT × K) => insKVnew p.1 p.2 a1)]
    exact fold_insKVnew_filter _ S.amp hs
  have h2 : (State.overlapWithFilter ref allModes fref S).2.amp =
      S.amp.filter (fun p => Key.overlapping p.1 ref && Key.notEmpty p.1 allModes &&
        !(fref.any (fun m => Key.overlapping p.1 m))) := by
    rw [hsnd, hsplit]
    dsimp only
    rw [foldl_ite_filter (fun a2 (p : KeyT × K) => insKVnew p.1 p.2 a2)]
    exact fold_insKVnew_filter _ S.amp hs
  refine ⟨h1, h2, ?_⟩
  rintro p _ ⟨m1, m2⟩
  rw [h1, List.mem_filter] at m1
  rw [h2, List.mem_filter] at m2
  have b1 := m1.2
  have b2 := m2.2
  simp only [Bool.and_eq_true] at b1 b2
  rw [b1.2] at b2
  simp at b2

/-- C8 witness: the partition evaluated on a one-term state that matches
the pattern, passes the (vacuous) post-selection and overlaps the single
fidelity reference, so it is retained and the returned state is empty. -/
theorem C8_witness :
    (State.overlapWithFilter [(0, 1)] [] [[(0, 1)]]
        ({ amp := [([((0, 0), 1)], (1 : ℚ))] } : State ℚ ℕ)).1.amp =
      [([((0, 0), 1)], 1)] ∧
    (State.overlapWithFilter [(0, 1)] [] [[(0, 1)]]
        ({ amp := [([((0, 0), 1)], (1 : ℚ))] } : State ℚ ℕ)).2.amp = [] := by
  have h := C8_overlapWithFilter_partition [(0, 1)] [] [[(0, 1)]]
    ({ amp := [([((0, 0), 1)], (1 : ℚ))] } : State ℚ ℕ) (by decide)
  refine ⟨?_, ?_⟩
  · rw [h.1]
    decide
  · rw [h.2.1]
    decide

/-- C9: when the norm of a QuantumState is exactly zero, normalise()
replaces the degenerate divisor by one, so it performs no division by the
zero norm and acts on the amplitudes as the identity apart from the usual
tolerance pruning. -/
theorem C9_normalise_zero_norm {K W : Type} [Field K] [DecidableEq K]
    (ops : Ops K) (S : State K W) (h : State.norm ops S = 0) :
    State.normalise ops S = { S with amp := S.amp.filter (fun p => ops.big p.2) } := by
  rw [State.normalise]
  simp only [h, eq_self_iff_true, if_true, div_one]
  have hmap : S.amp.map (fun p => (p.1, p.2)) = S.amp := by
    have heta : (fun (p : KeyT × K) => (p.1, p.2)) = fun p => p := by
      funext p
      rfl
    rw [heta, List.map_id']
  rw [hmap]

/-- C9 witness: normalise on a concrete state of norm zero. -/
theorem C9_witness :
    State.normalise qOps ({ amp := [] } : State ℚ ℕ) = ({ amp := [] } : State ℚ ℕ) := by
  have h := C9_normalise_zero_norm qOps ({ amp := [] } : State ℚ ℕ) (by decide)
  rw [h]
  rfl

theorem foldl_noop {α β : Type} (f : β → α → β) :
    ∀ (l : List α) (acc : β), (∀ e ∈ l, ∀ b, f b e = b) → l.foldl f acc = acc := by
  intro l
  induction l with
  | nil => intro acc _; rfl
  | cons e es ih =>
    intro acc h
    rw [List.foldl_cons, h e (by simp) acc]
    exact ih acc (fun x hx b => h x (by simp [hx]) b)

theorem findIdx_not_contains {v : ℤ} :
    ∀ {modes : List ℤ} (s : ℕ), modes.contains v = false →
      List.findIdx? (fun x => decide (x = v)) modes s = none := by
  intro modes
  induction modes with
  | nil => intro s _; rfl
  | cons a l ih =>
    intro s h
    simp only [List.contains_cons, Bool.or_eq_false_iff] at h
    rw [List.findIdx?_cons]
    have hne : ¬(a = v) := by
      have hv := h.1
      simp only [beq_eq_false_iff_ne, ne_eq] at hv
      exact fun hh => hv hh.symm
    rw [if_neg (by simpa using hne)]
    exact ih _ h.2

theorem findIdx_some_contains {v : ℤ} {j : ℕ} :
    ∀ {modes : List ℤ}, modes.findIdx? (fun x => decide (x = v)) = some j →
      modes.contains v = true := by
  intro modes h
  rcases boolCases (modes.contains v) with hc | hc
  · rw [findIdx_not_contains 0 hc] at h
    exact absurd h (by simp)
  · exact hc

theorem occOn_nonneg {modes : List ℤ} :
    ∀ {k : KeyT}, (∀ e ∈ k, 0 ≤ e.2) → 0 ≤ occOn modes k := by
  intro k
  induction k with
  | nil => intro _; simp [occOn]
  | cons f fs ih =>
    intro hnn
    rw [occOn]
    have h2 := ih (fun x hx => hnn x (by simp [hx]))
    rcases boolCases (modes.contains f.1.1) with hg | hg
    · rw [if_neg (by rw [hg]; simp)]
      omega
    · rw [if_pos hg]
      have := hnn f (by simp)
      omega

theorem occOn_entry_zero {modes : List ℤ} :
    ∀ {k : KeyT}, (∀ e ∈ k, 0 ≤ e.2) → occOn modes k = 0 →
      ∀ e ∈ k, modes.contains e.1.1 = true → e.2 = 0 := by
  intro k
  induction k with
  | nil =>
    intro _ _ e he
    exact absurd he (by simp)
  | cons f fs ih =>
    intro hnn hz e he hc
    have hremnn : 0 ≤ occOn modes fs := occOn_nonneg (fun x hx => hnn x (by simp [hx]))
    rw [occOn] at hz
    simp only [List.mem_cons] at he
    rcases he with rfl | he
    · rw [if_pos hc] at hz
      have := hnn e (by simp)
      omega
    · apply ih (fun x hx => hnn x (by simp [hx])) ?_ e he hc
      have hf : 0 ≤ (if modes.contains f.1.1 then f.2 else 0) := by
        rcases boolCases (modes.contains f.1.1) with hg | hg
        · rw [if_neg (by rw [hg]; simp)]
        · rw [if_pos hg]
          exact hnn f (by simp)
      omega

theorem keyLoss_identity {K : Type} [Field K] [DecidableEq K] (ops : Ops K)
    (modes : List ℤ) (lm mx : ℤ) (k : KeyT)
    (hnn : ∀ e ∈ k, 0 ≤ e.2) (hz : occOn modes k = 0) :
    Key.loss ops modes lm k mx = ([(k, 1)], mx) := by
  rw [Key.loss]
  have hfold : k.foldl
      (fun (acc : SD K × ℤ × ℤ) (e : Entry) =>
        match modes.findIdx? (fun x => decide (x = e.1.1)) with
        | none => acc
        | some j =>
          if 0 < e.2 then
            let k2 := insA (lm + (j : ℤ), e.1.2) 1
              (k.map (fun e2 => if e2.1 = e.1 then (e2.1, e2.2 - 1) else e2))
            (insKV k2 (ops.sq ((e.2 : ℤ) : K)) acc.1, acc.2.1 + e.2,
              if lm + (j : ℤ) ≥ acc.2.2 then lm + (j : ℤ) + 1 else acc.2.2)
          else acc)
      ([], 0, mx) = ([], 0, mx) := by
    apply foldl_noop
    intro e he b
    rcases hfi : modes.findIdx? (fun x => decide (x = e.1.1)) with _ | j
    · simp only [hfi]
    · simp only [hfi]
      rw [if_neg ?_]
      have hcont := findIdx_some_contains hfi
      have := occOn_entry_zero hnn hz e he hcont
      omega
  rw [hfold]
  simp

/-- C6: loss on a state whose terms all have zero total occupation on the
target modes is the identity. At the ModeKey level, when no entry at the
target modes is occupied, Key::loss returns the unperturbed ModeKey with
amplitude exactly one and performs no renormalization division; at the
state level the QuantumState is returned unchanged. -/
theorem C6_loss_identity {K W : Type} [Field K] [DecidableEq K] (ops : Ops K)
    (modes : List ℤ) (S : State K W)
    (hsort : SSorted S.amp)
    (hnn : ∀ p ∈ S.amp, ∀ e ∈ p.1, 0 ≤ e.2)
    (hocc : ∀ p ∈ S.amp, occOn modes p.1 = 0)
    (hbig : ∀ p ∈ S.amp, ops.big p.2 = true)
    (hlm : 0 ≤ S.lossMode) :
    (∀ (k : KeyT) (lm mx : ℤ), (∀ e ∈ k, 0 ≤ e.2) → occOn modes k = 0 →
      Key.loss ops modes lm k mx = ([(k, (1 : K))], mx)) ∧
    State.loss ops modes S = S := by
  constructor
  · intro k lm mx h1 h2
    exact keyLoss_identity ops modes lm mx k h1 h2
  · rw [State.loss]
    have hfold : ∀ (l : SD K), (∀ p ∈ l, p ∈ S.amp) → ∀ (acc1 : SD K) (mx : ℤ),
        l.foldl
          (fun (acc : SD K × ℤ) p =>
            let lr := Key.loss ops modes S.lossMode p.1 acc.2
            (State.addInto acc.1 lr.1 p.2, lr.2))
          (acc1, mx) =
          (l.foldl (fun a p => insKVadd p.1 (p.2 * 1) a) acc1, mx) := by
      intro l
      induction l with
      | nil => intro _ acc1 mx; rfl
      | cons p ps ih =>
        intro hsub acc1 mx
        rw [List.foldl_cons, List.foldl_cons]
        have hk := keyLoss_identity ops modes S.lossMode mx p.1
          (hnn p (hsub p (by simp))) (hocc p (hsub p (by simp)))
        simp only [hk]
        exact ih (fun q hq => hsub q (by simp [hq])) _ mx
    rw [hfold S.amp (fun p hp => hp) [] 0]
    have hamp : S.amp.foldl (fun a p => insKVadd p.1 (p.2 * 1) a) [] = S.amp := by
      have h := fold_insKVadd_rebuild (fun p => p.2 * 1) S.amp []
      simp only [List.nil_append] at h
      have hmap : S.amp.map (fun p => (p.1, p.2 * 1)) = S.amp := by
        have heta : (fun (p : KeyT × K) => (p.1, p.2 * 1)) = fun p => p := by
          funext p
          rw [mul_one]
        rw [heta, List.map_id']
      rw [hmap] at h
      exact h hsort
    rw [hamp]
    dsimp only
    rw [List.filter_eq_self.mpr hbig, if_neg (by omega)]

/-- C6 witness: loss on a mode list disjoint from the single occupied mode
returns the concrete state unchanged. -/
theorem C6_witness :
    State.loss qOps [5]
        ({ amp := [([((0, 0), 1)], 1)], waves := [0], basis := [[1]], lossMode := 1 } : State ℚ ℕ) =
      ({ amp := [([((0, 0), 1)], 1)], waves := [0], basis := [[1]], lossMode := 1 } : State ℚ ℕ) :=
  (C6_loss_identity qOps [5] _ (by decide) (by decide) (by decide) (by decide)
    (by decide)).2

theorem lookupP_insA_self (p : ℤ × ℤ) (c : ℤ) :
    ∀ (k : KeyT), lookupP p (insA p c k) = some c := by
  intro k
  induction k with
  | nil => simp [insA, lookupP_cons]
  | cons e es ih =>
    rw [insA]
    rcases boolCases (pLt p e.1) with hlt | hlt
    · rw [hlt]
      simp only [Bool.false_eq_true, if_false]
      by_cases heq : p = e.1
      · rw [if_pos heq, lookupP_cons, if_pos rfl]
      · rw [if_neg heq, lookupP_cons, if_neg (fun hh => heq hh.symm)]
        exact ih
    · rw [hlt]
      simp only [if_true]
      rw [lookupP_cons, if_pos rfl]

theorem lookupP_insA_other (p q : ℤ × ℤ) (c : ℤ) (hne : q ≠ p) :
    ∀ (k : KeyT), lookupP q (insA p c k) = lookupP q k := by
  intro k
  induction k with
  | nil =>
    simp only [insA, lookupP_cons, lookupP_nil]
    rw [if_neg (fun hh => hne hh.symm)]
  | cons e es ih =>
    rw [insA]
    rcases boolCases (pLt p e.1) with hlt | hlt
    · rw [hlt]
      simp only [Bool.false_eq_true, if_false]
      by_cases heq : p = e.1
      · rw [if_pos heq, lookupP_cons, if_neg (fun hh => hne hh.symm), lookupP_cons,
          if_neg (fun hh => hne ((heq.trans hh).symm))]
      · rw [if_neg heq, lookupP_cons, lookupP_cons]
        by_cases hq : e.1 = q
        · rw [if_pos hq, if_pos hq]
        · rw [if_neg hq, if_neg hq]
          exact ih
    · rw [hlt]
      simp only [if_true]
      rw [lookupP_cons, if_neg (fun hh => hne hh.symm)]

theorem lookupP_insAdd_self (p : ℤ × ℤ) (c : ℤ) :
    ∀ {k : KeyT}, KSorted k →
      lookupP p (insAdd p c k) =
        some (match lookupP p k with | some w => w + c | none => c) := by
  intro k
  induction k with
  | nil =>
    intro _
    simp [insAdd, lookupP_cons, lookupP_nil]
  | cons e es ih =>
    intro hs
    rcases hs with _ | ⟨he, hes⟩
    rw [insAdd]
    rcases boolCases (pLt p e.1) with hlt | hlt
    · rw [hlt]
      simp only [Bool.false_eq_true, if_false]
      by_cases heq : p = e.1
      · rw [if_pos heq, lookupP_cons, if_pos heq.symm, lookupP_cons, if_pos heq.symm]
      · rw [if_neg heq, lookupP_cons, if_neg (fun hh => heq hh.symm), ih hes,
          lookupP_cons, if_neg (fun hh => heq hh.symm)]
    · rw [hlt]
      simp only [if_true]
      rw [lookupP_cons, if_pos rfl, lookupP_cons, if_neg (fun hh => pLt_ne hlt hh.symm)]
      rw [lookupP_not_mem ?_]
      intro f hf
      exact fun hh => pLt_ne (pLt_trans hlt (he f hf)) hh.symm

theorem lookupP_insAdd_other (p q : ℤ × ℤ) (c : ℤ) (hne : q ≠ p) :
    ∀ (k : KeyT), lookupP q (insAdd p c k) = lookupP q k := by
  intro k
  induction k with
  | nil =>
    simp only [insAdd, lookupP_cons, lookupP_nil]
    rw [if_neg (fun hh => hne hh.symm)]
  | cons e es ih =>
    rw [insAdd]
    rcases boolCases (pLt p e.1) with hlt | hlt
    · rw [hlt]
      simp only [Bool.false_eq_true, if_false]
      by_cases heq : p = e.1
      · rw [if_pos heq, lookupP_cons, if_neg (fun hh => hne ((heq.trans hh).symm)),
          lookupP_cons, if_neg (fun hh => hne ((heq.trans hh).symm))]
      · rw [if_neg heq, lookupP_cons, lookupP_cons]
        by_cases hq : e.1 = q
        · rw [if_pos hq, if_pos hq]
        · rw [if_neg hq, if_neg hq]
          exact ih
    · rw [hlt]
      simp only [if_true]
      rw [lookupP_cons, if_neg (fun hh => hne hh.symm)]

theorem insAdd_inj {p : ℤ × ℤ} {c : ℤ} {k1 k2 : KeyT}
    (h1 : KSorted k1) (h2 : KSorted k2)
    (hz1 : lookupP p k1 ≠ some 0) (hz2 : lookupP p k2 ≠ some 0)
    (heq : insAdd p c k1 = insAdd p c k2) : k1 = k2 := by
  apply KSorted_ext h1 h2
  intro q
  by_cases hq : q = p
  · subst hq
    have e1 := lookupP_insAdd_self q c h1
    have e2 := lookupP_insAdd_self q c h2
    rw [heq, e2] at e1
    rcases hl1 : lookupP q k1 with _ | w1 <;> rcases hl2 : lookupP q k2 with _ | w2
    · rfl
    · rw [hl1, hl2] at e1
      have e3 : w2 + c = c := by injection e1
      have : w2 = 0 := by omega
      rw [this] at hl2
      exact absurd hl2 hz2
    · rw [hl1, hl2] at e1
      have e3 : c = w1 + c := by injection e1
      have : w1 = 0 := by omega
      rw [this] at hl1
      exact absurd hl1 hz1
    · rw [hl1, hl2] at e1
      have e3 : w2 + c = w1 + c := by injection e1
      rw [show w1 = w2 by omega]
  · have e1 := lookupP_insAdd_other p q c hq k1
    have e2 := lookupP_insAdd_other p q c hq k2
    rw [← e1, ← e2, heq]

theorem fold_insKVnew_map_mem_sub {K : Type} (F : KeyT × K → KeyT) :
    ∀ (l acc : SD K) (x : KeyT × K),
      x ∈ l.foldl (fun acc p => insKVnew (F p) p.2 acc) acc →
      x ∈ acc ∨ ∃ p ∈ l, x = (F p, p.2) := by
  intro l
  induction l with
  | nil => intro acc x hx; exact Or.inl hx
  | cons r rs ih =>
    intro acc x hx
    rw [List.foldl_cons] at hx
    rcases ih _ x hx with h | ⟨p, hp, hxp⟩
    · rcases insKVnew_mem_sub h with rfl | h2
      · exact Or.inr ⟨r, by simp, rfl⟩
      · exact Or.inl h2
    · exact Or.inr ⟨p, by simp [hp], hxp⟩

theorem fold_insKVnew_map_keeps {K : Type} (F : KeyT × K → KeyT) :
    ∀ (l acc : SD K) (x : KeyT × K), x ∈ acc →
      x ∈ l.foldl (fun acc p => insKVnew (F p) p.2 acc) acc := by
  intro l
  induction l with
  | nil => intro acc x hx; exact hx
  | cons r rs ih =>
    intro acc x hx
    rw [List.foldl_cons]
    exact ih _ x (insKVnew_mem_keep _ _ hx)

theorem fold_insKVnew_map_mem {K : Type} (F : KeyT × K → KeyT) :
    ∀ (l acc : SD K) (p : KeyT × K), p ∈ l →
      (∀ q ∈ l, F q = F p → q = p) →
      (∀ x ∈ acc, x.1 ≠ F p) →
      (F p, p.2) ∈ l.foldl (fun acc q => insKVnew (F q) q.2 acc) acc := by
  intro l
  induction l with
  | nil =>
    intro acc p hp
    exact absurd hp (by simp)
  | cons r rs ih =>
    intro acc p hp hinj hacc
    rw [List.foldl_cons]
    by_cases hFr : F r = F p
    · have hrp : r = p := hinj r (by simp) hFr
      subst hrp
      exact fold_insKVnew_map_keeps F rs _ _ (insKVnew_mem_new _ hacc)
    · have hprs : p ∈ rs := by
        simp only [List.mem_cons] at hp
        rcases hp with rfl | hp
        · exact absurd rfl hFr
        · exact hp
      apply ih _ p hprs (fun q hq => hinj q (by simp [hq]))
      intro x hx
      rcases insKVnew_mem_sub hx with rfl | hx2
      · exact hFr
      · exact hacc x hx2

theorem lookupP_ne_some_zero {k : KeyT} (hnz : ∀ e ∈ k, e.2 ≠ 0) (p : ℤ × ℤ) :
    lookupP p k ≠ some 0 :=
  fun h => (hnz ((p, 0) : Entry) (lookupP_mem_of_some h)) rfl

theorem SSorted_eq_of_keyEq {K : Type} [Field K] {l : SD K} (hs : SSorted l)
    {p q : KeyT × K} (hp : p ∈ l) (hq : q ∈ l) (h : p.1 = q.1) : p = q := by
  have h1 := sumAt_mem hs hp
  have h2 := sumAt_mem hs hq
  rw [h] at h1
  exact Prod.ext h (by rw [← h1, ← h2])

/-- C3: addPhoton on a non-empty state with a wave function whose overlap
with some stored descriptor has magnitude exactly one (the first such
index) leaves wave_functions and basis unchanged, and replaces the
amplitude map by exactly the extension of every existing ModeKey through
Key::incr at (spatial_mode, matched_index), leaving every amplitude
unchanged. Key::incr is modelled from the spec, as its definition is not
among the sources. -/
theorem C3_addPhoton_matched {K W : Type} [Field K] [DecidableEq K] (ops : Ops K)
    (ov : W → W → K) (wf : W) (mode num : ℤ) (S : State K W) (index : ℕ)
    (hne : S.amp ≠ [])
    (hidx : S.waves.findIdx? (fun w => ops.absOne (ov wf w)) = some index)
    (hsort : SSorted S.amp) (hks : ∀ p ∈ S.amp, KSorted p.1)
    (hnz : ∀ p ∈ S.amp, ∀ e ∈ p.1, e.2 ≠ 0) :
    (State.addPhoton ops ov wf mode num S).waves = S.waves ∧
    (State.addPhoton ops ov wf mode num S).basis = S.basis ∧
    (∀ p ∈ S.amp,
      (Key.incr mode (index : ℤ) num p.1, p.2) ∈ (State.addPhoton ops ov wf mode num S).amp) ∧
    (∀ x ∈ (State.addPhoton ops ov wf mode num S).amp,
      ∃ p ∈ S.amp, x = (Key.incr mode (index : ℤ) num p.1, p.2)) := by
  obtain ⟨p0, ps, hamp⟩ : ∃ p0 ps, S.amp = p0 :: ps := by
    cases hS : S.amp with
    | nil => exact absurd hS hne
    | cons a l => exact ⟨a, l, rfl⟩
  have hform : State.addPhoton ops ov wf mode num S =
      { S with
        amp := S.amp.foldl
          (fun acc p => insKVnew (Key.incr mode (index : ℤ) num p.1) p.2 acc) []
        lossMode := if mode ≥ S.lossMode then mode + 1 else S.lossMode } := by
    rw [State.addPhoton, hamp, hidx]
  have hinj : ∀ p ∈ S.amp, ∀ q ∈ S.amp,
      Key.incr mode (index : ℤ) num q.1 = Key.incr mode (index : ℤ) num p.1 → q = p := by
    intro p hp q hq hF
    apply SSorted_eq_of_keyEq hsort hq hp
    exact insAdd_inj (hks q hq) (hks p hp)
      (lookupP_ne_some_zero (hnz q hq) _) (lookupP_ne_some_zero (hnz p hp) _) hF
  refine ⟨by rw [hform], by rw [hform], ?_, ?_⟩
  · intro p hp
    rw [hform]
    exact fold_insKVnew_map_mem _ S.amp [] p hp (fun q hq => hinj p hp q hq)
      (by simp)
  · intro x hx
    rw [hform] at hx
    rcases fold_insKVnew_map_mem_sub _ S.amp [] x hx with h | h
    · exact absurd h (by simp)
    · exact h

/-- C3 witness: adding a photon with a wave function identical (overlap of
magnitude one) to the stored one extends the single ModeKey in place and
leaves waves and basis untouched. -/
theorem C3_witness :
    (State.addPhoton qOps (fun i j => if i = j then 1 else 0) 7 0 1
        ({ amp := [([((0, 0), 1)], 1)], waves := [7], basis := [[1]], lossMode := 1 } : State ℚ ℕ)).waves = [7] ∧
    (Key.incr 0 0 1 [((0, 0), 1)], (1 : ℚ)) ∈
      (State.addPhoton qOps (fun i j => if i = j then 1 else 0) 7 0 1
        ({ amp := [([((0, 0), 1)], 1)], waves := [7], basis := [[1]], lossMode := 1 } : State ℚ ℕ)).amp := by
  have h := C3_addPhoton_matched qOps (fun i j => if i = j then 1 else 0) 7 0 1
    ({ amp := [([((0, 0), 1)], 1)], waves := [7], basis := [[1]], lossMode := 1 } : State ℚ ℕ)
    0 (by decide) (by decide) (by decide) (by decide) (by decide)
  exact ⟨h.1, h.2.2.1 ([((0, 0), 1)], 1) (by decide)⟩

theorem foldl_add_zero {K : Type} [Field K] {α : Type} (f : α → K) :
    ∀ (l : List α) (acc : K), (∀ p ∈ l, f p = 0) →
      l.foldl (fun acc p => acc + f p) acc = acc := by
  intro l
  induction l with
  | nil => intro acc _; rfl
  | cons x xs ih =>
    intro acc h
    rw [List.foldl_cons, h x (by simp), add_zero]
    exact ih acc (fun p hp => h p (by simp [hp]))

theorem findIdx_none_of_false {α : Type} (p : α → Bool) :
    ∀ (l : List α) (s : ℕ), (∀ x ∈ l, p x = false) →
      List.findIdx? p l s = none := by
  intro l
  induction l with
  | nil => intro s _; rfl
  | cons a as ih =>
    intro s h
    rw [List.findIdx?_cons, if_neg (by simp [h a (by simp)])]
    exact ih _ (fun x hx => h x (by simp [hx]))

theorem addSc_zero {K : Type} [Field K] :
    ∀ (xs ys : List K), addSc xs ys 0 = xs := by
  intro xs
  induction xs with
  | nil =>
    intro ys
    cases ys with
    | nil => rfl
    | cons y ys => rfl
  | cons x xs ih =>
    intro ys
    cases ys with
    | nil => rfl
    | cons y ys =>
      rw [addSc, mul_zero, add_zero, ih]

theorem zip_truncate {K W : Type} :
    ∀ (b : List K) (ws tail : List W), b.length ≤ ws.length →
      List.zip b (ws ++ tail) = List.zip b ws := by
  intro b
  induction b with
  | nil => intro ws tail _; simp
  | cons x bs ih =>
    intro ws tail hlen
    cases ws with
    | nil => exact absurd hlen (by simp)
    | cons w ws =>
      simp only [List.cons_append, List.zip_cons_cons]
      rw [ih ws tail (by simpa using hlen)]

/-- The inner product of the freshly appended unit coefficient vector with
any wave function reduces to conj(1) * ov(wf, x) when conj(0) = 0. -/
theorem ovlpH_unitvec {K W : Type} [Field K] (ops : Ops K) (ov : W → W → K)
    (hc0 : ops.conj 0 = 0) (ws : List W) (wf x : W) (n : ℕ) (hlen : n = ws.length) :
    ovlpH ops ov (List.replicate n 0 ++ [1]) x (ws ++ [wf]) =
      ops.conj 1 * ov wf x := by
  rw [ovlpH, List.zip_append (by simp [hlen])]
  rw [List.foldl_append]
  have hz : (List.zip (List.replicate n (0 : K)) ws).foldl
      (fun acc p => acc + ops.conj p.1 * ov p.2 x) 0 = 0 := by
    apply foldl_add_zero (fun (p : K × W) => ops.conj p.1 * ov p.2 x)
    intro p hp
    rw [List.eq_of_mem_replicate (List.of_mem_zip hp).1, hc0, zero_mul]
  rw [hz]
  simp

theorem ovlpH_zero_right {K W : Type} [Field K] (ops : Ops K) (ov : W → W → K)
    {ws : List W} {x : W} (h : ∀ w ∈ ws, ov w x = 0) (b : List K) :
    ovlpH ops ov b x ws = 0 := by
  rw [ovlpH]
  apply foldl_add_zero (fun (p : K × W) => ops.conj p.1 * ov p.2 x)
  intro p hp
  rw [h p.2 (List.of_mem_zip hp).2, mul_zero]

theorem ovlp_unitvec_self {K W : Type} [Field K] (ops : Ops K) (ov : W → W → K)
    (hc0 : ops.conj 0 = 0) (ws : List W) (wf : W) (n : ℕ) (hlen : n = ws.length) :
    ovlp ops ov (List.replicate n 0 ++ [1]) (List.replicate n 0 ++ [1]) (ws ++ [wf]) =
      1 * (ops.conj 1 * ov wf wf) := by
  rw [ovlp, List.zip_append (by simp [hlen]), List.foldl_append]
  have hz : (List.zip (List.replicate n (0 : K)) ws).foldl
      (fun acc p => acc + p.1 * ovlpH ops ov (List.replicate n 0 ++ [1]) p.2 (ws ++ [wf])) 0 = 0 := by
    apply foldl_add_zero
      (fun (p : K × W) => p.1 * ovlpH ops ov (List.replicate n 0 ++ [1]) p.2 (ws ++ [wf]))
    intro p hp
    rw [List.eq_of_mem_replicate (List.of_mem_zip hp).1, zero_mul]
  rw [hz]
  simp only [List.zip_cons_cons, List.zip_nil_right, List.foldl_cons, List.foldl_nil, zero_add]
  rw [ovlpH_unitvec ops ov hc0 ws wf wf n hlen]

theorem ovlp_unitvec_zero {K W : Type} [Field K] (ops : Ops K) (ov : W → W → K)
    (hc0 : ops.conj 0 = 0) (ws : List W) (wf : W) (n : ℕ) (hlen : n = ws.length)
    (b : List K) (hble : b.length ≤ ws.length) (horth : ∀ w ∈ ws, ov wf w = 0) :
    ovlp ops ov (List.replicate n 0 ++ [1]) b (ws ++ [wf]) = 0 := by
  rw [ovlp, zip_truncate b ws [wf] hble]
  apply foldl_add_zero
    (fun (p : K × W) => p.1 * ovlpH ops ov (List.replicate n 0 ++ [1]) p.2 (ws ++ [wf]))
  intro p hp
  rw [ovlpH_unitvec ops ov hc0 ws wf p.2 n hlen, horth p.2 (List.of_mem_zip hp).2,
    mul_zero, mul_zero]

theorem GS_fold {K W : Type} [Field K] (ops : Ops K) (ov : W → W → K)
    (wf : W) (ws : List W) :
    ∀ (bs : List (List K)) (b0 d : List K),
      (∀ bi ∈ bs, ovlpH ops ov bi wf ws = 0) →
      bs.foldl
        (fun (acc : List K × List K) bi =>
          let o := ovlpH ops ov bi wf ws
          (addSc acc.1 bi (-o), acc.2 ++ [o]))
        (b0, d) = (b0, d ++ List.replicate bs.length 0) := by
  intro bs
  induction bs with
  | nil => intro b0 d _; simp
  | cons bi bs ih =>
    intro b0 d hz
    rw [List.foldl_cons]
    have h0 := hz bi (by simp)
    simp only [h0, neg_zero, addSc_zero]
    rw [ih b0 (d ++ [0]) (fun x hx => hz x (by simp [hx]))]
    simp [List.replicate_succ]

theorem norm2_unitvec {K : Type} [Field K] (ops : Ops K)
    (habs0 : ops.absv 0 = 0) (habs1 : ops.absv 1 = 1) (n : ℕ) :
    (List.replicate n (0 : K) ++ [1]).foldl (fun acc a => acc + ops.absv a ^ 2) 0 = 1 := by
  rw [List.foldl_append]
  have hz : (List.replicate n (0 : K)).foldl (fun acc a => acc + ops.absv a ^ 2) 0 = 0 := by
    apply foldl_add_zero (fun (a : K) => ops.absv a ^ 2)
    intro p hp
    rw [List.eq_of_mem_replicate hp, habs0]
    ring
  rw [hz]
  simp [habs1]

/-- Full characterization of addBasisElem for a wave function orthogonal
to every stored one: the basis grows by the unit coefficient vector on the
new coordinate and the decomposition is that same unit vector. -/
theorem addBasisElem_orth {K W : Type} [Field K] [DecidableEq K] (ops : Ops K)
    (ov : W → W → K) (S : State K W) (wf : W)
    (hpar : S.basis.length = S.waves.length)
    (horth1 : ∀ w ∈ S.waves, ov w wf = 0)
    (hovff : ov wf wf = 1)
    (hc0 : ops.conj 0 = 0) (hc1 : ops.conj 1 = 1)
    (habs0 : ops.absv 0 = 0) (habs1 : ops.absv 1 = 1)
    (hsq1 : ops.sq 1 = 1) :
    State.addBasisElem ops ov S wf =
      (List.replicate S.basis.length 0 ++ [1],
        { S with
          waves := S.waves ++ [wf]
          basis := S.basis ++ [List.replicate S.basis.length 0 ++ [1]] }) := by
  rw [State.addBasisElem]
  rw [GS_fold ops ov wf S.waves S.basis (List.replicate S.basis.length 0) []
    (fun bi _ => ovlpH_zero_right ops ov horth1 bi)]
  have hnormC : ovlp ops ov (List.replicate S.basis.length 0 ++ [1])
      (List.replicate S.basis.length 0 ++ [1]) (S.waves ++ [wf]) = 1 := by
    rw [ovlp_unitvec_self ops ov hc0 S.waves wf S.basis.length hpar, hc1, hovff]
    ring
  simp only [List.nil_append, hnormC, habs1, hsq1, div_one, List.map_id']
  have hdecompLast : ovlpH ops ov (List.replicate S.basis.length 0 ++ [1]) wf
      (S.waves ++ [wf]) = 1 := by
    rw [ovlpH_unitvec ops ov hc0 S.waves wf wf S.basis.length hpar, hc1, hovff]
    ring
  simp only [hdecompLast]
  rw [norm2_unitvec ops habs0 habs1]
  rw [if_neg one_ne_zero, hsq1]
  simp [div_one]

/-- C4: addPhoton on a non-empty state with a wave function of overlap
zero with every stored descriptor appends exactly one descriptor to
wave_functions and one coefficient vector to basis, and the appended
vector v has self inner product one and inner product zero with every
previously stored basis vector, with inner products computed through the
caller-supplied overlap function over the stored descriptors. -/
theorem C4_addPhoton_orthogonal {K W : Type} [Field K] [DecidableEq K]
    (ops : Ops K) (ov : W → W → K) (wf : W) (mode num : ℤ) (S : State K W)
    (hne : S.amp ≠ [])
    (hpar : S.basis.length = S.waves.length)
    (hblen : ∀ b ∈ S.basis, b.length ≤ S.waves.length)
    (horth1 : ∀ w ∈ S.waves, ov w wf = 0)
    (horth2 : ∀ w ∈ S.waves, ov wf w = 0)
    (hovff : ov wf wf = 1)
    (hc0 : ops.conj 0 = 0) (hc1 : ops.conj 1 = 1)
    (habs0 : ops.absv 0 = 0) (habs1 : ops.absv 1 = 1)
    (hsq1 : ops.sq 1 = 1) (habsOne0 : ops.absOne 0 = false) :
    (State.addPhoton ops ov wf mode num S).waves = S.waves ++ [wf] ∧
    (State.addPhoton ops ov wf mode num S).basis =
      S.basis ++ [List.replicate S.basis.length 0 ++ [1]] ∧
    ovlp ops ov (List.replicate S.basis.length 0 ++ [1])
      (List.replicate S.basis.length 0 ++ [1])
      (State.addPhoton ops ov wf mode num S).waves = 1 ∧
    (∀ b ∈ S.basis,
      ovlp ops ov (List.replicate S.basis.length 0 ++ [1]) b
        (State.addPhoton ops ov wf mode num S).waves = 0) := by
  obtain ⟨p0, ps, hamp⟩ : ∃ p0 ps, S.amp = p0 :: ps := by
    cases hS : S.amp with
    | nil => exact absurd hS hne
    | cons a l => exact ⟨a, l, rfl⟩
  have hnone : S.waves.findIdx? (fun w => ops.absOne (ov wf w)) = none := by
    apply findIdx_none_of_false
    intro w hw
    rw [horth2 w hw, habsOne0]
  have hABE := addBasisElem_orth ops ov S wf hpar horth1 hovff hc0 hc1 habs0 habs1 hsq1
  have hwaves : (State.addPhoton ops ov wf mode num S).waves = S.waves ++ [wf] := by
    rw [State.addPhoton, hamp, hnone, hABE]
  have hbasis : (State.addPhoton ops ov wf mode num S).basis =
      S.basis ++ [List.replicate S.basis.length 0 ++ [1]] := by
    rw [State.addPhoton, hamp, hnone, hABE]
  refine ⟨hwaves, hbasis, ?_, ?_⟩
  · rw [hwaves, ovlp_unitvec_self ops ov hc0 S.waves wf S.basis.length hpar, hc1, hovff]
    ring
  · intro b hb
    rw [hwaves]
    exact ovlp_unitvec_zero ops ov hc0 S.waves wf S.basis.length hpar b (hblen b hb) horth2

/-- C4 witness: a photon with a wave function orthogonal to the single
stored one grows the basis by the unit vector on the new coordinate. -/
theorem C4_witness :
    (State.addPhoton qOps (fun i j => if i = j then 1 else 0) 8 1 1
        ({ amp := [([((0, 0), 1)], 1)], waves := [7], basis := [[1]], lossMode := 1 } : State ℚ ℕ)).basis =
      [[1], [0, 1]] ∧
    ovlp qOps (fun i j => if i = j then 1 else 0) [0, 1] [0, 1]
      (State.addPhoton qOps (fun i j => if i = j then 1 else 0) 8 1 1
        ({ amp := [([((0, 0), 1)], 1)], waves := [7], basis := [[1]], lossMode := 1 } : State ℚ ℕ)).waves = 1 := by
  have h := C4_addPhoton_orthogonal qOps (fun i j => if i = j then 1 else 0) 8 1 1
    ({ amp := [([((0, 0), 1)], 1)], waves := [7], basis := [[1]], lossMode := 1 } : State ℚ ℕ)
    (by decide) (by decide) (by decide) (by decide) (by decide) (by decide)
    (by decide) (by decide) (by decide) (by decide) (by decide) (by decide)
  refine ⟨by rw [h.2.1]; rfl, ?_⟩
  have := h.2.2.1
  simpa using this

theorem foldl_invariant {α β : Type} (P : β → Prop) (f : β → α → β)
    (l : List α) : ∀ (init : β), P init →
      (∀ acc x, P acc → x ∈ l → P (f acc x)) → P (l.foldl f init) := by
  induction l with
  | nil => intro init h _; exact h
  | cons x xs ih =>
    intro init h hstep
    simp only [List.foldl_cons]
    exact ih (f init x) (hstep init x h (by simp))
      (fun acc y hy hmem => hstep acc y hy (by simp [hmem]))

theorem posKey_nil : posKey [] := by
  intro e he
  cases he

theorem posKey_insA {k : KeyT} {p : ℤ × ℤ} {c : ℤ} (hk : posKey k) (hc : 0 < c) :
    posKey (insA p c k) := by
  intro e he
  rcases insA_mem_sub he with rfl | he2
  · exact hc
  · exact hk e he2

theorem posKey_insAdd {k : KeyT} {p : ℤ × ℤ} {c : ℤ} (hk : posKey k) (hc : 0 < c) :
    posKey (insAdd p c k) := by
  intro e he
  rcases insAdd_mem_sub he with rfl | he2 | ⟨w, hw, rfl⟩
  · exact hc
  · exact hk e he2
  · exact add_pos (hk (p, w) hw) hc

theorem posKey_insNew {k : KeyT} {p : ℤ × ℤ} {c : ℤ} (hk : posKey k) (hc : 0 < c) :
    posKey (insNew p c k) := by
  intro e he
  rcases insNew_mem_sub he with rfl | he2
  · exact hc
  · exact hk e he2

theorem posKey_clean (k : KeyT) : posKey (Key.clean k) := by
  intro e he
  rw [Key.clean, List.mem_filter] at he
  exact of_decide_eq_true he.2

theorem posKey_add {b i : KeyT} (hb : posKey b) (hi : posKey i) :
    posKey (Key.add b i) := by
  rw [Key.add]
  refine foldl_invariant posKey _ i b hb ?_
  intro acc e hacc he
  exact posKey_insAdd hacc (hi e he)

theorem nnKey_insA {k : KeyT} {p : ℤ × ℤ} {c : ℤ} (hk : nnKey k) (hc : 0 ≤ c) :
    nnKey (insA p c k) := by
  intro e he
  rcases insA_mem_sub he with rfl | he2
  · exact hc
  · exact hk e he2

theorem nnKey_of_posKey {k : KeyT} (h : posKey k) : nnKey k :=
  fun e he => le_of_lt (h e he)

theorem nnKey_decrMap {k : KeyT} (hk : posKey k) (e0 : Entry) :
    nnKey (k.map (fun e2 => if e2.1 = e0.1 then (e2.1, e2.2 - 1) else e2)) := by
  intro e he
  rcases List.mem_map.mp he with ⟨e2, he2, rfl⟩
  by_cases h : e2.1 = e0.1
  · rw [if_pos h]
    have := hk e2 he2
    show (0 : ℤ) ≤ e2.2 - 1
    omega
  · rw [if_neg h]
    exact le_of_lt (hk e2 he2)

theorem posAmp_nil {K : Type} : posAmp ([] : SD K) := by
  intro p hp
  cases hp

theorem posAmp_insKV {K : Type} {l : SD K} {k : KeyT} {v : K}
    (hl : posAmp l) (hk : posKey k) : posAmp (insKV k v l) := by
  intro p hp
  rcases insKV_mem_sub hp with rfl | hp2
  · exact hk
  · exact hl p hp2

theorem posAmp_insKVadd {K : Type} [Field K] {l : SD K} {k : KeyT} {v : K}
    (hl : posAmp l) (hk : posKey k) : posAmp (insKVadd k v l) := by
  intro p hp
  rcases insKVadd_mem_sub hp with h1 | hp2
  · rw [h1]
    exact hk
  · exact hl p hp2

theorem posAmp_insKVnew {K : Type} {l : SD K} {k : KeyT} {v : K}
    (hl : posAmp l) (hk : posKey k) : posAmp (insKVnew k v l) := by
  intro p hp
  rcases insKVnew_mem_sub hp with rfl | hp2
  · exact hk
  · exact hl p hp2

theorem posAmp_filter {K : Type} {l : SD K} (Q : KeyT × K → Bool)
    (hl : posAmp l) : posAmp (l.filter Q) := by
  intro p hp
  exact hl p (List.mem_filter.mp hp).1

theorem posAmp_mapAmp {K : Type} {l : SD K} (g : KeyT × K → K)
    (hl : posAmp l) : posAmp (l.map (fun p => (p.1, g p))) := by
  intro p hp
  rcases List.mem_map.mp hp with ⟨q, hq, rfl⟩
  exact hl q hq

theorem posAmp_branches {K : Type} [Field K] (ops : Ops K) (u0 u2 : K)
    (a b d n : ℤ) : posAmp (branches ops u0 u2 a b d n) := by
  rw [branches]
  by_cases hn : n < 0
  · rw [if_pos hn]
    exact posAmp_nil
  · rw [if_neg hn]
    refine foldl_invariant posAmp _ _ [] posAmp_nil ?_
    intro acc p hacc hp
    rcases List.mem_map.mp hp with ⟨j, hj, rfl⟩
    simp only [branchKey]
    exact posAmp_insKV hacc (posKey_clean _)

theorem posAmp_convolve {K : Type} [Field K] {bm ret : SD K}
    (hbm : posAmp bm) (hret : posAmp ret) : posAmp (convolve bm ret) := by
  rw [convolve]
  refine foldl_invariant posAmp _ bm [] posAmp_nil ?_
  intro acc bp hacc hbp
  refine foldl_invariant posAmp _ ret acc hacc ?_
  intro acc2 rp hacc2 hrp
  exact posAmp_insKVadd hacc2 (posKey_add (hbm bp hbp) (hret rp hrp))

theorem posAmp_keyApply {K : Type} [Field K] [DecidableEq K] (ops : Ops K)
    (U : List K) (modes : List ℤ) {k : KeyT} (hk : posKey k) :
    posAmp (Key.apply ops U modes k) := by
  simp only [Key.apply]
  refine posAmp_mapAmp _ (posAmp_filter _ ?_)
  refine foldl_invariant posAmp _ k [([], 1)] ?_ ?_
  · intro p hp
    simp only [List.mem_singleton] at hp
    rw [hp]
    exact posKey_nil
  · intro ret e hret he
    dsimp only
    by_cases hm : e.1.1 ≠ modes.getD 0 0 ∧ e.1.1 ≠ modes.getD 1 0
    · rw [if_pos hm]
      refine foldl_invariant posAmp _ ret [] posAmp_nil ?_
      intro acc p hacc hp
      exact posAmp_insKV hacc (posKey_insA (hret p hp) (hk e he))
    · rw [if_neg hm]
      exact posAmp_convolve (posAmp_branches _ _ _ _ _ _ _) hret

theorem posKey_collapse {K : Type} [Field K] (ops : Ops K) (f : List ℤ)
    {k : KeyT} (hk : posKey k) (amp : K) :
    posKey (Key.collapse ops f k amp).1 := by
  simp only [Key.collapse]
  refine foldl_invariant posKey _ k [] posKey_nil ?_
  intro acc e hacc he
  exact posKey_insAdd hacc (hk e he)

theorem posKey_swap {a b : ℤ} {k : KeyT} (hk : posKey k) :
    posKey (Key.swap a b k) := by
  rw [Key.swap]
  refine foldl_invariant posKey _ k [] posKey_nil ?_
  intro acc e hacc he
  dsimp only
  by_cases h1 : e.1.1 = a
  · rw [if_pos h1]
    exact posKey_insNew hacc (hk e he)
  · rw [if_neg h1]
    by_cases h2 : e.1.1 = b
    · rw [if_pos h2]
      exact posKey_insNew hacc (hk e he)
    · rw [if_neg h2]
      exact posKey_insNew hacc (hk e he)

theorem sameDModeDelGo_pos {m : List ℤ} :
    ∀ (l : List Entry) (dmode founds : ℤ) (p : KeyT), posKey l → posKey p →
      ∀ {r : ℤ × ℤ × KeyT}, Key.sameDModeDelGo m dmode founds p l = some r →
        posKey r.2.2 := by
  intro l
  induction l with
  | nil =>
    intro dmode founds p _ hp r hr
    rw [Key.sameDModeDelGo] at hr
    injection hr with hr2
    rw [← hr2]
    exact hp
  | cons e es ih =>
    intro dmode founds p hl hp r hr
    have hes : posKey es := fun x hx => hl x (List.mem_cons_of_mem e hx)
    have he : 0 < e.2 := hl e (List.mem_cons_self e es)
    rw [Key.sameDModeDelGo] at hr
    by_cases h1 : (m.contains e.1.1 && decide (e.2 ≠ 0)) = true
    · rw [if_pos h1] at hr
      by_cases h2 : dmode = -1
      · rw [if_pos h2] at hr
        exact ih e.1.2 (founds + 1) p hes hp hr
      · rw [if_neg h2] at hr
        by_cases h3 : e.1.2 ≠ dmode
        · rw [if_pos h3] at hr
          cases hr
        · rw [if_neg h3] at hr
          exact ih dmode (founds + 1) p hes hp hr
    · rw [if_neg h1] at hr
      by_cases h4 : e.2 ≠ 0
      · rw [if_pos h4] at hr
        exact ih dmode founds _ hes (posKey_insNew hp he) hr
      · rw [if_neg h4] at hr
        exact ih dmode founds p hes hp hr

theorem sameDModeDel_pos {m : List ℤ} {k : KeyT} (hk : posKey k) :
    posKey (Key.sameDModeDel m k).2 := by
  rw [Key.sameDModeDel]
  cases hgo : Key.sameDModeDelGo m (-1) 0 [] k with
  | none =>
    simp only [hgo]
    exact hk
  | some r =>
    simp only [hgo]
    exact sameDModeDelGo_pos k (-1) 0 [] hk posKey_nil hgo

theorem firstDel_pos {k : KeyT} (hk : posKey k) :
    ∀ (ms : List (List ℤ)) (i : ℕ) {r : ℕ × KeyT}, firstDel k ms i = some r →
      posKey r.2 := by
  intro ms
  induction ms with
  | nil =>
    intro i r hr
    rw [firstDel] at hr
    cases hr
  | cons m ms ih =>
    intro i r hr
    rw [firstDel] at hr
    by_cases h1 : (Key.sameDModeDel m k).1 = true
    · rw [if_pos h1] at hr
      injection hr with hr2
      rw [← hr2]
      exact sameDModeDel_pos hk
    · rw [if_neg h1] at hr
      exact ih (i + 1) hr

theorem nnAmp_lossKey {K : Type} [Field K] [DecidableEq K] (ops : Ops K)
    (modes : List ℤ) (lossMode : ℤ) {k : KeyT} (hk : posKey k) (maxLM : ℤ) :
    ∀ p ∈ (Key.loss ops modes lossMode k maxLM).1, nnKey p.1 := by
  have hfold : ∀ p ∈ (k.foldl
      (fun (acc : SD K × ℤ × ℤ) (e : Entry) =>
        match modes.findIdx? (fun x => decide (x = e.1.1)) with
        | none => acc
        | some j =>
          if 0 < e.2 then
            let k2 := insA (lossMode + (j : ℤ), e.1.2) 1
              (k.map (fun e2 => if e2.1 = e.1 then (e2.1, e2.2 - 1) else e2))
            (insKV k2 (ops.sq ((e.2 : ℤ) : K)) acc.1, acc.2.1 + e.2,
              if lossMode + (j : ℤ) ≥ acc.2.2 then lossMode + (j : ℤ) + 1 else acc.2.2)
          else acc)
      ([], 0, maxLM)).1, nnKey p.1 := by
    refine foldl_invariant (fun (acc : SD K × ℤ × ℤ) => ∀ p ∈ acc.1, nnKey p.1)
      _ k ([], 0, maxLM) ?_ ?_
    · intro p hp
      cases hp
    · intro acc e hacc he
      cases hfi : modes.findIdx? (fun x => decide (x = e.1.1)) with
      | none => simpa [hfi] using hacc
      | some j =>
        by_cases hpos : 0 < e.2
        · simp only [hfi, if_pos hpos]
          intro p hp
          rcases insKV_mem_sub hp with rfl | hp2
          · exact nnKey_insA (nnKey_decrMap hk e) (by norm_num)
          · exact hacc p hp2
        · simp only [hfi, if_neg hpos]
          exact hacc
  intro p hp
  rw [Key.loss] at hp
  dsimp only at hp
  split at hp
  · simp only [List.mem_singleton] at hp
    rw [hp]
    exact nnKey_of_posKey hk
  · rcases List.mem_map.mp hp with ⟨q, hq, rfl⟩
    exact hfold q hq

theorem nnAmp_addInto {K : Type} [Field K] {acc p : SD K} {v : K}
    (hacc : ∀ q ∈ acc, nnKey q.1) (hp : ∀ q ∈ p, nnKey q.1) :
    ∀ q ∈ State.addInto acc p v, nnKey q.1 := by
  rw [State.addInto]
  refine foldl_invariant (fun (l : SD K) => ∀ q ∈ l, nnKey q.1) _ p acc hacc ?_
  intro l q hl hq r hr
  rcases insKVadd_mem_sub hr with h1 | h2
  · rw [h1]
    exact hp q hq
  · exact hl r h2

theorem nnAmp_stateLoss {K W : Type} [Field K] [DecidableEq K] (ops : Ops K)
    (modes : List ℤ) (S : State K W) (hS : posAmp S.amp) :
    ∀ p ∈ (State.loss ops modes S).amp, nnKey p.1 := by
  intro p hp
  rw [State.loss] at hp
  dsimp only at hp
  have hp2 := (List.mem_filter.mp hp).1
  refine foldl_invariant
    (fun (acc : SD K × ℤ) => ∀ q ∈ acc.1, nnKey q.1) _ S.amp ([], 0) ?_ ?_ p hp2
  · intro q hq
    cases hq
  · intro acc q hacc hq
    exact nnAmp_addInto hacc (nnAmp_lossKey ops modes S.lossMode (hS q hq) acc.2)

theorem posAmp_addPhoton {K W : Type} [Field K] [DecidableEq K] (ops : Ops K)
    (ov : W → W → K) (wf : W) (mode num : ℤ) (S : State K W)
    (hS : posAmp S.amp) (hnum : 0 < num) :
    posAmp (State.addPhoton ops ov wf mode num S).amp := by
  simp only [State.addPhoton]
  cases hamp : S.amp with
  | nil =>
    intro p hp e he
    simp only [List.mem_singleton] at hp
    subst hp
    simp only [List.mem_singleton] at he
    subst he
    exact hnum
  | cons q qs =>
    rw [hamp] at hS
    cases hfi : S.waves.findIdx? (fun w => ops.absOne (ov wf w)) with
    | some index =>
      simp only [hfi]
      refine foldl_invariant posAmp _ (q :: qs) [] posAmp_nil ?_
      intro acc p hacc hp
      exact posAmp_insKVnew hacc (posKey_insAdd (hS p hp) hnum)
    | none =>
      simp only [hfi]
      refine foldl_invariant posAmp _ (q :: qs) [] posAmp_nil ?_
      intro acc p hacc hp
      refine foldl_invariant posAmp _ (List.range _) acc hacc ?_
      intro acc2 i hacc2 hi
      exact posAmp_insKVnew hacc2 (posKey_insA (hS p hp) hnum)

theorem posAmp_stateApply {K W : Type} [Field K] [DecidableEq K] (ops : Ops K)
    (U : List K) (modes : List ℤ) (S : State K W) (hS : posAmp S.amp) :
    posAmp (State.apply ops U modes S).amp := by
  rw [State.apply]
  refine posAmp_filter _ ?_
  refine foldl_invariant posAmp _ S.amp [] posAmp_nil ?_
  intro acc p hacc hp
  rw [State.addInto]
  refine foldl_invariant posAmp _ _ acc hacc ?_
  intro acc2 r hacc2 hr
  exact posAmp_insKVadd hacc2 (posAmp_keyApply ops U modes (hS p hp) r hr)

theorem posAmp_stateApply1 {K W : Type} [Field K] (U : K) (mode : ℤ)
    (S : State K W) (hS : posAmp S.amp) : posAmp (State.apply1 U mode S).amp := by
  rw [State.apply1]
  exact posAmp_mapAmp _ hS

theorem posAmp_stateSwap {K W : Type} (a b : ℤ) (S : State K W)
    (hS : posAmp S.amp) : posAmp (State.swap a b S).amp := by
  rw [State.swap]
  refine foldl_invariant posAmp _ S.amp [] posAmp_nil ?_
  intro acc p hacc hp
  exact posAmp_insKVnew hacc (posKey_swap (hS p hp))

theorem posAmp_stateCollapse {K W : Type} [Field K] (ops : Ops K) (Kt : KeyT)
    (S : State K W) (hS : posAmp S.amp) : posAmp (State.collapse ops Kt S).amp := by
  rw [State.collapse]
  refine foldl_invariant posAmp _ S.amp [] posAmp_nil ?_
  intro acc p hacc hp
  exact posAmp_insKVadd hacc (posKey_collapse ops _ (hS p hp) p.2)

theorem owf_fold_pos {K : Type} (ref : List (ℤ × ℤ)) (allModes : List (List ℤ))
    (fref : List (List (ℤ × ℤ))) (l : SD K) (hl : posAmp l) :
    posAmp (l.foldl
      (fun (acc : SD K × SD K) p =>
        if Key.overlapping p.1 ref && Key.notEmpty p.1 allModes then
          if fref.any (fun m => Key.overlapping p.1 m) then
            (insKVnew p.1 p.2 acc.1, acc.2)
          else (acc.1, insKVnew p.1 p.2 acc.2)
        else acc)
      ([], [])).1 ∧
    posAmp (l.foldl
      (fun (acc : SD K × SD K) p =>
        if Key.overlapping p.1 ref && Key.notEmpty p.1 allModes then
          if fref.any (fun m => Key.overlapping p.1 m) then
            (insKVnew p.1 p.2 acc.1, acc.2)
          else (acc.1, insKVnew p.1 p.2 acc.2)
        else acc)
      ([], [])).2 := by
  refine foldl_invariant (fun (acc : SD K × SD K) => posAmp acc.1 ∧ posAmp acc.2)
    _ l ([], []) ⟨posAmp_nil, posAmp_nil⟩ ?_
  intro acc p hacc hp
  by_cases h1 : (Key.overlapping p.1 ref && Key.notEmpty p.1 allModes) = true
  · rw [if_pos h1]
    by_cases h2 : (fref.any fun m => Key.overlapping p.1 m) = true
    · rw [if_pos h2]
      exact ⟨posAmp_insKVnew hacc.1 (hl p hp), hacc.2⟩
    · rw [if_neg h2]
      exact ⟨hacc.1, posAmp_insKVnew hacc.2 (hl p hp)⟩
  · rw [if_neg h1]
    exact hacc

theorem posAmp_overlapCompl {K W : Type} (MVec : List (List (ℤ × ℤ)))
    (allModes : List (List ℤ)) (S : State K W) (hS : posAmp S.amp) :
    posAmp (State.overlapCompl MVec allModes S).amp := by
  rw [State.overlapCompl]
  refine foldl_invariant posAmp _ S.amp [] posAmp_nil ?_
  intro acc p hacc hp
  by_cases h1 :
      (!(MVec.any fun ref => Key.overlapping p.1 ref) || !(Key.notEmpty p.1 allModes)) = true
  · rw [if_pos h1]
    exact posAmp_insKVnew hacc (hS p hp)
  · rw [if_neg h1]
    exact hacc

theorem posAmp_normalise {K W : Type} [Field K] [DecidableEq K] (ops : Ops K)
    (S : State K W) (hS : posAmp S.amp) : posAmp (State.normalise ops S).amp := by
  rw [State.normalise]
  exact posAmp_filter _ (posAmp_mapAmp _ hS)

theorem posAmp_stateNotEmpty {K W : Type} [Field K] [DecidableEq K] (ops : Ops K)
    (allModes : List (List ℤ)) (S : State K W) (hS : posAmp S.amp) :
    posAmp (State.notEmpty ops allModes S).amp := by
  rw [State.notEmpty]
  exact posAmp_normalise ops _ (posAmp_filter _ hS)

theorem posAmp_stateSameDModeDel {K W : Type} [Field K] (modes : List (List ℤ))
    (facs : List K) (S : State K W) (hS : posAmp S.amp) :
    posAmp (State.sameDModeDel modes facs S).amp := by
  rw [State.sameDModeDel]
  refine foldl_invariant posAmp _ S.amp [] posAmp_nil ?_
  intro acc p hacc hp
  cases hfd : firstDel p.1 modes 0 with
  | none => simpa [hfd] using hacc
  | some r =>
    simp only [hfd]
    exact posAmp_insKVadd hacc (firstDel_pos (hS p hp) modes 0 hfd)

theorem posAmp_stateMul {K W : Type} [Field K] (ops : Ops K) (n : K)
    (S : State K W) (hS : posAmp S.amp) : posAmp (State.mul ops n S).amp := by
  rw [State.mul]
  exact posAmp_filter _ (posAmp_mapAmp _ hS)

theorem posAmp_stateClean {K W : Type} (ops : Ops K) (S : State K W)
    (hS : posAmp S.amp) : posAmp (State.clean ops S).amp := by
  rw [State.clean]
  exact posAmp_filter _ hS

/-- C5 counterexample: State::loss exposes a ModeKey carrying a zero
occupation count. Losing the single photon at spatial mode 0 leaves the
depleted entry (0,0) -> 0 inside the exposed Key next to the environment
entry, and no clean pass removes it. -/
theorem C5_counterexample :
    ¬ (∀ p ∈ (State.loss qOps [0]
        ({ amp := [([((0, 0), 1)], 1)], waves := [7], basis := [[1]], lossMode := 1 }
          : State ℚ ℕ)).amp, posKey p.1) := by
  intro h
  have hamp : (State.loss qOps [0]
      ({ amp := [([((0, 0), 1)], 1)], waves := [7], basis := [[1]], lossMode := 1 }
        : State ℚ ℕ)).amp = [([((0, 0), 0), ((1, 0), 1)], 1)] := by
    simp [State.loss, Key.loss, State.addInto, qOps, insKV, insKVadd, insA, pLt, keyLt, eLt]
  have h2 := h ([((0, 0), 0), ((1, 0), 1)], 1) (by rw [hamp]; simp) ((0, 0), 0) (by simp)
  exact absurd h2 (by decide)

/-- C5 (amended): the strict-positivity exposure invariant holds for
addPhoton with a positive count, applyTwoModeUnitary, applySinglePhase,
swap, collapse, both outputs of overlapWithFilter, overlapCompl, notEmpty,
sameDModeDel, normalise, mul and clean, but loss only guarantees
non-negativity of the exposed occupation counts: the depleted entry stays
in the ModeKey with its decremented (possibly zero) count. -/
theorem C5_amended_positivity {K W : Type} [Field K] [DecidableEq K] (ops : Ops K)
    (ov : W → W → K) (wf : W) (mode num : ℤ) (U : List K) (modesl : List ℤ)
    (u1 : K) (m1 a b : ℤ) (Kt : KeyT) (ref : List (ℤ × ℤ))
    (allModes : List (List ℤ)) (fref : List (List (ℤ × ℤ)))
    (MVec : List (List (ℤ × ℤ))) (groups : List (List ℤ)) (facs : List K)
    (n : K) (S : State K W) (hS : posAmp S.amp) (hnum : 0 < num) :
    posAmp (State.addPhoton ops ov wf mode num S).amp ∧
    posAmp (State.apply ops U modesl S).amp ∧
    posAmp (State.apply1 u1 m1 S).amp ∧
    posAmp (State.swap a b S).amp ∧
    posAmp (State.collapse ops Kt S).amp ∧
    posAmp (State.overlapWithFilter ref allModes fref S).1.amp ∧
    posAmp (State.overlapWithFilter ref allModes fref S).2.amp ∧
    posAmp (State.overlapCompl MVec allModes S).amp ∧
    posAmp (State.notEmpty ops allModes S).amp ∧
    posAmp (State.sameDModeDel groups facs S).amp ∧
    posAmp (State.normalise ops S).amp ∧
    posAmp (State.mul ops n S).amp ∧
    posAmp (State.clean ops S).amp ∧
    (∀ p ∈ (State.loss ops modesl S).amp, nnKey p.1) := by
  have howf := owf_fold_pos ref allModes fref S.amp hS
  exact ⟨posAmp_addPhoton ops ov wf mode num S hS hnum,
    posAmp_stateApply ops U modesl S hS,
    posAmp_stateApply1 u1 m1 S hS,
    posAmp_stateSwap a b S hS,
    posAmp_stateCollapse ops Kt S hS,
    howf.1,
    howf.2,
    posAmp_overlapCompl MVec allModes S hS,
    posAmp_stateNotEmpty ops allModes S hS,
    posAmp_stateSameDModeDel groups facs S hS,
    posAmp_normalise ops S hS,
    posAmp_stateMul ops n S hS,
    posAmp_stateClean ops S hS,
    nnAmp_stateLoss ops modesl S hS⟩

/-- C5 witness: the amended invariant evaluated on a concrete one-photon
state: addPhoton keeps counts positive and loss keeps them non-negative. -/
theorem C5_witness :
    posAmp (State.addPhoton qOps (fun (i j : ℕ) => if i = j then 1 else 0) 7 0 1
      ({ amp := [([((0, 0), 1)], 1)], waves := [7], basis := [[1]], lossMode := 1 }
        : State ℚ ℕ)).amp ∧
    (∀ p ∈ (State.loss qOps [0]
      ({ amp := [([((0, 0), 1)], 1)], waves := [7], basis := [[1]], lossMode := 1 }
        : State ℚ ℕ)).amp, nnKey p.1) := by
  have h := C5_amended_positivity qOps (fun (i j : ℕ) => if i = j then 1 else 0) 7 0 1
    [1, 0, 0, 1] [0] 1 0 0 1 [] [] [] [] [] [] [] 1
    ({ amp := [([((0, 0), 1)], 1)], waves := [7], basis := [[1]], lossMode := 1 }
      : State ℚ ℕ)
    (by decide) (by decide)
  exact ⟨h.1, h.2.2.2.2.2.2.2.2.2.2.2.2.2⟩

theorem fold_insKV_map_mem_sub {K : Type} (F : KeyT × K → KeyT) :
    ∀ (l acc : SD K) (x : KeyT × K),
      x ∈ l.foldl (fun acc p => insKV (F p) p.2 acc) acc →
      x ∈ acc ∨ ∃ p ∈ l, x = (F p, p.2) := by
  intro l
  induction l with
  | nil => intro acc x hx; exact Or.inl hx
  | cons r rs ih =>
    intro acc x hx
    rw [List.foldl_cons] at hx
    rcases ih _ x hx with h | ⟨p, hp, hxp⟩
    · rcases insKV_mem_sub h with rfl | h2
      · exact Or.inr ⟨r, by simp, rfl⟩
      · exact Or.inl h2
    · exact Or.inr ⟨p, by simp [hp], hxp⟩

theorem fold_insKV_target {K : Type} (F : KeyT × K → KeyT) (t : KeyT × K) :
    ∀ (l acc : SD K),
      (t ∈ acc ∨ ∃ p ∈ l, (F p, p.2) = t) →
      (∀ q ∈ l, F q = t.1 → q.2 = t.2) →
      t ∈ l.foldl (fun acc p => insKV (F p) p.2 acc) acc := by
  intro l
  induction l with
  | nil =>
    intro acc h _
    rcases h with h | ⟨p, hp, _⟩
    · exact h
    · exact absurd hp (by simp)
  | cons p ps ih =>
    intro acc h hval
    rw [List.foldl_cons]
    apply ih
    · by_cases hk : F p = t.1
      · left
        have hv : p.2 = t.2 := hval p (by simp) hk
        have h2 : insKV (F p) p.2 acc = insKV t.1 t.2 acc := by rw [hk, hv]
        rw [h2]
        have h3 : t = (t.1, t.2) := rfl
        rw [h3]
        exact insKV_mem_ins t.1 t.2 acc
      · rcases h with hacc | ⟨q, hq, hfq⟩
        · exact Or.inl (insKV_mem_keep hacc (fun hh => hk hh.symm))
        · rcases List.mem_cons.mp hq with rfl | hq2
          · exact absurd (by rw [← hfq]) hk
          · exact Or.inr ⟨q, hq2, hfq⟩
    · intro q hq
      exact hval q (by simp [hq])

theorem sumAt_zero_values {K : Type} [Field K] (q : KeyT) :
    ∀ (l : SD K), (∀ p ∈ l, p.2 = 0) → sumAt q l = 0 := by
  intro l
  induction l with
  | nil => intro _; rfl
  | cons p ps ih =>
    intro h
    rw [sumAt_cons, h p (by simp), ih (fun r hr => h r (by simp [hr]))]
    simp

theorem sumAt_map_single {K : Type} [Field K] (q : KeyT) (F : KeyT × K → KeyT × K) :
    ∀ (l : SD K) (x : KeyT × K), SSorted l → x ∈ l →
      (∀ p ∈ l, p ≠ x → (F p).2 = 0) →
      sumAt q (l.map F) = (if (F x).1 = q then (F x).2 else 0) := by
  intro l
  induction l with
  | nil =>
    intro x _ hx
    cases hx
  | cons p ps ih =>
    intro x hs hx hz
    rcases hs with _ | ⟨hp, hps⟩
    rw [List.map_cons, sumAt_cons]
    rcases List.mem_cons.mp hx with rfl | hx2
    · have hzz : sumAt q (ps.map F) = 0 := by
        apply sumAt_zero_values
        intro r hr
        rcases List.mem_map.mp hr with ⟨s, hs2, rfl⟩
        exact hz s (by simp [hs2]) (fun hsx => keyLt_ne (hp s hs2) (by rw [hsx]))
      rw [hzz, add_zero]
    · have hpx : p ≠ x := fun h => keyLt_ne (hp x hx2) (by rw [h])
      rw [hz p (by simp) hpx, ih x hps hx2 (fun r hr hrx => hz r (by simp [hr]) hrx)]
      simp

theorem sum_map_single {K : Type} [Field K] (g : KeyT × K → K) :
    ∀ (l : SD K) (x : KeyT × K), SSorted l → x ∈ l →
      (∀ p ∈ l, p ≠ x → g p = 0) →
      (l.map g).sum = g x := by
  intro l
  induction l with
  | nil =>
    intro x _ hx
    cases hx
  | cons p ps ih =>
    intro x hs hx hz
    rcases hs with _ | ⟨hp, hps⟩
    rw [List.map_cons, List.sum_cons]
    rcases List.mem_cons.mp hx with rfl | hx2
    · have hzz : (ps.map g).sum = 0 := by
        apply List.sum_eq_zero
        intro r hr
        rcases List.mem_map.mp hr with ⟨s, hs2, rfl⟩
        exact hz s (by simp [hs2]) (fun hsx => keyLt_ne (hp s hs2) (by rw [hsx]))
      rw [hzz, add_zero]
    · have hpx : p ≠ x := fun h => keyLt_ne (hp x hx2) (by rw [h])
      rw [hz p (by simp) hpx, ih x hps hx2 (fun r hr hrx => hz r (by simp [hr]) hrx)]
      simp

theorem sumAt_flatMap {K : Type} [Field K] (q : KeyT) (f : KeyT × K → SD K) :
    ∀ (l : SD K), sumAt q (l.flatMap f) = (l.map (fun x => sumAt q (f x))).sum := by
  intro l
  induction l with
  | nil => rfl
  | cons p ps ih =>
    rw [List.flatMap_cons, sumAt_append, List.map_cons, List.sum_cons, ih]

theorem facut_nonneg (n : ℤ) : 0 ≤ facut n := by
  simp [facut]

theorem facut_ne_zero (n : ℤ) : facut n ≠ 0 := by
  simp [facut, Nat.factorial_ne_zero]

theorem facut_toNat_ne_zero (n : ℤ) : (facut n).toNat ≠ 0 := by
  simp [facut, Nat.factorial_ne_zero]

theorem facut_cast {K : Type} [Field K] (n : ℤ) :
    ((facut n : ℤ) : K) = (((facut n).toNat : ℕ) : K) := by
  have h := Int.toNat_of_nonneg (facut_nonneg n)
  conv_lhs => rw [← h]
  push_cast
  ring

theorem binom_self (n : ℤ) : binomialCoeff n n = 1 := by
  rw [binomialCoeff, sub_self]
  have h0 : facut 0 = 1 := rfl
  rw [h0, mul_one]
  exact Int.ediv_self (facut_ne_zero n)

theorem binom_zero (n : ℤ) : binomialCoeff n 0 = 1 := by
  rw [binomialCoeff, sub_zero]
  have h0 : facut 0 = 1 := rfl
  rw [h0, one_mul]
  exact Int.ediv_self (facut_ne_zero n)

theorem branchAmp_u2zero {K : Type} [Field K] (ops : Ops K) (n : ℤ) (j : ℕ)
    (hj : (j : ℤ) < n) : branchAmp ops 1 0 n j = 0 := by
  rw [branchAmp]
  rw [zero_pow (by omega : (n - (j : ℤ)).toNat ≠ 0)]
  simp

theorem branchAmp_u0zero {K : Type} [Field K] (ops : Ops K) (n : ℤ) (j : ℕ)
    (hj : j ≠ 0) : branchAmp ops 0 1 n j = 0 := by
  rw [branchAmp, zero_pow hj]
  simp

theorem branchAmp_top {K : Type} [Field K] (ops : Ops K) (n : ℤ) (hn : 0 < n) :
    branchAmp ops 1 0 n n.toNat = 1 / ops.sq ((facut n : ℤ) : K) := by
  rw [branchAmp]
  rw [Int.toNat_of_nonneg (le_of_lt hn), sub_self, binom_self]
  simp

theorem branchAmp_bot {K : Type} [Field K] (ops : Ops K) (n : ℤ) :
    branchAmp ops 0 1 n 0 = 1 / ops.sq ((facut n : ℤ) : K) := by
  rw [branchAmp]
  simp [binom_zero]

theorem branchKey_top {a b d n : ℤ} (hab : a ≠ b) (hn : 0 < n) :
    branchKey a b d n n.toNat = [((a, d), n)] := by
  rw [branchKey, Int.toNat_of_nonneg (le_of_lt hn), sub_self]
  have hne : ((b, d) : ℤ × ℤ) ≠ (a, d) := by
    intro h
    exact hab (congrArg Prod.fst h).symm
  rcases boolCases (pLt (b, d) (a, d)) with hlt | hlt
  · rw [insA, hlt]
    simp only [Bool.false_eq_true, if_false, if_neg hne]
    rw [insA]
    simp [Key.clean, List.filter, hn]
  · rw [insA, hlt]
    simp [Key.clean, List.filter, hn]

theorem branchKey_bot {a b d n : ℤ} (hab : a ≠ b) (hn : 0 < n) :
    branchKey a b d n 0 = [((b, d), n)] := by
  rw [branchKey]
  have hne : ((b, d) : ℤ × ℤ) ≠ (a, d) := by
    intro h
    exact hab (congrArg Prod.fst h).symm
  rcases boolCases (pLt (b, d) (a, d)) with hlt | hlt
  · rw [insA, hlt]
    simp only [Bool.false_eq_true, if_false, if_neg hne]
    rw [insA]
    simp [Key.clean, List.filter, hn]
  · rw [insA, hlt]
    simp [Key.clean, List.filter, hn]

theorem lookupP_clean {p : ℤ × ℤ} :
    ∀ {k : KeyT}, KSorted k →
      lookupP p (Key.clean k) =
        match lookupP p k with
        | some w => if 0 < w then some w else none
        | none => none := by
  intro k
  induction k with
  | nil => intro _; rfl
  | cons e es ih =>
    intro hs
    rcases hs with _ | ⟨he, hes⟩
    rw [Key.clean, List.filter_cons, lookupP_cons]
    by_cases hpe : e.1 = p
    · rw [if_pos hpe]
      rcases boolCases (decide (0 < e.2)) with hp2 | hp2
      · rw [hp2]
        simp only [Bool.false_eq_true, if_false]
        have h0 : ¬ 0 < e.2 := of_decide_eq_false hp2
        rw [if_neg h0]
        apply lookupP_not_mem
        intro f hf
        have hf2 := (List.mem_filter.mp hf).1
        exact fun hh => pLt_ne (he f hf2) (hpe.trans hh.symm)
      · rw [hp2]
        simp only [if_true]
        have h0 : 0 < e.2 := of_decide_eq_true hp2
        rw [lookupP_cons, if_pos hpe, if_pos h0]
    · rw [if_neg hpe]
      rcases boolCases (decide (0 < e.2)) with hp2 | hp2
      · rw [hp2]
        simp only [Bool.false_eq_true, if_false]
        rw [← Key.clean]
        exact ih hes
      · rw [hp2]
        simp only [if_true]
        rw [lookupP_cons, if_neg hpe, ← Key.clean]
        exact ih hes

theorem lookupP_branchKey_a {a b d n : ℤ} (hab : a ≠ b) (j : ℕ) :
    lookupP (a, d) (branchKey a b d n j) =
      if j = 0 then none else some (j : ℤ) := by
  have hne : ((a, d) : ℤ × ℤ) ≠ (b, d) := by
    intro h
    exact hab (congrArg Prod.fst h)
  rw [branchKey, lookupP_clean (KSorted_insA _ _ (by simp [KSorted])),
    lookupP_insA_other _ _ _ hne, lookupP_cons, if_pos rfl]
  by_cases hj : j = 0
  · rw [if_pos hj, hj]
    simp
  · rw [if_neg hj]
    show (if 0 < (j : ℤ) then some ((j : ℤ)) else none) = some ((j : ℤ))
    rw [if_pos (by omega : (0 : ℤ) < (j : ℤ))]

theorem branchKey_inj {a b d n : ℤ} (hab : a ≠ b) {j j2 : ℕ}
    (h : branchKey a b d n j = branchKey a b d n j2) : j = j2 := by
  have h1 := lookupP_branchKey_a (d := d) (n := n) hab j
  have h2 := lookupP_branchKey_a (d := d) (n := n) hab j2
  rw [h, h2] at h1
  by_cases hj : j = 0 <;> by_cases hj2 : j2 = 0
  · rw [hj, hj2]
  · rw [if_pos hj, if_neg hj2] at h1
    cases h1
  · rw [if_neg hj, if_pos hj2] at h1
    cases h1
  · rw [if_neg hj, if_neg hj2] at h1
    injection h1 with h3
    omega

theorem branchKey_pairs {a b d n : ℤ} {j : ℕ} :
    ∀ r ∈ branchKey a b d n j, r.1 = (a, d) ∨ r.1 = (b, d) := by
  intro r hr
  rw [branchKey, Key.clean] at hr
  have hr2 := (List.mem_filter.mp hr).1
  rcases insA_mem_sub hr2 with rfl | hr3
  · exact Or.inr rfl
  · simp only [List.mem_singleton] at hr3
    rw [hr3]
    exact Or.inl rfl

theorem KSorted_branchKey {a b d n : ℤ} {j : ℕ} : KSorted (branchKey a b d n j) := by
  rw [branchKey, Key.clean]
  exact List.Pairwise.filter _ (KSorted_insA _ _ (by simp [KSorted]))

theorem posKey_branchKey {a b d n : ℤ} {j : ℕ} : posKey (branchKey a b d n j) := by
  rw [branchKey]
  exact posKey_clean _

theorem SSorted_branches {K : Type} [Field K] (ops : Ops K) (u0 u2 : K)
    (a b d n : ℤ) : SSorted (branches ops u0 u2 a b d n) := by
  rw [branches]
  by_cases hn : n < 0
  · simp [hn, SSorted]
  · rw [if_neg hn]
    refine foldl_invariant SSorted _ _ [] (by simp [SSorted]) ?_
    intro acc p hacc _
    exact SSorted_insKV _ _ hacc

theorem branches_mem_sub {K : Type} [Field K] {ops : Ops K} {u0 u2 : K}
    {a b d n : ℤ} {bp : KeyT × K} (h : bp ∈ branches ops u0 u2 a b d n) :
    ∃ j < n.toNat + 1, bp = (branchKey a b d n j, branchAmp ops u0 u2 n j) := by
  rw [branches] at h
  by_cases hn : n < 0
  · rw [if_pos hn] at h
    cases h
  · rw [if_neg hn] at h
    rcases fold_insKV_map_mem_sub (fun p => p.1) _ _ _ h with h2 | ⟨p, hp, hbp⟩
    · cases h2
    · rcases List.mem_map.mp hp with ⟨j, hj, rfl⟩
      exact ⟨j, List.mem_range.mp hj, hbp⟩

theorem branches_mem {K : Type} [Field K] (ops : Ops K) (u0 u2 : K)
    (a b d n : ℤ) (hab : a ≠ b) (hn : 0 ≤ n) (j : ℕ) (hj : j < n.toNat + 1) :
    (branchKey a b d n j, branchAmp ops u0 u2 n j) ∈ branches ops u0 u2 a b d n := by
  rw [branches, if_neg (not_lt.mpr hn)]
  apply fold_insKV_target (fun p => p.1)
  · exact Or.inr ⟨(branchKey a b d n j, branchAmp ops u0 u2 n j),
      List.mem_map.mpr ⟨j, List.mem_range.mpr hj, rfl⟩, rfl⟩
  · intro q hq hkey
    rcases List.mem_map.mp hq with ⟨j2, hj2, rfl⟩
    rw [branchKey_inj hab hkey]

theorem branches_id_a {K : Type} [Field K] (ops : Ops K) {a b d n : ℤ}
    (hab : a ≠ b) (hn : 0 < n) :
    ∀ bp ∈ branches ops 1 0 a b d n,
      bp = ([((a, d), n)], 1 / ops.sq ((facut n : ℤ) : K)) ∨ bp.2 = 0 := by
  intro bp hbp
  rcases branches_mem_sub hbp with ⟨j, hj, rfl⟩
  by_cases hjn : (j : ℤ) = n
  · left
    have hjeq : j = n.toNat := by omega
    subst hjeq
    rw [branchKey_top hab hn, branchAmp_top ops n hn]
  · right
    exact branchAmp_u2zero ops n j (by omega)

theorem branches_id_b {K : Type} [Field K] (ops : Ops K) {a b d n : ℤ}
    (hab : a ≠ b) (hn : 0 < n) :
    ∀ bp ∈ branches ops 0 1 a b d n,
      bp = ([((b, d), n)], 1 / ops.sq ((facut n : ℤ) : K)) ∨ bp.2 = 0 := by
  intro bp hbp
  rcases branches_mem_sub hbp with ⟨j, hj, rfl⟩
  by_cases hj0 : j = 0
  · left
    subst hj0
    rw [branchKey_bot hab hn, branchAmp_bot]
  · right
    exact branchAmp_u0zero ops n j hj0

theorem branches_id_a_mem {K : Type} [Field K] (ops : Ops K) {a b d n : ℤ}
    (hab : a ≠ b) (hn : 0 < n) :
    (([((a, d), n)] : KeyT), 1 / ops.sq ((facut n : ℤ) : K)) ∈
      branches ops 1 0 a b d n := by
  have h := branches_mem ops 1 0 a b d n hab (le_of_lt hn) n.toNat (by omega)
  rwa [branchKey_top hab hn, branchAmp_top ops n hn] at h

theorem branches_id_b_mem {K : Type} [Field K] (ops : Ops K) {a b d n : ℤ}
    (hab : a ≠ b) (hn : 0 < n) :
    (([((b, d), n)] : KeyT), 1 / ops.sq ((facut n : ℤ) : K)) ∈
      branches ops 0 1 a b d n := by
  have h := branches_mem ops 0 1 a b d n hab (le_of_lt hn) 0 (by omega)
  rwa [branchKey_bot hab hn, branchAmp_bot] at h

theorem insA_inj {p : ℤ × ℤ} {c : ℤ} {k1 k2 : KeyT}
    (h1 : KSorted k1) (h2 : KSorted k2)
    (hp1 : ∀ e ∈ k1, e.1 ≠ p) (hp2 : ∀ e ∈ k2, e.1 ≠ p)
    (heq : insA p c k1 = insA p c k2) : k1 = k2 := by
  apply KSorted_ext h1 h2
  intro q
  by_cases hq : q = p
  · subst hq
    rw [lookupP_not_mem hp1, lookupP_not_mem hp2]
  · have e1 := lookupP_insA_other p q c hq k1
    have e2 := lookupP_insA_other p q c hq k2
    rw [← e1, ← e2, heq]

theorem KSorted_add {base inc : KeyT} (hb : KSorted base) :
    KSorted (Key.add base inc) := by
  rw [Key.add]
  refine foldl_invariant KSorted _ inc base hb ?_
  intro acc e hacc _
  exact KSorted_insAdd _ _ hacc

theorem Key_add_pairs {base inc : KeyT} :
    ∀ r ∈ Key.add base inc, (∃ s ∈ base, r.1 = s.1) ∨ ∃ s ∈ inc, r.1 = s.1 := by
  rw [Key.add]
  refine foldl_invariant
    (fun k => ∀ r ∈ k, (∃ s ∈ base, r.1 = s.1) ∨ ∃ s ∈ inc, r.1 = s.1)
    _ inc base ?_ ?_
  · intro r hr
    exact Or.inl ⟨r, hr, rfl⟩
  · intro acc e hacc he r hr
    rcases insAdd_mem_sub hr with rfl | hr2 | ⟨w, hw, rfl⟩
    · exact Or.inr ⟨e, he, rfl⟩
    · exact hacc r hr2
    · exact Or.inr ⟨e, he, rfl⟩

theorem insAdd_mid {p : ℤ × ℤ} {c : ℤ} {x : Entry} (hx : pLt p x.1 = true) :
    ∀ {pre : KeyT}, (∀ r ∈ pre, pLt r.1 p = true) →
      insAdd p c (pre ++ [x]) = pre ++ [(p, c), x] := by
  intro pre
  induction pre with
  | nil =>
    intro _
    simp only [List.nil_append]
    rw [insAdd, hx]
    simp
  | cons f fs ih =>
    intro h
    have hf := h f (by simp)
    rw [List.cons_append, insAdd, pLt_asymm hf]
    simp only [Bool.false_eq_true, if_false]
    rw [if_neg (fun hpe => pLt_ne hf (by rw [hpe])), ih (fun r hr => h r (by simp [hr]))]
    simp

theorem fold_insAdd_below {x : Entry} :
    ∀ (t pre : KeyT), (pre ++ t).Pairwise (fun e f => pLt e.1 f.1 = true) →
      (∀ r ∈ pre ++ t, pLt r.1 x.1 = true) →
      t.foldl (fun k e => insAdd e.1 e.2 k) (pre ++ [x]) = (pre ++ t) ++ [x] := by
  intro t
  induction t with
  | nil =>
    intro pre _ _
    simp
  | cons e es ih =>
    intro pre hs hlt
    rw [List.foldl_cons]
    have h1 : insAdd e.1 e.2 (pre ++ [x]) = pre ++ [(e.1, e.2), x] := by
      apply insAdd_mid (hlt e (by simp))
      intro r hr
      exact (List.pairwise_append.mp hs).2.2 r hr e (by simp)
    have h2 : pre ++ [(e.1, e.2), x] = (pre ++ [e]) ++ [x] := by simp
    rw [h1, h2, ih (pre ++ [e]) (by simpa using hs) (by intro r hr; apply hlt; simpa using hr)]
    simp

theorem Key_add_single {x : Entry} {t : KeyT}
    (hs : KSorted t) (hlt : ∀ r ∈ t, pLt r.1 x.1 = true) :
    Key.add [x] t = t ++ [x] := by
  rw [Key.add]
  have h := fold_insAdd_below t [] (by simpa using hs) (by simpa using hlt)
  simpa using h

theorem facProdN_append (a b : ℤ) (t : KeyT) (e : Entry) :
    facProdN a b (t ++ [e]) =
      facProdN a b t * (if e.1.1 = a ∨ e.1.1 = b then (facut e.2).toNat else 1) := by
  induction t with
  | nil => simp [facProdN]
  | cons f fs ih =>
    simp only [List.cons_append, facProdN, List.append_eq, ih]
    ring

theorem ampId_append {K : Type} [Field K] (ops : Ops K) (a b : ℤ) (t : KeyT)
    (e : Entry) :
    ampId ops a b (t ++ [e]) =
      ampId ops a b t *
        (if e.1.1 = a ∨ e.1.1 = b then 1 / ops.sq ((facut e.2 : ℤ) : K) else 1) := by
  induction t with
  | nil => simp [ampId]
  | cons f fs ih =>
    simp only [List.cons_append, ampId, List.append_eq, ih]
    ring

theorem ampId_ne_zero {K : Type} [Field K] (ops : Ops K) (a b : ℤ)
    (hsqne : ∀ x : ℕ, x ≠ 0 → ops.sq ((x : ℕ) : K) ≠ 0) :
    ∀ (t : KeyT), ampId ops a b t ≠ 0 := by
  intro t
  induction t with
  | nil => simp [ampId]
  | cons e es ih =>
    rw [ampId]
    apply mul_ne_zero _ ih
    by_cases h : e.1.1 = a ∨ e.1.1 = b
    · rw [if_pos h]
      apply one_div_ne_zero
      rw [facut_cast]
      exact hsqne _ (facut_toNat_ne_zero e.2)
    · rw [if_neg h]
      exact one_ne_zero

theorem factor2_fold {K : Type} [Field K] (a b : ℤ) :
    ∀ (k : KeyT) (r : K),
      k.foldl (fun r e => if e.1.1 = a ∨ e.1.1 = b then r * ((facut e.2 : ℤ) : K) else r) r =
        r * ((facProdN a b k : ℕ) : K) := by
  intro k
  induction k with
  | nil =>
    intro r
    simp [facProdN]
  | cons e es ih =>
    intro r
    rw [List.foldl_cons]
    by_cases h : e.1.1 = a ∨ e.1.1 = b
    · rw [if_pos h, ih]
      simp only [facProdN, if_pos h]
      rw [facut_cast]
      push_cast
      ring
    · rw [if_neg h, ih]
      simp only [facProdN, if_neg h]
      push_cast
      ring

theorem factor2_eq {K : Type} [Field K] (ops : Ops K) (a b : ℤ) (k : KeyT) :
    Key.factor2 ops a b k = ops.sq ((facProdN a b k : ℕ) : K) := by
  rw [Key.factor2, factor2_fold]
  rw [one_mul]

theorem ampId_mul_factor2 {K : Type} [Field K] (ops : Ops K) (a b : ℤ)
    (hsq1 : ops.sq 1 = 1)
    (hsqmul : ∀ x y : ℕ,
      ops.sq (((x : ℕ) : K) * ((y : ℕ) : K)) = ops.sq ((x : ℕ) : K) * ops.sq ((y : ℕ) : K))
    (hsqne : ∀ x : ℕ, x ≠ 0 → ops.sq ((x : ℕ) : K) ≠ 0) :
    ∀ (k : KeyT), ampId ops a b k * Key.factor2 ops a b k = 1 := by
  intro k
  rw [factor2_eq]
  induction k with
  | nil =>
    simp only [ampId, facProdN, Nat.cast_one]
    rw [hsq1, mul_one]
  | cons e es ih =>
    rw [ampId]
    simp only [facProdN]
    by_cases h : e.1.1 = a ∨ e.1.1 = b
    · rw [if_pos h, if_pos h]
      rw [Nat.cast_mul, hsqmul, facut_cast]
      have hA : ops.sq (((facut e.2).toNat : ℕ) : K) ≠ 0 :=
        hsqne _ (facut_toNat_ne_zero e.2)
      calc (1 / ops.sq (((facut e.2).toNat : ℕ) : K) * ampId ops a b es) *
            (ops.sq (((facut e.2).toNat : ℕ) : K) * ops.sq ((facProdN a b es : ℕ) : K)) =
          (ampId ops a b es * ops.sq ((facProdN a b es : ℕ) : K)) *
            (ops.sq (((facut e.2).toNat : ℕ) : K) / ops.sq (((facut e.2).toNat : ℕ) : K)) := by
            ring
        _ = 1 := by rw [div_self hA, mul_one, ih]
    · rw [if_neg h, if_neg h, one_mul, one_mul]
      exact ih

theorem sorted_filter_single {K : Type} [Field K] (ops : Ops K)
    (hbig : ∀ v : K, ops.big v = true ↔ v ≠ 0) :
    ∀ (l : SD K) (x : KeyT × K), SSorted l → x ∈ l → x.2 ≠ 0 →
      (∀ p ∈ l, p ≠ x → p.2 = 0) →
      l.filter (fun p => ops.big p.2) = [x] := by
  intro l
  induction l with
  | nil =>
    intro x _ hx
    cases hx
  | cons p ps ih =>
    intro x hs hx hx2 hz
    rcases hs with _ | ⟨hp, hps⟩
    rw [List.filter_cons]
    rcases List.mem_cons.mp hx with rfl | hxps
    · rw [if_pos ((hbig x.2).mpr hx2)]
      have hrest : ps.filter (fun p => ops.big p.2) = [] := by
        apply List.filter_eq_nil_iff.mpr
        intro q hq
        have hqx : q ≠ x := fun h => keyLt_ne (hp q hq) (by rw [h])
        rw [hz q (by simp [hq]) hqx]
        intro hbq
        exact ((hbig 0).mp hbq) rfl
      rw [hrest]
    · have hpx : p ≠ x := fun h => keyLt_ne (hp x hxps) (by rw [h])
      have hp0 : p.2 = 0 := hz p (by simp) hpx
      have : ops.big p.2 ≠ true := by
        rw [hp0]
        intro hbq
        exact ((hbig 0).mp hbq) rfl
      rw [if_neg this]
      exact ih x hps hxps hx2 (fun q hq hqx => hz q (by simp [hq]) hqx)

theorem convolve_mem_keys {K : Type} [Field K] {bm ret : SD K} :
    ∀ p ∈ convolve bm ret, ∃ bp ∈ bm, ∃ rp ∈ ret, p.1 = Key.add bp.1 rp.1 := by
  rw [convolve]
  refine foldl_invariant
    (fun (acc : SD K) => ∀ p ∈ acc, ∃ bp ∈ bm, ∃ rp ∈ ret, p.1 = Key.add bp.1 rp.1)
    _ bm [] ?_ ?_
  · intro p hp
    cases hp
  · intro acc bp hacc hbp
    refine foldl_invariant
      (fun (acc2 : SD K) => ∀ p ∈ acc2, ∃ bp ∈ bm, ∃ rp ∈ ret, p.1 = Key.add bp.1 rp.1)
      _ ret acc hacc ?_
    intro acc2 rp hacc2 hrp p hp
    rcases insKVadd_mem_sub hp with h1 | h2
    · exact ⟨bp, hbp, rp, hrp, h1⟩
    · exact hacc2 p h2

theorem convolve_single_step {K : Type} [Field K] (bm ret : SD K) (x : Entry)
    (amp0 : K)
    (hchar : ∀ bp ∈ bm, bp = ([x], amp0) ∨ bp.2 = 0)
    (hmem0 : (([x] : KeyT), amp0) ∈ bm)
    (hbs : SSorted bm)
    (t : KeyT) (v : K)
    (hts : KSorted t) (hlt : ∀ r ∈ t, pLt r.1 x.1 = true)
    (hsort : SSorted ret) (hmem : (t, v) ∈ ret)
    (hz : ∀ p ∈ ret, p.1 ≠ t → p.2 = 0) :
    sumAt (t ++ [x]) (convolve bm ret) = amp0 * v ∧
    (∀ q : KeyT, q ≠ t ++ [x] → sumAt q (convolve bm ret) = 0) := by
  have hinner : ∀ q : KeyT,
      sumAt q (convolve bm ret) = (if t ++ [x] = q then amp0 * v else 0) := by
    intro q
    rw [sumAt_convolve, sumAt_flatMap]
    have hsum := sum_map_single
      (fun bp => sumAt q (ret.map (fun rp => (Key.add bp.1 rp.1, bp.2 * rp.2))))
      bm (([x] : KeyT), amp0) hbs hmem0 ?_
    · rw [hsum]
      dsimp only
      have hmap := sumAt_map_single q
        (fun rp => (Key.add ([x] : KeyT) rp.1, amp0 * rp.2)) ret (t, v) hsort hmem ?_
      · rw [hmap]
        dsimp only
        have hadd : Key.add ([x] : KeyT) t = t ++ [x] := Key_add_single hts hlt
        rw [hadd]
      · intro p hp hpx
        by_cases hpt : p.1 = t
        · exact absurd (SSorted_eq_of_keyEq hsort hp hmem hpt) hpx
        · have := hz p hp hpt
          show amp0 * p.2 = 0
          rw [this, mul_zero]
    · intro bp hbp hbpx
      rcases hchar bp hbp with h1 | h1
      · exact absurd h1 hbpx
      · apply sumAt_zero_values
        intro r hr
        rcases List.mem_map.mp hr with ⟨rp, hrp, rfl⟩
        show bp.2 * rp.2 = 0
        rw [h1, zero_mul]
  constructor
  · rw [hinner, if_pos rfl]
  · intro q hq
    rw [hinner, if_neg (fun hh => hq hh.symm)]

theorem keyApplyId_fold {K : Type} [Field K] [DecidableEq K] (ops : Ops K) (a b : ℤ)
    (hab : a ≠ b)
    (hsqne : ∀ x : ℕ, x ≠ 0 → ops.sq ((x : ℕ) : K) ≠ 0) :
    ∀ (rest t : List Entry) (ret : SD K),
      (t ++ rest).Pairwise (fun e f => pLt e.1 f.1 = true) →
      posKey (t ++ rest) →
      SSorted ret →
      (∀ p ∈ ret, KSorted p.1) →
      (∀ p ∈ ret, posKey p.1) →
      (∀ p ∈ ret, ∀ r ∈ p.1, r.1.1 = a ∨ r.1.1 = b ∨ ∀ e ∈ rest, pLt r.1 e.1 = true) →
      (∀ p ∈ ret, p.1 ≠ t → p.2 = 0) →
      ((t, ampId ops a b t) ∈ ret) →
      SSorted (rest.foldl
        (fun ret e =>
          if e.1.1 ≠ a ∧ e.1.1 ≠ b then
            ret.foldl (fun acc p => insKV (insA (e.1.1, e.1.2) e.2 p.1) p.2 acc) []
          else
            convolve (branches ops
              (([1, 0, 0, 1] : List K).getD (if e.1.1 = a then 0 else 1) 0)
              (([1, 0, 0, 1] : List K).getD ((if e.1.1 = a then 0 else 1) + 2) 0)
              a b e.1.2 e.2) ret) ret) ∧
      (∀ p ∈ rest.foldl
        (fun ret e =>
          if e.1.1 ≠ a ∧ e.1.1 ≠ b then
            ret.foldl (fun acc p => insKV (insA (e.1.1, e.1.2) e.2 p.1) p.2 acc) []
          else
            convolve (branches ops
              (([1, 0, 0, 1] : List K).getD (if e.1.1 = a then 0 else 1) 0)
              (([1, 0, 0, 1] : List K).getD ((if e.1.1 = a then 0 else 1) + 2) 0)
              a b e.1.2 e.2) ret) ret, p.1 ≠ t ++ rest → p.2 = 0) ∧
      ((t ++ rest, ampId ops a b (t ++ rest)) ∈ rest.foldl
        (fun ret e =>
          if e.1.1 ≠ a ∧ e.1.1 ≠ b then
            ret.foldl (fun acc p => insKV (insA (e.1.1, e.1.2) e.2 p.1) p.2 acc) []
          else
            convolve (branches ops
              (([1, 0, 0, 1] : List K).getD (if e.1.1 = a then 0 else 1) 0)
              (([1, 0, 0, 1] : List K).getD ((if e.1.1 = a then 0 else 1) + 2) 0)
              a b e.1.2 e.2) ret) ret) := by
  intro rest
  induction rest with
  | nil =>
    intro t ret _ _ h3 _ _ _ h7 h8
    simp only [List.foldl_nil, List.append_nil]
    exact ⟨h3, h7, h8⟩
  | cons e es ih =>
    intro t ret hsorted hpos h3 h4 h5 h6 h7 h8
    rw [List.foldl_cons]
    have hts_lt : ∀ r ∈ t, pLt r.1 e.1 = true := by
      intro r hr
      exact (List.pairwise_append.mp hsorted).2.2 r hr e (by simp)
    have htK : KSorted t := (List.pairwise_append.mp hsorted).1
    have hes_lt : ∀ f ∈ es, pLt e.1 f.1 = true := by
      intro f hf
      exact List.rel_of_pairwise_cons (List.pairwise_append.mp hsorted).2.1 hf
    have hepos : 0 < e.2 := hpos e (by simp)
    have hassoc : t ++ e :: es = (t ++ [e]) ++ es := by simp
    have hsorted2 : ((t ++ [e]) ++ es).Pairwise (fun e f => pLt e.1 f.1 = true) := by
      rw [← hassoc]
      exact hsorted
    have hpos2 : posKey ((t ++ [e]) ++ es) := by
      rw [← hassoc]
      exact hpos
    by_cases hm : e.1.1 ≠ a ∧ e.1.1 ≠ b
    · rw [if_pos hm]
      have hinsA : insA (e.1.1, e.1.2) e.2 t = t ++ [e] := by
        rw [insA_append hts_lt]
      have hampid2 : ampId ops a b (t ++ [e]) = ampId ops a b t := by
        rw [ampId_append, if_neg (by
          rintro (h | h)
          · exact hm.1 h
          · exact hm.2 h), mul_one]
      have h3A : SSorted (ret.foldl
          (fun acc p => insKV (insA (e.1.1, e.1.2) e.2 p.1) p.2 acc) []) := by
        refine foldl_invariant SSorted _ ret [] (by simp [SSorted]) ?_
        intro acc p hacc _
        exact SSorted_insKV _ _ hacc
      have h4A : ∀ p ∈ ret.foldl
          (fun acc p => insKV (insA (e.1.1, e.1.2) e.2 p.1) p.2 acc) [], KSorted p.1 := by
        intro p hp
        rcases fold_insKV_map_mem_sub _ ret [] p hp with h | ⟨q, hq, rfl⟩
        · cases h
        · exact KSorted_insA _ _ (h4 q hq)
      have h5A : ∀ p ∈ ret.foldl
          (fun acc p => insKV (insA (e.1.1, e.1.2) e.2 p.1) p.2 acc) [], posKey p.1 := by
        intro p hp
        rcases fold_insKV_map_mem_sub _ ret [] p hp with h | ⟨q, hq, rfl⟩
        · cases h
        · exact posKey_insA (h5 q hq) hepos
      have h6A : ∀ p ∈ ret.foldl
          (fun acc p => insKV (insA (e.1.1, e.1.2) e.2 p.1) p.2 acc) [],
          ∀ r ∈ p.1, r.1.1 = a ∨ r.1.1 = b ∨ ∀ f ∈ es, pLt r.1 f.1 = true := by
        intro p hp r hr
        rcases fold_insKV_map_mem_sub _ ret [] p hp with h | ⟨q, hq, rfl⟩
        · cases h
        · rcases insA_mem_sub hr with rfl | hr2
          · exact Or.inr (Or.inr hes_lt)
          · rcases h6 q hq r hr2 with h | h | h
            · exact Or.inl h
            · exact Or.inr (Or.inl h)
            · exact Or.inr (Or.inr (fun f hf => h f (by simp [hf])))
      have h7A : ∀ p ∈ ret.foldl
          (fun acc p => insKV (insA (e.1.1, e.1.2) e.2 p.1) p.2 acc) [],
          p.1 ≠ t ++ [e] → p.2 = 0 := by
        intro p hp hne
        rcases fold_insKV_map_mem_sub _ ret [] p hp with h | ⟨q, hq, rfl⟩
        · cases h
        · by_cases hqt : q.1 = t
          · exfalso
            apply hne
            show insA (e.1.1, e.1.2) e.2 q.1 = t ++ [e]
            rw [hqt, hinsA]
          · exact h7 q hq hqt
      have h8A : (t ++ [e], ampId ops a b (t ++ [e])) ∈ ret.foldl
          (fun acc p => insKV (insA (e.1.1, e.1.2) e.2 p.1) p.2 acc) [] := by
        rw [hampid2]
        apply fold_insKV_target (fun p => insA (e.1.1, e.1.2) e.2 p.1)
          (t ++ [e], ampId ops a b t) ret []
        · right
          refine ⟨(t, ampId ops a b t), h8, ?_⟩
          show (insA (e.1.1, e.1.2) e.2 t, ampId ops a b t) = (t ++ [e], ampId ops a b t)
          rw [hinsA]
        · intro q hq hkey
          have hkey2 : insA (e.1.1, e.1.2) e.2 q.1 = insA (e.1.1, e.1.2) e.2 t := by
            show insA (e.1.1, e.1.2) e.2 q.1 = insA (e.1.1, e.1.2) e.2 t
            rw [hinsA]
            exact hkey
          have hqpairs : ∀ r ∈ q.1, r.1 ≠ (e.1.1, e.1.2) := by
            intro r hr
            rcases h6 q hq r hr with h | h | h
            · intro hh
              rw [hh] at h
              exact hm.1 h
            · intro hh
              rw [hh] at h
              exact hm.2 h
            · exact pLt_ne (h e (by simp))
          have htpairs : ∀ r ∈ t, r.1 ≠ (e.1.1, e.1.2) := fun r hr => pLt_ne (hts_lt r hr)
          have hq1t : q.1 = t := insA_inj (h4 q hq) htK hqpairs htpairs hkey2
          have hqeq := SSorted_eq_of_keyEq h3 hq h8 hq1t
          rw [hqeq]
      have hres := ih (t ++ [e]) _ hsorted2 hpos2 h3A h4A h5A h6A h7A h8A
      rw [hassoc]
      exact hres
    · rw [if_neg hm]
      have hcase : e.1.1 = a ∨ e.1.1 = b := by
        by_cases h : e.1.1 = a
        · exact Or.inl h
        · right
          by_cases h2 : e.1.1 = b
          · exact h2
          · exact absurd ⟨h, h2⟩ hm
      rcases hcase with ha | hb
      · subst ha
        rw [if_pos rfl]
        have hg0 : ([1, 0, 0, 1] : List K).getD 0 0 = 1 := rfl
        have hg2 : ([1, 0, 0, 1] : List K).getD (0 + 2) 0 = 0 := rfl
        rw [hg0, hg2]
        have hcs := convolve_single_step (branches ops 1 0 e.1.1 b e.1.2 e.2) ret e
          (1 / ops.sq ((facut e.2 : ℤ) : K))
          (branches_id_a ops hab hepos)
          (branches_id_a_mem ops hab hepos)
          (SSorted_branches ops 1 0 e.1.1 b e.1.2 e.2)
          t (ampId ops e.1.1 b t) htK hts_lt h3 h8 h7
        have hsum := hcs.1
        have hzero := hcs.2
        have h3B : SSorted (convolve (branches ops 1 0 e.1.1 b e.1.2 e.2) ret) :=
          SSorted_convolve _ _
        have h4B : ∀ p ∈ convolve (branches ops 1 0 e.1.1 b e.1.2 e.2) ret,
            KSorted p.1 := by
          intro p hp
          rcases convolve_mem_keys p hp with ⟨bp, hbp, rp, hrp, hkey⟩
          rcases branches_mem_sub hbp with ⟨j, hj, rfl⟩
          rw [hkey]
          exact KSorted_add KSorted_branchKey
        have h5B : ∀ p ∈ convolve (branches ops 1 0 e.1.1 b e.1.2 e.2) ret,
            posKey p.1 := by
          intro p hp
          rcases convolve_mem_keys p hp with ⟨bp, hbp, rp, hrp, hkey⟩
          rcases branches_mem_sub hbp with ⟨j, hj, rfl⟩
          rw [hkey]
          exact posKey_add posKey_branchKey (h5 rp hrp)
        have h6B : ∀ p ∈ convolve (branches ops 1 0 e.1.1 b e.1.2 e.2) ret,
            ∀ r ∈ p.1, r.1.1 = e.1.1 ∨ r.1.1 = b ∨ ∀ f ∈ es, pLt r.1 f.1 = true := by
          intro p hp r hr
          rcases convolve_mem_keys p hp with ⟨bp, hbp, rp, hrp, hkey⟩
          rcases branches_mem_sub hbp with ⟨j, hj, rfl⟩
          rw [hkey] at hr
          rcases Key_add_pairs r hr with ⟨s, hs, hrs⟩ | ⟨s, hs, hrs⟩
          · rcases branchKey_pairs s hs with h | h
            · left
              rw [hrs, h]
            · right
              left
              rw [hrs, h]
          · rcases h6 rp hrp s hs with h | h | h
            · left
              rw [hrs]
              exact h
            · right
              left
              rw [hrs]
              exact h
            · right
              right
              intro f hf
              rw [hrs]
              exact h f (by simp [hf])
        have h7B : ∀ p ∈ convolve (branches ops 1 0 e.1.1 b e.1.2 e.2) ret,
            p.1 ≠ t ++ [e] → p.2 = 0 := by
          intro p hp hne
          have h := sumAt_mem h3B hp
          rw [hzero p.1 hne] at h
          exact h.symm
        have hampval : ampId ops e.1.1 b (t ++ [e]) =
            1 / ops.sq ((facut e.2 : ℤ) : K) * ampId ops e.1.1 b t := by
          rw [ampId_append, if_pos (Or.inl rfl)]
          ring
        have h8B : (t ++ [e], ampId ops e.1.1 b (t ++ [e])) ∈
            convolve (branches ops 1 0 e.1.1 b e.1.2 e.2) ret := by
          have hsum2 : sumAt (t ++ [e]) (convolve (branches ops 1 0 e.1.1 b e.1.2 e.2) ret) =
              ampId ops e.1.1 b (t ++ [e]) := by
            rw [hsum, hampval]
          have hne0 : ampId ops e.1.1 b (t ++ [e]) ≠ 0 := ampId_ne_zero ops e.1.1 b hsqne _
          have h := sumAt_mem_self h3B (by rw [hsum2]; exact hne0)
          rw [hsum2] at h
          exact h
        have hres := ih (t ++ [e]) _ hsorted2 hpos2 h3B h4B h5B h6B h7B h8B
        rw [hassoc]
        exact hres
      · subst hb
        rw [if_neg (fun hh => hab hh.symm)]
        have hg1 : ([1, 0, 0, 1] : List K).getD 1 0 = 0 := rfl
        have hg3 : ([1, 0, 0, 1] : List K).getD (1 + 2) 0 = 1 := rfl
        rw [hg1, hg3]
        have hcs := convolve_single_step (branches ops 0 1 a e.1.1 e.1.2 e.2) ret e
          (1 / ops.sq ((facut e.2 : ℤ) : K))
          (branches_id_b ops hab hepos)
          (branches_id_b_mem ops hab hepos)
          (SSorted_branches ops 0 1 a e.1.1 e.1.2 e.2)
          t (ampId ops a e.1.1 t) htK hts_lt h3 h8 h7
        have hsum := hcs.1
        have hzero := hcs.2
        have h3B : SSorted (convolve (branches ops 0 1 a e.1.1 e.1.2 e.2) ret) :=
          SSorted_convolve _ _
        have h4B : ∀ p ∈ convolve (branches ops 0 1 a e.1.1 e.1.2 e.2) ret,
            KSorted p.1 := by
          intro p hp
          rcases convolve_mem_keys p hp with ⟨bp, hbp, rp, hrp, hkey⟩
          rcases branches_mem_sub hbp with ⟨j, hj, rfl⟩
          rw [hkey]
          exact KSorted_add KSorted_branchKey
        have h5B : ∀ p ∈ convolve (branches ops 0 1 a e.1.1 e.1.2 e.2) ret,
            posKey p.1 := by
          intro p hp
          rcases convolve_mem_keys p hp with ⟨bp, hbp, rp, hrp, hkey⟩
          rcases branches_mem_sub hbp with ⟨j, hj, rfl⟩
          rw [hkey]
          exact posKey_add posKey_branchKey (h5 rp hrp)
        have h6B : ∀ p ∈ convolve (branches ops 0 1 a e.1.1 e.1.2 e.2) ret,
            ∀ r ∈ p.1, r.1.1 = a ∨ r.1.1 = e.1.1 ∨ ∀ f ∈ es, pLt r.1 f.1 = true := by
          intro p hp r hr
          rcases convolve_mem_keys p hp with ⟨bp, hbp, rp, hrp, hkey⟩
          rcases branches_mem_sub hbp with ⟨j, hj, rfl⟩
          rw [hkey] at hr
          rcases Key_add_pairs r hr with ⟨s, hs, hrs⟩ | ⟨s, hs, hrs⟩
          · rcases branchKey_pairs s hs with h | h
            · left
              rw [hrs, h]
            · right
              left
              rw [hrs, h]
          · rcases h6 rp hrp s hs with h | h | h
            · left
              rw [hrs]
              exact h
            · right
              left
              rw [hrs]
              exact h
            · right
              right
              intro f hf
              rw [hrs]
              exact h f (by simp [hf])
        have h7B : ∀ p ∈ convolve (branches ops 0 1 a e.1.1 e.1.2 e.2) ret,
            p.1 ≠ t ++ [e] → p.2 = 0 := by
          intro p hp hne
          have h := sumAt_mem h3B hp
          rw [hzero p.1 hne] at h
          exact h.symm
        have hampval : ampId ops a e.1.1 (t ++ [e]) =
            1 / ops.sq ((facut e.2 : ℤ) : K) * ampId ops a e.1.1 t := by
          rw [ampId_append, if_pos (Or.inr rfl)]
          ring
        have h8B : (t ++ [e], ampId ops a e.1.1 (t ++ [e])) ∈
            convolve (branches ops 0 1 a e.1.1 e.1.2 e.2) ret := by
          have hsum2 : sumAt (t ++ [e]) (convolve (branches ops 0 1 a e.1.1 e.1.2 e.2) ret) =
              ampId ops a e.1.1 (t ++ [e]) := by
            rw [hsum, hampval]
          have hne0 : ampId ops a e.1.1 (t ++ [e]) ≠ 0 := ampId_ne_zero ops a e.1.1 hsqne _
          have h := sumAt_mem_self h3B (by rw [hsum2]; exact hne0)
          rw [hsum2] at h
          exact h
        have hres := ih (t ++ [e]) _ hsorted2 hpos2 h3B h4B h5B h6B h7B h8B
        rw [hassoc]
        exact hres

theorem keyApply_identity {K : Type} [Field K] [DecidableEq K] (ops : Ops K)
    (a b : ℤ) (k : KeyT) (hab : a ≠ b) (hk : KSorted k) (hpos : posKey k)
    (hbig : ∀ v : K, ops.big v = true ↔ v ≠ 0)
    (hsq1 : ops.sq 1 = 1)
    (hsqmul : ∀ x y : ℕ,
      ops.sq (((x : ℕ) : K) * ((y : ℕ) : K)) = ops.sq ((x : ℕ) : K) * ops.sq ((y : ℕ) : K))
    (hsqne : ∀ x : ℕ, x ≠ 0 → ops.sq ((x : ℕ) : K) ≠ 0) :
    Key.apply ops [1, 0, 0, 1] [a, b] k = [(k, 1)] := by
  have hga : ([a, b] : List ℤ).getD 0 0 = a := rfl
  have hgb : ([a, b] : List ℤ).getD 1 0 = b := rfl
  simp only [Key.apply, hga, hgb]
  have hfold := keyApplyId_fold ops a b hab hsqne k [] [([], 1)]
    (by simpa [KSorted] using hk)
    (by simpa using hpos)
    (by simp [SSorted])
    (by
      intro p hp
      simp only [List.mem_singleton] at hp
      rw [hp]
      simp [KSorted])
    (by
      intro p hp
      simp only [List.mem_singleton] at hp
      rw [hp]
      intro r hr
      exact absurd hr (by simp))
    (by
      intro p hp r hr
      simp only [List.mem_singleton] at hp
      rw [hp] at hr
      exact absurd hr (by simp))
    (by
      intro p hp hne
      simp only [List.mem_singleton] at hp
      rw [hp] at hne
      exact absurd rfl hne)
    (by simp [ampId])
  simp only [List.nil_append] at hfold
  have hfilter := sorted_filter_single ops hbig _ (k, ampId ops a b k) hfold.1
    hfold.2.2 (ampId_ne_zero ops a b hsqne k)
    (by
      intro p hp hne
      by_cases hpk : p.1 = k
      · exact absurd (SSorted_eq_of_keyEq hfold.1 hp hfold.2.2 hpk) hne
      · exact hfold.2.1 p hp hpk)
  rw [hfilter]
  simp only [List.map_cons, List.map_nil]
  rw [ampId_mul_factor2 ops a b hsq1 hsqmul hsqne k]

/-- C1: on a state with sorted amplitude map, sorted Keys and strictly
positive occupation numbers, whose amplitudes all pass the tolerance test,
applying the two-mode unitary given in line format as [1, 0, 0, 1] (the
identity) on any two distinct modes returns the state unchanged: the
binomial coefficients and the final factorial normalization factor exactly
cancel. The hypotheses on ops.sq hold for the square root (it maps 1 to 1,
is multiplicative and nonzero on positive integers), and the tolerance
test ops.big is assumed to hold exactly for nonzero amplitudes. -/
theorem C1_identity_two_mode_unitary {K W : Type} [Field K] [DecidableEq K]
    (ops : Ops K) (a b : ℤ) (S : State K W) (hab : a ≠ b)
    (hsort : SSorted S.amp)
    (hks : ∀ p ∈ S.amp, KSorted p.1)
    (hpos : posAmp S.amp)
    (hbigS : ∀ p ∈ S.amp, ops.big p.2 = true)
    (hbig : ∀ v : K, ops.big v = true ↔ v ≠ 0)
    (hsq1 : ops.sq 1 = 1)
    (hsqmul : ∀ x y : ℕ,
      ops.sq (((x : ℕ) : K) * ((y : ℕ) : K)) = ops.sq ((x : ℕ) : K) * ops.sq ((y : ℕ) : K))
    (hsqne : ∀ x : ℕ, x ≠ 0 → ops.sq ((x : ℕ) : K) ≠ 0) :
    State.apply ops [1, 0, 0, 1] [a, b] S = S := by
  rw [State.apply]
  have hext : S.amp.foldl
      (fun acc p => State.addInto acc (Key.apply ops [1, 0, 0, 1] [a, b] p.1) p.2) [] =
      S.amp.foldl (fun acc p => insKVadd p.1 (p.2 * 1) acc) [] := by
    apply List.foldl_ext
    intro acc p hp
    rw [keyApply_identity ops a b p.1 hab (hks p hp) (hpos p hp) hbig hsq1 hsqmul hsqne]
    rfl
  rw [hext]
  rw [fold_insKVadd_rebuild (fun p => p.2 * 1) S.amp []
    (by simpa [List.pairwise_map] using hsort)]
  simp only [List.nil_append]
  have hmap : S.amp.map (fun p => (p.1, p.2 * 1)) = S.amp := by
    simp
  rw [hmap, List.filter_eq_self.mpr hbigS]

/-- C1 witness: the identity unitary on modes 0 and 1 applied to a concrete
one-photon state over the rationals reproduces the state exactly. -/
theorem C1_witness :
    State.apply qOps [1, 0, 0, 1] [0, 1]
      ({ amp := [([((0, 0), 1)], 1)], waves := [7], basis := [[1]], lossMode := 1 }
        : State ℚ ℕ) =
      ({ amp := [([((0, 0), 1)], 1)], waves := [7], basis := [[1]], lossMode := 1 }
        : State ℚ ℕ) := by
  apply C1_identity_two_mode_unitary qOps 0 1 _ (by decide) (by decide) (by decide)
    (by decide) (by decide)
  · intro v
    simp [qOps]
  · rfl
  · intro x y
    rfl
  · intro x hx
    show ((x : ℕ) : ℚ) ≠ 0
    exact_mod_cast hx

theorem convolve_singleton {K : Type} [Field K] (bm : SD K) (hbs : SSorted bm) :
    convolve bm [([], 1)] = bm := by
  show bm.foldl (fun acc bp => insKVadd (Key.add bp.1 []) (bp.2 * 1) acc) [] = bm
  have h1 : ∀ (x : KeyT), Key.add x [] = x := fun x => rfl
  simp only [h1, mul_one]
  rw [fold_insKVadd_rebuild (fun p => p.2) bm []
    (by simpa [List.pairwise_map] using hbs)]
  simp

theorem branches_filter_mem {K : Type} [Field K] [DecidableEq K] (ops : Ops K)
    (u0 u2 : K) (a b d n : ℤ) (hab : a ≠ b) (hn : 0 < n) (p : KeyT × K) :
    p ∈ ((branches ops u0 u2 a b d n).filter (fun q => ops.big q.2)).map
        (fun q => (q.1, q.2 * Key.factor2 ops a b q.1)) ↔
      ∃ j < n.toNat + 1,
        p = (branchKey a b d n j,
          branchAmp ops u0 u2 n j * Key.factor2 ops a b (branchKey a b d n j)) ∧
        ops.big (branchAmp ops u0 u2 n j) = true := by
  constructor
  · intro hp
    rcases List.mem_map.mp hp with ⟨q, hq, rfl⟩
    have hq1 := (List.mem_filter.mp hq).1
    have hq2 := (List.mem_filter.mp hq).2
    rcases branches_mem_sub hq1 with ⟨j, hj, rfl⟩
    exact ⟨j, hj, rfl, hq2⟩
  · rintro ⟨j, hj, rfl, hbigj⟩
    apply List.mem_map.mpr
    refine ⟨(branchKey a b d n j, branchAmp ops u0 u2 n j), ?_, rfl⟩
    apply List.mem_filter.mpr
    exact ⟨branches_mem ops u0 u2 a b d n hab (le_of_lt hn) j hj, hbigj⟩

/-- C2 (amended): applyTwoModeUnitary on modes (a, b) realizes the
substitution with the two off-diagonal coefficients transposed relative to
the claim: an entry at spatial mode a is expanded with coefficients built
from U00 = U[0] (staying at a) and U10 = U[2] (moving to b), an entry at b
with U01 = U[1] (moving to a) and U11 = U[3] (staying at b); branch j of an
affected entry with occupation n carries unnormalized coefficient
U[i]^j * C(n,j) * U[i+2]^(n-j) / sqrt(n!) with i = 0 at a and i = 1 at b,
surviving the tolerance test and multiplied by the final factor; an entry
at any other spatial mode passes through unchanged. -/
theorem C2_amended_substitution {K : Type} [Field K] [DecidableEq K] (ops : Ops K)
    (U : List K) (a b d n m : ℤ) (hab : a ≠ b) (hn : 0 < n)
    (hsq1 : ops.sq 1 = 1) (hbig1 : ops.big 1 = true) (hma : m ≠ a) (hmb : m ≠ b) :
    (∀ p : KeyT × K,
      p ∈ Key.apply ops U [a, b] [((a, d), n)] ↔
        ∃ j < n.toNat + 1,
          p = (branchKey a b d n j,
            branchAmp ops (U.getD 0 0) (U.getD 2 0) n j *
              Key.factor2 ops a b (branchKey a b d n j)) ∧
          ops.big (branchAmp ops (U.getD 0 0) (U.getD 2 0) n j) = true) ∧
    (∀ p : KeyT × K,
      p ∈ Key.apply ops U [a, b] [((b, d), n)] ↔
        ∃ j < n.toNat + 1,
          p = (branchKey a b d n j,
            branchAmp ops (U.getD 1 0) (U.getD 3 0) n j *
              Key.factor2 ops a b (branchKey a b d n j)) ∧
          ops.big (branchAmp ops (U.getD 1 0) (U.getD 3 0) n j) = true) ∧
    Key.apply ops U [a, b] [((m, d), n)] = [([((m, d), n)], 1)] := by
  have hga : ([a, b] : List ℤ).getD 0 0 = a := rfl
  have hgb : ([a, b] : List ℤ).getD 1 0 = b := rfl
  refine ⟨?_, ?_, ?_⟩
  · intro p
    have hkey : Key.apply ops U [a, b] [((a, d), n)] =
        ((branches ops (U.getD 0 0) (U.getD 2 0) a b d n).filter
          (fun q => ops.big q.2)).map
          (fun q => (q.1, q.2 * Key.factor2 ops a b q.1)) := by
      simp only [Key.apply, hga, hgb, List.foldl_cons, List.foldl_nil]
      rw [if_neg (by simp)]
      simp only [if_true, Nat.reduceAdd]
      rw [convolve_singleton _ (SSorted_branches ops (U.getD 0 0) (U.getD 2 0) a b d n)]
    rw [hkey]
    exact branches_filter_mem ops (U.getD 0 0) (U.getD 2 0) a b d n hab hn p
  · intro p
    have hkey : Key.apply ops U [a, b] [((b, d), n)] =
        ((branches ops (U.getD 1 0) (U.getD 3 0) a b d n).filter
          (fun q => ops.big q.2)).map
          (fun q => (q.1, q.2 * Key.factor2 ops a b q.1)) := by
      simp only [Key.apply, hga, hgb, List.foldl_cons, List.foldl_nil]
      rw [if_neg (by simp)]
      rw [if_neg (fun h => hab h.symm)]
      simp only [Nat.reduceAdd]
      rw [convolve_singleton _ (SSorted_branches ops (U.getD 1 0) (U.getD 3 0) a b d n)]
    rw [hkey]
    exact branches_filter_mem ops (U.getD 1 0) (U.getD 3 0) a b d n hab hn p
  · simp only [Key.apply, hga, hgb, List.foldl_cons, List.foldl_nil]
    rw [if_pos ⟨hma, hmb⟩]
    have h1 : insKV (insA (m, d) n []) (1 : K) [] = [([((m, d), n)], 1)] := rfl
    rw [h1]
    have h2 : Key.factor2 ops a b [((m, d), n)] = ops.sq 1 := by
      rw [Key.factor2]
      simp [hma, hmb]
    simp [hbig1, h2, hsq1]

/-- C2 counterexample: with U = [1, 2, 3, 4] on modes (0, 1), the single
photon entry at mode 0 produces the branch at mode 1 with amplitude
U10 = U[2] = 3; the substitution claimed for a-dagger predicts coefficient
U01 = U[1] = 2 on that branch, and 3 differs from 2. -/
theorem C2_counterexample :
    Key.apply qOps [1, 2, 3, 4] [0, 1] [((0, 0), 1)] =
      [([((0, 0), 1)], 1), ([((1, 0), 1)], 3)] ∧
    (3 : ℚ) ≠ ([1, 2, 3, 4] : List ℚ).getD 1 0 := by
  constructor
  · simp [Key.apply, branches, branchKey, branchAmp, convolve, Key.add, Key.clean,
      Key.factor2, facut, binomialCoeff, insKV, insKVadd, insA, insAdd, pLt, keyLt,
      eLt, qOps, List.range_succ]
  · decide

/-- C2 witness: an entry away from the unitary modes passes through with
amplitude one, and the moved-photon branch of a mode-0 entry carries
amplitude  3 = U[2]. -/
theorem C2_witness :
    Key.apply qOps [1, 2, 3, 4] [0, 1] [((5, 0), 1)] = [([((5, 0), 1)], 1)] ∧
    ([((1, 0), 1)], (3 : ℚ)) ∈ Key.apply qOps [1, 2, 3, 4] [0, 1] [((0, 0), 1)] := by
  have h := C2_amended_substitution qOps [1, 2, 3, 4] 0 1 0 1 5 (by decide) (by decide)
    (by decide) (by decide) (by decide) (by decide)
  refine ⟨h.2.2, ?_⟩
  apply (h.1 ([((1, 0), 1)], 3)).mpr
  refine ⟨0, by omega, ?_, ?_⟩
  · have hbk := branchKey_bot (a := 0) (b := 1) (d := 0) (n := 1) (by decide) (by decide)
    rw [hbk]
    have hamp : branchAmp qOps (([1, 2, 3, 4] : List ℚ).getD 0 0)
        (([1, 2, 3, 4] : List ℚ).getD 2 0) 1 0 = 3 := by
      simp [branchAmp, binomialCoeff, facut, qOps]
    rw [hamp]
    have hf : Key.factor2 qOps 0 1 [((1, 0), 1)] = 1 := by
      simp [Key.factor2, facut, qOps]
    rw [hf, mul_one]
  · have hamp : branchAmp qOps (([1, 2, 3, 4] : List ℚ).getD 0 0)
        (([1, 2, 3, 4] : List ℚ).getD 2 0) 1 0 = 3 := by
      simp [branchAmp, binomialCoeff, facut, qOps]
    rw [hamp]
    decide

theorem hom_pipeline {K W : Type} [Field K] [DecidableEq K] (ops : Ops K)
    (ov : W → W → K) (f g : W) (s : K)
    (hovgg : ov g g = 1) (hovfg : ov f g = 0) (hovgf : ov g f = 0)
    (hc0 : ops.conj 0 = 0) (hc1 : ops.conj 1 = 1)
    (habs0 : ops.absv 0 = 0) (habs1 : ops.absv 1 = 1)
    (hsq1 : ops.sq 1 = 1)
    (habsOne0 : ops.absOne 0 = false)
    (hbig0 : ops.big 0 = false)
    (hbigP : ops.big (s * s) = true) (hbigN : ops.big (-(s * s)) = true) :
    (State.apply ops [s, s, s, -s] [0, 1]
      (State.addPhoton ops ov g 1 1
        (State.addPhoton ops ov f 0 1
          ({ amp := [], waves := [], basis := [], lossMode := 0 } : State K W)))).amp =
      [([((0, 0), 1), ((0, 1), 1)], s * s),
       ([((0, 0), 1), ((1, 1), 1)], -(s * s)),
       ([((0, 1), 1), ((1, 0), 1)], s * s),
       ([((1, 0), 1), ((1, 1), 1)], -(s * s))] := by
  have hS1 : State.addPhoton ops ov f 0 1
      ({ amp := [], waves := [], basis := [], lossMode := 0 } : State K W) =
      { amp := [([((0, 0), 1)], 1)], waves := [f], basis := [[1]], lossMode := 1 } := rfl
  rw [hS1]
  have hfind : (([f] : List W).findIdx? (fun w => ops.absOne (ov g w))) = none := by
    apply findIdx_none_of_false
    intro w hw
    simp only [List.mem_singleton] at hw
    rw [hw, hovgf, habsOne0]
  have hABE := addBasisElem_orth ops ov
    ({ amp := [([((0, 0), 1)], 1)], waves := [f], basis := [[1]], lossMode := 1 } : State K W)
    g rfl (by intro w hw; simp only [List.mem_singleton] at hw; rw [hw]; exact hovfg)
    hovgg hc0 hc1 habs0 habs1 hsq1
  have hS2 : State.addPhoton ops ov g 1 1
      ({ amp := [([((0, 0), 1)], 1)], waves := [f], basis := [[1]], lossMode := 1 } : State K W) =
      { amp := [([((0, 0), 1), ((1, 0), 1)], 0), ([((0, 0), 1), ((1, 1), 1)], 1)]
        waves := [f, g]
        basis := [[1], [0, 1]]
        lossMode := 2 } := by
    simp only [State.addPhoton, hfind, hABE]
    simp [insKVnew, Key.addEnd, insA, pLt, keyLt, eLt, List.range_succ]
    decide
  rw [hS2]
  simp [State.apply, State.addInto, Key.apply, branches, branchKey, branchAmp, convolve,
    Key.add, Key.clean, Key.factor2, facut, binomialCoeff, insKV, insKVadd, insA, insAdd,
    pLt, keyLt, eLt, List.range_succ, hsq1, hbig0, hbigP, hbigN]

/-- C7 (amended): starting from an empty QuantumState, adding one photon
with wave function f at spatial mode 0 and one with an orthogonal wave
function g at spatial mode 1, then applying the balanced beam splitter
[s, s, s, -s] on modes (0, 1), yields a state whose total amplitude on the
(1, 1) spatial configuration is zero, while the (2, 0) and (0, 2) spatial
configurations carry amplitudes of equal nonzero magnitude but opposite
sign: the (0, 2) amplitude is the negative of the (2, 0) amplitude, and
the (2, 0) amplitude is nonzero. -/
theorem C7_amended_hom {K W : Type} [Field K] [DecidableEq K] (ops : Ops K)
    (ov : W → W → K) (f g : W) (s : K) (hs : s ≠ 0)
    (hovgg : ov g g = 1) (hovfg : ov f g = 0) (hovgf : ov g f = 0)
    (hc0 : ops.conj 0 = 0) (hc1 : ops.conj 1 = 1)
    (habs0 : ops.absv 0 = 0) (habs1 : ops.absv 1 = 1)
    (hsq1 : ops.sq 1 = 1)
    (habsOne0 : ops.absOne 0 = false)
    (hbig0 : ops.big 0 = false)
    (hbigP : ops.big (s * s) = true) (hbigN : ops.big (-(s * s)) = true) :
    configAmp 1 1 (State.apply ops [s, s, s, -s] [0, 1]
        (State.addPhoton ops ov g 1 1
          (State.addPhoton ops ov f 0 1
            ({ amp := [], waves := [], basis := [], lossMode := 0 } : State K W)))).amp = 0 ∧
    configAmp 0 2 (State.apply ops [s, s, s, -s] [0, 1]
        (State.addPhoton ops ov g 1 1
          (State.addPhoton ops ov f 0 1
            ({ amp := [], waves := [], basis := [], lossMode := 0 } : State K W)))).amp =
      -(configAmp 2 0 (State.apply ops [s, s, s, -s] [0, 1]
        (State.addPhoton ops ov g 1 1
          (State.addPhoton ops ov f 0 1
            ({ amp := [], waves := [], basis := [], lossMode := 0 } : State K W)))).amp) ∧
    configAmp 2 0 (State.apply ops [s, s, s, -s] [0, 1]
        (State.addPhoton ops ov g 1 1
          (State.addPhoton ops ov f 0 1
            ({ amp := [], waves := [], basis := [], lossMode := 0 } : State K W)))).amp ≠ 0 := by
  rw [hom_pipeline ops ov f g s hovgg hovfg hovgf hc0 hc1 habs0 habs1 hsq1 habsOne0
    hbig0 hbigP hbigN]
  refine ⟨?_, ?_, ?_⟩
  · simp [configAmp, occOn]
  · simp [configAmp, occOn]
  · have h := mul_ne_zero hs hs
    simp [configAmp, occOn, h]

/-- C7 counterexample: with the square-root based operations over the
reals and the balanced beam splitter with s = sqrt(2)/2, the two-photon
bunching amplitudes on the (0, 2) and (2, 0) spatial configurations are
-1/2 and +1/2: opposite in sign, hence not equal as the claim states. -/
theorem C7_counterexample :
    (let ops : Ops ℝ :=
      { sq := Real.sqrt
        conj := fun v => v
        absv := fun v => |v|
        big := fun v => decide (v ≠ 0)
        absOne := fun v => decide (|v| = 1) }
     let ov : ℕ → ℕ → ℝ := fun i j => if i = j then 1 else 0
     let T := State.apply ops
        [Real.sqrt 2 / 2, Real.sqrt 2 / 2, Real.sqrt 2 / 2, -(Real.sqrt 2 / 2)] [0, 1]
        (State.addPhoton ops ov 1 1 1
          (State.addPhoton ops ov 0 0 1
            ({ amp := [], waves := [], basis := [], lossMode := 0 } : State ℝ ℕ)))
     configAmp 0 2 T.amp ≠ configAmp 2 0 T.amp) := by
  intro ops ov T
  have hs : Real.sqrt 2 / 2 ≠ 0 :=
    div_ne_zero (Real.sqrt_ne_zero'.mpr two_pos) two_ne_zero
  have hpipe := hom_pipeline ops ov 0 1 (Real.sqrt 2 / 2)
    (by simp [ov]) (by simp [ov]) (by simp [ov])
    rfl rfl abs_zero abs_one Real.sqrt_one
    (decide_eq_false (by simp))
    (decide_eq_false (by simp))
    (decide_eq_true (mul_ne_zero hs hs))
    (decide_eq_true (neg_ne_zero.mpr (mul_ne_zero hs hs)))
  show configAmp 0 2 (State.apply ops
      [Real.sqrt 2 / 2, Real.sqrt 2 / 2, Real.sqrt 2 / 2, -(Real.sqrt 2 / 2)] [0, 1]
      (State.addPhoton ops ov 1 1 1
        (State.addPhoton ops ov 0 0 1
          ({ amp := [], waves := [], basis := [], lossMode := 0 } : State ℝ ℕ)))).amp ≠
    configAmp 2 0 (State.apply ops
      [Real.sqrt 2 / 2, Real.sqrt 2 / 2, Real.sqrt 2 / 2, -(Real.sqrt 2 / 2)] [0, 1]
      (State.addPhoton ops ov 1 1 1
        (State.addPhoton ops ov 0 0 1
          ({ amp := [], waves := [], basis := [], lossMode := 0 } : State ℝ ℕ)))).amp
  rw [hpipe]
  have hss : Real.sqrt 2 / 2 * (Real.sqrt 2 / 2) = 1 / 2 := by
    rw [div_mul_div_comm, Real.mul_self_sqrt (by norm_num : (0 : ℝ) ≤ 2)]
    norm_num
  simp [configAmp, occOn, hss]
  norm_num

/-- C7 witness: the amended Hong-Ou-Mandel pattern evaluated with the
square-root operations over the reals and s = sqrt(2)/2: the total (1, 1)
amplitude vanishes and the (2, 0) amplitude is nonzero. -/
theorem C7_witness :
    (let ops : Ops ℝ :=
      { sq := Real.sqrt
        conj := fun v => v
        absv := fun v => |v|
        big := fun v => decide (v ≠ 0)
        absOne := fun v => decide (|v| = 1) }
     let ov : ℕ → ℕ → ℝ := fun i j => if i = j then 1 else 0
     let T := State.apply ops
        [Real.sqrt 2 / 2, Real.sqrt 2 / 2, Real.sqrt 2 / 2, -(Real.sqrt 2 / 2)] [0, 1]
        (State.addPhoton ops ov 1 1 1
          (State.addPhoton ops ov 0 0 1
            ({ amp := [], waves := [], basis := [], lossMode := 0 } : State ℝ ℕ)))
     configAmp 1 1 T.amp = 0 ∧ configAmp 2 0 T.amp ≠ 0) := by
  intro ops ov T
  have hs : Real.sqrt 2 / 2 ≠ 0 :=
    div_ne_zero (Real.sqrt_ne_zero'.mpr two_pos) two_ne_zero
  have h := C7_amended_hom ops ov 0 1 (Real.sqrt 2 / 2) hs
    (by simp [ov]) (by simp [ov]) (by simp [ov])
    rfl rfl abs_zero abs_one Real.sqrt_one
    (decide_eq_false (by simp))
    (decide_eq_false (by simp))
    (decide_eq_true (mul_ne_zero hs hs))
    (decide_eq_true (neg_ne_zero.mpr (mul_ne_zero hs hs)))
  exact ⟨h.1, h.2.2⟩
